import Mathlib

/-!
# Deep copy of a tree of linked content records

A shallow embedding of `src/source/deep-copy2.js`.

* JavaScript values that the code inspects become the inductive type `Value`;
  a plain object used as a dictionary becomes `Dict`, an association list that
  keeps the order in which its keys were created.
* The module-level variables (`references` and the four counters) and the
  sequence of calls made on the content store become the record `State`.
* The three sequential phases (create, rewrite, publish) are functions on
  `State`; a rejected promise is `Except.error`.
* Discovery (`findReferences` / `inspectField`) suspends at `wait` and at the
  store's `getEntry`, and `Promise.all` keeps several calls suspended at once.
  It is embedded as a tree of suspended calls (`Task`) and a step function that
  resumes one suspended call; the order of resumptions is a parameter.

A lookup `d[key]` in a plain object also finds the members the object
inherits from `Object.prototype` (`constructor`, `toString`, ...): `inherited`
says which keys these are, and the lookups by record id that can meet one (the
test of `findReferences` and the value `recursiveClone` returns) take it into
account.  `log` lines, the status timers and the `wait` delays of the
sequential phases have no effect on the state modelled here and are left out.
-/

namespace DeepCopy

/-! ## Data model -/

/-- A rejected promise: a `TypeError` raised by the code itself, or the failure
the store reported. -/
inductive Err where
  | typeError
  | store (msg : String)
deriving DecidableEq, Repr

/-- A plain object used as a dictionary: own keys in creation order. -/
abbrev Dict (α : Type) := List (String × α)

/-- Reading the own property `d[key]`; `none` when `d` has no own property
`key`. -/
def Dict.find {α : Type} : Dict α → String → Option α
  | [], _ => none
  | (k, v) :: d, key => if k = key then some v else Dict.find d key

/-- The assignment `d[key] = val`: an existing key keeps its place, a new key
is created last. -/
def Dict.put {α : Type} : Dict α → String → α → Dict α
  | [], key, val => [(key, val)]
  | (k, v) :: d, key, val =>
    if k = key then (k, val) :: d else (k, v) :: Dict.put d key val

/-- Own keys in creation order. -/
def Dict.keys {α : Type} (d : Dict α) : List String := d.map Prod.fst

/-- The property names every plain object inherits from `Object.prototype`. -/
def inheritedNames : List String :=
  ["constructor", "hasOwnProperty", "isPrototypeOf", "propertyIsEnumerable",
   "toLocaleString", "toString", "valueOf", "__proto__", "__defineGetter__",
   "__defineSetter__", "__lookupGetter__", "__lookupSetter__"]

/-- Whether `d[key]` of a plain object without an own property `key` finds an
inherited member instead of `undefined`.  These members are functions (and
`Object.prototype` itself for `__proto__`): truthy, and without a `sys`. -/
def inherited (key : String) : Bool := decide (key ∈ inheritedNames)

/-- Value of a decimal digit. -/
def digitValue (c : Char) : Option Nat :=
  if 48 ≤ c.toNat ∧ c.toNat ≤ 57 then some (c.toNat - 48) else none

/-- Value of a string of decimal digits, read left to right from `acc`. -/
def parseDigits : List Char → Nat → Option Nat
  | [], acc => some acc
  | c :: cs, acc =>
    match digitValue c with
    | none => none
    | some d => parseDigits cs (10 * acc + d)

/-- A key that is an array index: a canonical decimal numeral below `2^32 - 1`. -/
def arrayIndex (k : String) : Option Nat :=
  match k.data with
  | [] => none
  | c :: cs =>
    if c = '0' ∧ cs ≠ [] then none
    else (parseDigits (c :: cs) 0).filter (fun n => n < 4294967295)

/-- Sorting key of an array-index key. -/
def indexOrZero (k : String) : Nat := (arrayIndex k).getD 0

/-- Order in which `for (k in d)` visits the keys of a plain object: array
indices in ascending numeric order, then the other keys in creation order. -/
def forInKeys {α : Type} (d : Dict α) : List String :=
  List.insertionSort (fun a b => indexOrZero a ≤ indexOrZero b)
      ((Dict.keys d).filter (fun k => (arrayIndex k).isSome))
    ++ (Dict.keys d).filter (fun k => !(arrayIndex k).isSome)

/-- A field value.  `link` is an object whose `sys` member holds `type`,
`linkType` and `id`; `obj` is any other object.  A number is represented by
the two things the code can observe of it: whether it is truthy (neither zero
nor `NaN`) and the string that `+=` converts it to. -/
inductive Value where
  | null
  | bool (b : Bool)
  | num (nonzero : Bool) (text : String)
  | str (s : String)
  | arr (xs : List Value)
  | link (type : String) (linkType : String) (id : String)
  | obj (members : List (String × Value))

/-- The `fields` of a record: field name, then language tag, then value. -/
abbrev Fields := Dict (Dict Value)

/-- A record of the store: `sys.id`, `sys.contentType.sys.id`, `sys.version`
and `fields`. -/
structure Entry where
  id : String
  contentType : String
  version : Nat
  fields : Fields

/-- The test `field.sys && field.sys.type === "Link" && field.sys.linkType === "Entry"`
of `inspectField` and `updateReferencesOnField`, on an object with a `sys`. -/
def isEntryLink (type linkType : String) : Bool :=
  type = "Link" ∧ linkType = "Entry"

/-- JavaScript truthiness of a value that is present. -/
def truthy : Value → Bool
  | .null => false
  | .bool b => b
  | .num nonzero _ => nonzero
  | .str s => s != ""
  | .arr _ => true
  | .link _ _ _ => true
  | .obj _ => true

/-! ## Strings -/

/-- The first occurrence of `p` in a text: the text before it and the text
after it (`String.prototype.indexOf` from position 0). -/
def splitAtFirst (p : List Char) : List Char → Option (List Char × List Char)
  | [] => if p = [] then some ([], []) else none
  | c :: n =>
    if p.isPrefixOf (c :: n) then some ([], (c :: n).drop p.length)
    else (splitAtFirst p n).map (fun uv => (c :: uv.1, uv.2))

/-- The call `name.includes(placeholder)` on strings. -/
def includes (name placeholder : String) : Bool :=
  (splitAtFirst placeholder.data name.data).isSome

/-- The replacement text of `String.prototype.replace` for a string pattern
(no captures): in the template, `$$` stands for `$`, `$&` for the matched
text, `$` followed by a backtick for the text before the match, `$` followed by
an apostrophe for the text after it; every other character stands for itself. -/
def getSubstitution (matched before after : List Char) : List Char → List Char
  | [] => []
  | c :: r =>
    if c = '$' then
      match r with
      | [] => [c]
      | d :: r2 =>
        if d = '$' then '$' :: getSubstitution matched before after r2
        else if d = '&' then matched ++ getSubstitution matched before after r2
        else if d = Char.ofNat 96 then before ++ getSubstitution matched before after r2
        else if d = Char.ofNat 39 then after ++ getSubstitution matched before after r2
        else c :: d :: getSubstitution matched before after r2
    else c :: getSubstitution matched before after r

/-- The call `name.replace(placeholder, tag)` with a string pattern: the first
occurrence of the pattern is replaced by the substitution of the template. -/
def replace (name placeholder tag : String) : String :=
  match splitAtFirst placeholder.data name.data with
  | none => name
  | some (u, v) => String.mk (u ++ getSubstitution placeholder.data u v tag.data ++ v)

/-- Elements of `Array.prototype.join(",")`, already converted to strings. -/
def joinComma : List String → String
  | [] => ""
  | [s] => s
  | s :: t :: r => s ++ "," ++ joinComma (t :: r)

mutual
/-- JavaScript `ToString`, as string concatenation applies it to a value. -/
def toStr : Value → String
  | .null => "null"
  | .bool b => if b then "true" else "false"
  | .num _ text => text
  | .str s => s
  | .arr xs => joinComma (toStrElems xs)
  | .link _ _ _ => "[object Object]"
  | .obj _ => "[object Object]"
/-- Elements of an array as `join` converts them: `null` gives the empty string. -/
def toStrElems : List Value → List String
  | [] => []
  | .null :: vs => "" :: toStrElems vs
  | v :: vs => toStr v :: toStrElems vs
end

/-! ## Equality tests -/

mutual
/-- Equality test on field values. -/
def Value.same : Value → Value → Bool
  | .null, .null => true
  | .bool a, .bool b => a = b
  | .num a s, .num b t => a = b && s = t
  | .str a, .str b => a = b
  | .arr a, .arr b => sameElems a b
  | .link a b c, .link d e f => a = d ∧ b = e ∧ c = f
  | .obj a, .obj b => sameMembers a b
  | _, _ => false
/-- Equality test on lists of field values. -/
def sameElems : List Value → List Value → Bool
  | [], [] => true
  | a :: as, b :: bs => Value.same a b && sameElems as bs
  | _, _ => false
/-- Equality test on the members of an object. -/
def sameMembers : List (String × Value) → List (String × Value) → Bool
  | [], [] => true
  | (k, a) :: as, (l, b) :: bs => decide (k = l) && Value.same a b && sameMembers as bs
  | _, _ => false
end

mutual
theorem Value.same_iff : ∀ a b : Value, Value.same a b = true ↔ a = b
  | .null, b => by cases b <;> simp [Value.same]
  | .bool a, b => by cases b <;> simp [Value.same]
  | .num a s, b => by cases b <;> simp [Value.same]
  | .str a, b => by cases b <;> simp [Value.same]
  | .arr a, b => by
    cases b <;> simp [Value.same]
    exact sameElems_iff a _
  | .link a b c, v => by cases v <;> simp [Value.same]
  | .obj a, b => by
    cases b <;> simp [Value.same]
    exact sameMembers_iff a _
theorem sameElems_iff : ∀ a b : List Value, sameElems a b = true ↔ a = b
  | [], b => by cases b <;> simp [sameElems]
  | a :: as, b => by
    cases b with
    | nil => simp [sameElems]
    | cons b bs => simp [sameElems, Value.same_iff a b, sameElems_iff as bs]
theorem sameMembers_iff : ∀ a b : List (String × Value), sameMembers a b = true ↔ a = b
  | [], b => by cases b <;> simp [sameMembers]
  | (k, a) :: as, b => by
    cases b with
    | nil => simp [sameMembers]
    | cons b bs =>
      obtain ⟨l, b⟩ := b
      simp [sameMembers, Value.same_iff a b, sameMembers_iff as bs, and_assoc]
end

instance : DecidableEq Value := fun a b => decidable_of_iff _ (Value.same_iff a b)

deriving instance DecidableEq for Entry
deriving instance DecidableEq for Except

/-! ## The store and the module state -/

/-- A call made on the content store (`space`). -/
inductive Call where
  | getEntry (id : String)
  | createEntry (type : String) (fields : Fields)
  | updateEntry (entry : Entry)
  | publishEntry (entry : Entry)
deriving DecidableEq

/-- What `space.publishEntry(entry)` does: it returns a promise that resolves,
returns a promise that rejects later, or throws at once. -/
inductive PublishOutcome where
  | resolved
  | rejected (msg : String)
  | threw (msg : String)
deriving DecidableEq

/-- The content store.  `entries` holds the records `getEntry` resolves with;
`getEntry` rejects for an id that is not a key.  The other operations may
depend on the calls made so far (their first argument); `Except.error` is a
rejected promise. -/
structure Space where
  entries : Dict Entry
  createEntry : List Call → String → Fields → Except String Entry
  updateEntry : List Call → Entry → Except String Entry
  publishEntry : List Call → Entry → PublishOutcome

/-- The call `space.getEntry(entryId)`. -/
def Space.getEntry (space : Space) (entryId : String) : Except String Entry :=
  match Dict.find space.entries entryId with
  | some entry => .ok entry
  | none => .error "NotFound"

/-- The module-level variables, and the calls made on the store so far
(oldest first). -/
structure State where
  references : Dict Entry
  referenceCount : Nat
  newReferenceCount : Nat
  updatedReferenceCount : Nat
  publishedCount : Nat
  calls : List Call
deriving DecidableEq

/-! ## Creating the new entries -/

/-- Lines 91–97: the new naming value computed from a truthy
`entry.fields.internal["de-DE"]`.  On a value that is not a string,
`name.includes` or `name.replace` is not a function (an array has `includes`
but no `replace`), and `+=` converts the value to a string. -/
def newName (tag placeholder : String) : Value → Except Err String
  | .str name =>
    if placeholder ≠ "" ∧ includes name placeholder then .ok (replace name placeholder tag)
    else .ok (name ++ " " ++ tag)
  | .arr xs =>
    if placeholder ≠ "" then
      if xs.any (fun x => match x with
          | .str s => s = placeholder
          | _ => false)
      then .error .typeError
      else .ok (toStr (.arr xs) ++ " " ++ tag)
    else .ok (toStr (.arr xs) ++ " " ++ tag)
  | v =>
    if placeholder ≠ "" then .error .typeError
    else .ok (toStr v ++ " " ++ tag)

/-- Lines 90–100: the fields of a visited record after the naming value was
adjusted in place. -/
def renameFields (tag placeholder : String) (fields : Fields) : Except Err Fields :=
  match Dict.find fields "internal" with
  | none => .ok fields
  | some internal =>
    match Dict.find internal "de-DE" with
    | none => .ok fields
    | some v =>
      if truthy v then
        match newName tag placeholder v with
        | .error e => .error e
        | .ok name => .ok (Dict.put fields "internal" (Dict.put internal "de-DE" (.str name)))
      else .ok fields

/-- The loop of `createNewEntriesFromReferences` over the keys still to visit;
`newEntries` is the local dictionary built so far. -/
def createLoop (space : Space) (tag placeholder : String) :
    List String → State → Dict Entry → Except Err (Dict Entry) × State
  | [], st, newEntries => (.ok newEntries, st)
  | entryId :: ids, st, newEntries =>
    match Dict.find st.references entryId with
    | none => (.error .typeError, st)
    | some entry =>
      match renameFields tag placeholder entry.fields with
      | .error e => (.error e, st)
      | .ok fields =>
        let call := Call.createEntry entry.contentType fields
        let refs := Dict.put st.references entryId { entry with fields := fields }
        match space.createEntry st.calls entry.contentType fields with
        | .error msg =>
          (.error (.store msg), { st with references := refs, calls := st.calls ++ [call] })
        | .ok newEntry =>
          createLoop space tag placeholder ids
            { st with references := refs, calls := st.calls ++ [call],
                      newReferenceCount := st.newReferenceCount + 1 }
            (Dict.put newEntries entryId newEntry)

/-- The function `createNewEntriesFromReferences(space, tag, placeholder)`. -/
def createNewEntriesFromReferences (space : Space) (tag placeholder : String) (st : State) :
    Except Err (Dict Entry) × State :=
  createLoop space tag placeholder (forInKeys st.references) st []

/-! ## Rewriting the references -/

mutual
/-- The function `updateReferencesOnField(field, newReferences)`; the result is
the field value after the in-place assignment to `field.sys.id`.  Reading
`newReference.sys` of an `undefined` lookup raises a `TypeError`. -/
def updateReferencesOnField (newReferences : Dict Entry) : Value → Except Err Value
  | .arr xs =>
    match updateReferencesOnElems newReferences xs with
    | .error e => .error e
    | .ok ys => .ok (.arr ys)
  | .link type linkType id =>
    if isEntryLink type linkType then
      match Dict.find newReferences id with
      | none => .error .typeError
      | some newReference => .ok (.link type linkType newReference.id)
    else .ok (.link type linkType id)
  | .null => .ok .null
  | .bool b => .ok (.bool b)
  | .num nonzero text => .ok (.num nonzero text)
  | .str s => .ok (.str s)
  | .obj members => .ok (.obj members)
/-- The elements of an array under `Promise.all(field.map(...))`. -/
def updateReferencesOnElems (newReferences : Dict Entry) : List Value → Except Err (List Value)
  | [] => .ok []
  | v :: vs =>
    match updateReferencesOnField newReferences v with
    | .error e => .error e
    | .ok w =>
      match updateReferencesOnElems newReferences vs with
      | .error e => .error e
      | .ok ws => .ok (w :: ws)
end

/-- The loop `for (let lang in field)` of `updateReferenceTree`. -/
def updateLangs (newReferences : Dict Entry) : Dict Value → Except Err (Dict Value)
  | [] => .ok []
  | (lang, v) :: rest =>
    match updateReferencesOnField newReferences v with
    | .error e => .error e
    | .ok w =>
      match updateLangs newReferences rest with
      | .error e => .error e
      | .ok ws => .ok ((lang, w) :: ws)

/-- The loop `for (let fieldName in entry.fields)` of `updateReferenceTree`. -/
def updateFields (newReferences : Dict Entry) : Fields → Except Err Fields
  | [] => .ok []
  | (fieldName, field) :: rest =>
    match updateLangs newReferences field with
    | .error e => .error e
    | .ok f =>
      match updateFields newReferences rest with
      | .error e => .error e
      | .ok fs => .ok ((fieldName, f) :: fs)

/-- The loop of `updateReferenceTree` over the keys still to visit.  The
records of `newReferences` are rewritten in place; what `space.updateEntry`
resolves with is not used. -/
def updateLoop (space : Space) :
    List String → Dict Entry → State → Except Err (Dict Entry) × State
  | [], newReferences, st => (.ok newReferences, st)
  | entryId :: ids, newReferences, st =>
    match Dict.find newReferences entryId with
    | none => (.error .typeError, st)
    | some entry =>
      match updateFields newReferences entry.fields with
      | .error e => (.error e, st)
      | .ok fields =>
        let updated : Entry := { entry with fields := fields }
        let st1 : State := { st with calls := st.calls ++ [Call.updateEntry updated] }
        match space.updateEntry st.calls updated with
        | .error msg => (.error (.store msg), st1)
        | .ok _ =>
          updateLoop space ids (Dict.put newReferences entryId updated)
            { st1 with updatedReferenceCount := st1.updatedReferenceCount + 1 }

/-- The function `updateReferenceTree(space, newReferences)`; on success the
result is `newReferences` after the in-place rewriting. -/
def updateReferenceTree (space : Space) (newReferences : Dict Entry) (st : State) :
    Except Err (Dict Entry) × State :=
  updateLoop space (forInKeys newReferences) newReferences st

/-! ## Publishing -/

/-- The function `publishEntry(space, entry)`: the promise `space.publishEntry`
returns is not awaited, and a throw is caught, so the call always resolves. -/
def publishEntry (space : Space) (entry : Entry) (st : State) : State :=
  match space.publishEntry st.calls entry with
  | .threw _ => { st with calls := st.calls ++ [Call.publishEntry entry] }
  | .resolved => { st with calls := st.calls ++ [Call.publishEntry entry] }
  | .rejected _ => { st with calls := st.calls ++ [Call.publishEntry entry] }

/-- The pairs of key and value that a loop `for (k in d) { d[k] ... }` visits. -/
def forInPairs {α : Type} (d : Dict α) : List (String × α) :=
  (forInKeys d).filterMap (fun k => (Dict.find d k).map (fun v => (k, v)))

/-- The loop of `publishEntries` over the records still to visit. -/
def publishLoop (space : Space) : List (String × Entry) → State → State
  | [], st => st
  | (_, entry) :: rest, st =>
    let st1 := publishEntry space entry st
    publishLoop space rest { st1 with publishedCount := st1.publishedCount + 1 }

/-- The function `publishEntries(space, newReferences)`. -/
def publishEntries (space : Space) (newReferences : Dict Entry) (st : State) : State :=
  publishLoop space (forInPairs newReferences) st

/-! ## Discovery -/

/-- The calls of `findReferences` and `inspectField` that have not returned yet.

* `timer id`: `findReferences(space, id)` found `references[id]` empty and is
  suspended in `wait(waitTime)` inside `getEntry`;
* `fetch id`: the same call, now suspended on the promise of `space.getEntry(id)`;
* `explore id cur rest`: `findReferences(space, id)` has stored its record and
  awaits `inspectField` of one language variant (`cur`); `rest` are the
  language variants its two loops have still to visit;
* `all ts`: `inspectField` of an array, awaiting `Promise.all` of its elements;
* `done`: the call has returned. -/
inductive Task where
  | done
  | timer (entryId : String)
  | fetch (entryId : String)
  | explore (entryId : String) (cur : Task) (rest : List Value)
  | all (ts : List Task)

/-- The values `findReferences` passes to `inspectField`, in the order of its
two `for ... in` loops. -/
def langValues (fields : Fields) : List Value :=
  (forInPairs fields).flatMap (fun field => (forInPairs field.2).map Prod.snd)

/-- Whether a call has returned. -/
def Task.isDone : Task → Bool
  | .done => true
  | _ => false

/-- Whether every call of a list has returned. -/
def allDone (ts : List Task) : Bool := ts.all Task.isDone

/-- `Promise.all` of calls: it has resolved once every one of them has returned. -/
def mkAll (ts : List Task) : Task :=
  if allDone ts then .done else .all ts

/-- The function `findReferences(space, entryId)` up to its first suspension.
The test `if (references[entryId])` of line 64 succeeds for a record that is
stored and also, `references` being a plain object, for an id that is the name
of an inherited member. -/
def findReferences (references : Dict Entry) (entryId : String) : Task :=
  if (Dict.find references entryId).isSome || inherited entryId then .done
  else .timer entryId

mutual
/-- The function `inspectField(space, field)` up to the suspension of every call
it starts. -/
def inspectField (references : Dict Entry) : Value → Task
  | .arr xs => mkAll (inspectElems references xs)
  | .link type linkType id =>
    if isEntryLink type linkType then findReferences references id else .done
  | .null => .done
  | .bool _ => .done
  | .num _ _ => .done
  | .str _ => .done
  | .obj _ => .done
/-- The calls `field.map(...)` starts, one per element. -/
def inspectElems (references : Dict Entry) : List Value → List Task
  | [] => []
  | v :: vs => inspectField references v :: inspectElems references vs
end

/-- The two loops of `findReferences` from the next language variant on: each
variant is inspected, and the loop goes on as long as the inspection returns
without suspending. -/
def exploreFrom (references : Dict Entry) (entryId : String) : List Value → Task
  | [] => .done
  | v :: rest =>
    match inspectField references v with
    | .done => exploreFrom references entryId rest
    | t => .explore entryId t rest

mutual
/-- Number of suspended calls of `getEntry`. -/
def Task.pending : Task → Nat
  | .done => 0
  | .timer _ => 1
  | .fetch _ => 1
  | .explore _ cur _ => Task.pending cur
  | .all ts => pendingList ts
/-- Number of suspended calls of `getEntry` in a list of tasks. -/
def pendingList : List Task → Nat
  | [] => 0
  | t :: ts => Task.pending t + pendingList ts
end

mutual
/-- The `k`-th suspended call, left to right: `false` with its id for a call in
`wait`, `true` with its id for a call awaiting the store. -/
def Task.leaf : Task → Nat → Option (Bool × String)
  | .done, _ => none
  | .timer id, k => if k = 0 then some (false, id) else none
  | .fetch id, k => if k = 0 then some (true, id) else none
  | .explore _ cur _, k => Task.leaf cur k
  | .all ts, k => leafList ts k
/-- The `k`-th suspended call of a list of tasks. -/
def leafList : List Task → Nat → Option (Bool × String)
  | [], _ => none
  | t :: ts, k =>
    if k < Task.pending t then Task.leaf t k else leafList ts (k - Task.pending t)
end

mutual
/-- The task after its `k`-th suspended call became `new`: every caller whose
awaited call has returned goes on, reading the dictionary `references`. -/
def Task.resumeAt (references : Dict Entry) (new : Task) : Task → Nat → Task
  | .done, _ => .done
  | .timer id, k => if k = 0 then new else .timer id
  | .fetch id, k => if k = 0 then new else .fetch id
  | .explore id cur rest, k =>
    match Task.resumeAt references new cur k with
    | .done => exploreFrom references id rest
    | cur2 => .explore id cur2 rest
  | .all ts, k => mkAll (resumeAtList references new ts k)
/-- The list of tasks after its `k`-th suspended call became `new`. -/
def resumeAtList (references : Dict Entry) (new : Task) : List Task → Nat → List Task
  | [], _ => []
  | t :: ts, k =>
    if k < Task.pending t then Task.resumeAt references new t k :: ts
    else t :: resumeAtList references new ts (k - Task.pending t)
end

/-- One resumption: the `k`-th suspended call goes on until every call is
suspended again.  A call in `wait` issues `space.getEntry`; a call awaiting the
store receives its record, counts it, stores it (lines 70–72) and starts its
loops.  A rejected `getEntry` rejects every awaiting caller up to the root. -/
def resume (space : Space) (k : Nat) (task : Task) (st : State) : Except Err Task × State :=
  match Task.leaf task k with
  | none => (.ok task, st)
  | some (false, id) =>
    (.ok (Task.resumeAt st.references (.fetch id) task k),
      { st with calls := st.calls ++ [Call.getEntry id] })
  | some (true, id) =>
    match space.getEntry id with
    | .error msg => (.error (.store msg), st)
    | .ok entry =>
      let refs := Dict.put st.references id entry
      (.ok (Task.resumeAt refs (exploreFrom refs id (langValues entry.fields)) task k),
        { st with references := refs, referenceCount := st.referenceCount + 1 })

/-- Resumptions in the order the schedule gives: each number picks one of the
calls suspended at that moment (modulo their count).  The run stops when the
root call has returned, when it is rejected, or when the schedule ends. -/
def run (space : Space) : List Nat → Task → State → Except Err Task × State
  | [], task, st => (.ok task, st)
  | k :: ks, task, st =>
    match task with
    | .done => (.ok .done, st)
    | _ =>
      match resume space (k % Task.pending task) task st with
      | (.error e, st1) => (.error e, st1)
      | (.ok task1, st1) => run space ks task1 st1

/-- The call `findReferences(space, entryId)` under a schedule. -/
def discover (space : Space) (schedule : List Nat) (entryId : String) (st : State) :
    Except Err Task × State :=
  run space schedule (findReferences st.references entryId) st

/-! ## The whole operation -/

/-- How a call of `recursiveClone` ends: `pending` when the schedule ends while
discovery is still suspended; `returned (some entry)` when it returns a record
of the Clone Map and `returned none` when it returns `undefined`;
`returnedInherited key` when it returns the member `key` that the Clone Map
inherits from `Object.prototype`. -/
inductive Outcome where
  | pending
  | failed (e : Err)
  | returned (entry : Option Entry)
  | returnedInherited (key : String)
deriving DecidableEq

/-- The value of `newReferences[entryId]` that `recursiveClone` returns. -/
def returnValue (newReferences : Dict Entry) (entryId : String) : Outcome :=
  match Dict.find newReferences entryId with
  | some entry => .returned (some entry)
  | none => if inherited entryId then .returnedInherited entryId else .returned none

/-- The function `recursiveClone(space, entryId, tag, placeholder)`. -/
def recursiveClone (space : Space) (schedule : List Nat) (entryId tag placeholder : String)
    (st0 : State) : Outcome × State :=
  let st : State :=
    { references := [], referenceCount := 0, newReferenceCount := 0,
      updatedReferenceCount := 0, publishedCount := 0, calls := st0.calls }
  match discover space schedule entryId st with
  | (.error e, st1) => (.failed e, st1)
  | (.ok (.timer _), st1) => (.pending, st1)
  | (.ok (.fetch _), st1) => (.pending, st1)
  | (.ok (.explore _ _ _), st1) => (.pending, st1)
  | (.ok (.all _), st1) => (.pending, st1)
  | (.ok .done, st1) =>
    match createNewEntriesFromReferences space tag placeholder st1 with
    | (.error e, st2) => (.failed e, st2)
    | (.ok newReferences, st2) =>
      match updateReferenceTree space newReferences st2 with
      | (.error e, st3) => (.failed e, st3)
      | (.ok rewritten, st3) =>
        (returnValue rewritten entryId, publishEntries space rewritten st3)

/-! ## Notions used in the statements -/

/-- What one visited record contributes to `createNewEntriesFromReferences`: the `createEntry`
call made for it, the record the store returned, and the record left in `references`. -/
def CreatedFor (space : Space) (tag placeholder : String) (before : Dict Entry)
    (res after : Dict Entry) (id : String) (call : Call) : Prop :=
  ∃ (entry : Entry) (fields : Fields) (history : List Call) (clone : Entry),
    Dict.find before id = some entry ∧
    renameFields tag placeholder entry.fields = .ok fields ∧
    call = Call.createEntry entry.contentType fields ∧
    space.createEntry history entry.contentType fields = .ok clone ∧
    Dict.find res id = some clone ∧
    Dict.find after id = some { entry with fields := fields }

/-! ## References inside a value -/

mutual
/-- Targets of the Entry links that sit in a value directly or inside
(arbitrarily nested) arrays, left to right. -/
def entryLinks : Value → List String
  | .arr xs => entryLinksElems xs
  | .link type linkType id => if isEntryLink type linkType then [id] else []
  | .null => []
  | .bool _ => []
  | .num _ _ => []
  | .str _ => []
  | .obj _ => []
/-- Targets of the Entry links of the elements of an array. -/
def entryLinksElems : List Value → List String
  | [] => []
  | v :: vs => entryLinks v ++ entryLinksElems vs
end

/-- Targets of the Entry links that sit in a language variant of a field
directly or inside arrays, in the order the fields are stored. -/
def fieldLinks (fields : Fields) : List String :=
  fields.flatMap (fun field => field.2.flatMap (fun variant => entryLinks variant.2))

mutual
/-- Targets of all Entry links inside a value, those inside other objects
included. -/
def nestedLinks : Value → List String
  | .arr xs => nestedLinksElems xs
  | .link type linkType id => if isEntryLink type linkType then [id] else []
  | .obj members => nestedLinksMembers members
  | .null => []
  | .bool _ => []
  | .num _ _ => []
  | .str _ => []
/-- Targets of all Entry links inside the elements of an array. -/
def nestedLinksElems : List Value → List String
  | [] => []
  | v :: vs => nestedLinks v ++ nestedLinksElems vs
/-- Targets of all Entry links inside the members of an object. -/
def nestedLinksMembers : List (String × Value) → List String
  | [] => []
  | (_, v) :: ms => nestedLinks v ++ nestedLinksMembers ms
end

/-- Targets of all Entry links inside the fields of a record. -/
def nestedFieldLinks (fields : Fields) : List String :=
  fields.flatMap (fun field => field.2.flatMap (fun variant => nestedLinks variant.2))

/-! ## Scenarios -/

/-- An Entry link to the record `id`. -/
def entryLink (id : String) : Value := .link "Link" "Entry" id

/-- A record of content type `page`. -/
def page (id : String) (fields : Fields) : Entry :=
  { id := id, contentType := "page", version := 1, fields := fields }

/-- A store operation `createEntry` that gives the record created after `n`
calls the id `copy-n` and returns the submitted fields. -/
def createCopy (calls : List Call) (type : String) (fields : Fields) : Except String Entry :=
  .ok { id := "copy-" ++ toString calls.length, contentType := type, version := 1,
        fields := fields }

/-- A store operation `updateEntry` that returns its argument with the next version. -/
def bumpVersion (_ : List Call) (entry : Entry) : Except String Entry :=
  .ok { entry with version := entry.version + 1 }

/-- The records of the end-to-end scenario: `R` references `B` and `C` (in two
fields), `B` and `C` both reference `D`. -/
def diamondEntries : Dict Entry :=
  [("R", page "R" [("internal", [("de-DE", .str "Root PLACEHOLDER")]),
                   ("left", [("de-DE", entryLink "B")]),
                   ("right", [("de-DE", entryLink "C")])]),
   ("B", page "B" [("child", [("de-DE", .arr [entryLink "D"])])]),
   ("C", page "C" [("child", [("de-DE", entryLink "D")])]),
   ("D", page "D" [("internal", [("de-DE", .str "Leaf")])])]

/-- The store of the end-to-end scenario.  Publishing fails for two of the four
new records: for `copy-5` the call throws, for `copy-6` its promise rejects. -/
def diamond : Space :=
  { entries := diamondEntries
    createEntry := createCopy
    updateEntry := bumpVersion
    publishEntry := fun _ entry =>
      if entry.id = "copy-5" then .threw "refused"
      else if entry.id = "copy-6" then .rejected "refused"
      else .resolved }

/-- The module state before any call. -/
def emptyState : State :=
  { references := [], referenceCount := 0, newReferenceCount := 0,
    updatedReferenceCount := 0, publishedCount := 0, calls := [] }

/-- The state of the end-to-end scenario after discovery from `R`, under the
schedule that always resumes the first suspended call. -/
def diamondVisited : State :=
  { references :=
      [("R", page "R" [("internal", [("de-DE", .str "Root PLACEHOLDER")]),
                       ("left", [("de-DE", entryLink "B")]),
                       ("right", [("de-DE", entryLink "C")])]),
       ("B", page "B" [("child", [("de-DE", .arr [entryLink "D"])])]),
       ("D", page "D" [("internal", [("de-DE", .str "Leaf")])]),
       ("C", page "C" [("child", [("de-DE", entryLink "D")])])],
    referenceCount := 4, newReferenceCount := 0, updatedReferenceCount := 0,
    publishedCount := 0,
    calls := [Call.getEntry "R", Call.getEntry "B", Call.getEntry "D", Call.getEntry "C"] }

/-- The Visited Set of the end-to-end scenario after the naming step with tag
`v2` and placeholder `PLACEHOLDER`. -/
def diamondRenamed : Dict Entry :=
  [("R", page "R" [("internal", [("de-DE", .str "Root v2")]),
                   ("left", [("de-DE", entryLink "B")]),
                   ("right", [("de-DE", entryLink "C")])]),
   ("B", page "B" [("child", [("de-DE", .arr [entryLink "D"])])]),
   ("D", page "D" [("internal", [("de-DE", .str "Leaf v2")])]),
   ("C", page "C" [("child", [("de-DE", entryLink "D")])])]

/-- The new records of the end-to-end scenario as `createEntry` returned them,
keyed by the ids of their originals. -/
def diamondClones : Dict Entry :=
  [("R", page "copy-4" [("internal", [("de-DE", .str "Root v2")]),
                        ("left", [("de-DE", entryLink "B")]),
                        ("right", [("de-DE", entryLink "C")])]),
   ("B", page "copy-5" [("child", [("de-DE", .arr [entryLink "D"])])]),
   ("D", page "copy-6" [("internal", [("de-DE", .str "Leaf v2")])]),
   ("C", page "copy-7" [("child", [("de-DE", entryLink "D")])])]

/-- The Clone Map of the end-to-end scenario after `updateReferenceTree`. -/
def diamondRewritten : Dict Entry :=
  [("R", page "copy-4" [("internal", [("de-DE", .str "Root v2")]),
                        ("left", [("de-DE", entryLink "copy-5")]),
                        ("right", [("de-DE", entryLink "copy-7")])]),
   ("B", page "copy-5" [("child", [("de-DE", .arr [entryLink "copy-6"])])]),
   ("D", page "copy-6" [("internal", [("de-DE", .str "Leaf v2")])]),
   ("C", page "copy-7" [("child", [("de-DE", entryLink "copy-6")])])]

/-- The state of the end-to-end scenario after the new records were created. -/
def diamondCreated : State :=
  { references := diamondRenamed, referenceCount := 4, newReferenceCount := 4,
    updatedReferenceCount := 0, publishedCount := 0,
    calls := diamondVisited.calls
      ++ diamondRenamed.map (fun p => Call.createEntry "page" p.2.fields) }

/-- The state of the end-to-end scenario after the references were rewritten. -/
def diamondUpdated : State :=
  { diamondCreated with
    updatedReferenceCount := 4
    calls := diamondCreated.calls ++ diamondRewritten.map (fun p => Call.updateEntry p.2) }

/-- The state of the end-to-end scenario after the new records were published. -/
def diamondPublished : State :=
  { diamondUpdated with
    publishedCount := 4
    calls := diamondUpdated.calls ++ diamondRewritten.map (fun p => Call.publishEntry p.2) }

/-- New records in which the copy of `B` also holds a link to `D` inside
another object (as an embedded entry of a rich text does). -/
def embeddedClones : Dict Entry :=
  [("B", page "copy-B" [("body", [("de-DE", .obj [("target", entryLink "D")])]),
                        ("child", [("de-DE", entryLink "D")])]),
   ("D", page "copy-D" [])]

/-- New records in which the copy of `A` links to `X`, which has no copy. -/
def danglingClones : Dict Entry :=
  [("A", page "copy-A" [("child", [("de-DE", entryLink "X")])]),
   ("B", page "copy-B" [])]


/-- A Visited Set of two originals with identical content. -/
def twinState : State :=
  { references := [("T1", page "T" [("internal", [("de-DE", .str "Same")])]),
                   ("T2", page "T" [("internal", [("de-DE", .str "Same")])])],
    referenceCount := 2, newReferenceCount := 0, updatedReferenceCount := 0,
    publishedCount := 0, calls := [Call.getEntry "T1", Call.getEntry "T2"] }

/-- The records of a root whose array holds two links to the same record. -/
def twinLinksEntries : Dict Entry :=
  [("R", page "R" [("items", [("de-DE", .arr [entryLink "D", entryLink "D"])])]),
   ("D", page "D" [])]

/-- A store whose root holds two links to the same record in one array. -/
def twinLinks : Space :=
  { entries := twinLinksEntries
    createEntry := createCopy
    updateEntry := bumpVersion
    publishEntry := fun _ _ => .resolved }

/-- Whether a run of discovery has ended with the root call returned. -/
def completed (out : Except Err Task × State) : Bool :=
  match out.1 with
  | .ok .done => true
  | _ => false

/-- The phase a store call belongs to: 0 for `getEntry`, 1 for `createEntry`,
2 for `updateEntry`, 3 for `publishEntry`. -/
def Call.phase : Call → Nat
  | .getEntry _ => 0
  | .createEntry _ _ => 1
  | .updateEntry _ => 2
  | .publishEntry _ => 3

/-! ## Reachability and the invariants of discovery -/

/-- Targets of the Entry links `findReferences` follows from a record. -/
def linksOf (entry : Entry) : List String :=
  entryLinksElems (langValues entry.fields)

/-- The ids reachable from `root` by following Entry links that sit in a
language variant of a field directly or inside arrays. -/
inductive Reachable (space : Space) (root : String) : String → Prop where
  | root : Reachable space root root
  | step {a b : String} {entry : Entry} :
      Reachable space root a → Dict.find space.entries a = some entry →
      b ∈ linksOf entry → Reachable space root b

mutual
/-- The ids the suspended calls of a task are fetching or can still come to
fetch: the ids of the suspended `getEntry` calls and the targets of the Entry
links in the language variants not visited yet, those apart that the test of
`findReferences` passes over as inherited names. -/
def Task.awaited : Task → List String
  | .done => []
  | .timer id => [id]
  | .fetch id => [id]
  | .explore _ cur rest =>
    Task.awaited cur ++ (entryLinksElems rest).filter (fun x => !inherited x)
  | .all ts => awaitedList ts
/-- The ids awaited by a list of tasks. -/
def awaitedList : List Task → List String
  | [] => []
  | t :: ts => Task.awaited t ++ awaitedList ts
end

mutual
/-- Shape invariant of a task under the enclosing calls `anc` of `findReferences`:
a call that awaits has a suspended call below it, the record of every enclosing
call is stored, and no call is nested in a call for the same id. -/
def Task.Inv (refs : Dict Entry) : List String → Task → Prop
  | _, .done => True
  | anc, .timer id => id ∉ anc
  | anc, .fetch id => id ∉ anc
  | anc, .explore id cur _ =>
    id ∉ anc ∧ id ∈ Dict.keys refs ∧ 0 < Task.pending cur ∧ Task.Inv refs (id :: anc) cur
  | anc, .all ts => 0 < pendingList ts ∧ InvList refs anc ts
/-- The shape invariant for every task of a list. -/
def InvList (refs : Dict Entry) : List String → List Task → Prop
  | _, [] => True
  | anc, t :: ts => Task.Inv refs anc t ∧ InvList refs anc ts
end

/-- Bound on the resumptions a call of `findReferences` can still cause when
`j` more calls can be nested in it and a record holds at most `m` links. -/
def work (m : Nat) : Nat → Nat
  | 0 => 2
  | j + 1 => 2 + m * work m j

mutual
/-- Bound on the resumptions left in a task at nesting allowance `j`. -/
def Task.cost (m : Nat) : Nat → Task → Nat
  | _, .done => 0
  | j, .timer _ => work m j
  | j, .fetch _ => work m j - 1
  | j, .explore _ cur rest =>
    Task.cost m (j - 1) cur + (entryLinksElems rest).length * work m (j - 1)
  | j, .all ts => costList m j ts
/-- Bound on the resumptions left in a list of tasks. -/
def costList (m : Nat) : Nat → List Task → Nat
  | _, [] => 0
  | j, t :: ts => Task.cost m j t + costList m j ts
end

/-- A bound on the number of links a record of the store holds. -/
def maxLinks (space : Space) : Nat :=
  (space.entries.map (fun p => (linksOf p.2).length)).sum

/-- The number of resumptions after which every run of discovery has ended. -/
def discoveryBound (space : Space) : Nat :=
  work (maxLinks space) space.entries.length

/-- Invariant of a run of discovery from `root`. -/
structure Good (space : Space) (root : String) (task : Task) (st : State) : Prop where
  inv : Task.Inv st.references [] task
  stored : ∀ k e, Dict.find st.references k = some e → Dict.find space.entries k = some e
  reachKeys : ∀ k, k ∈ Dict.keys st.references → Reachable space root k
  reachAwaited : ∀ x, x ∈ Task.awaited task → Reachable space root x
  rootCovered : inherited root = false →
    root ∈ Dict.keys st.references ∨ root ∈ Task.awaited task
  closed : ∀ k e, Dict.find st.references k = some e →
    ∀ x, x ∈ linksOf e → inherited x = false →
      x ∈ Dict.keys st.references ∨ x ∈ Task.awaited task

/-- Check that a list of ids holds the root, that the store holds a record for
each of them, and that the links of these records stay inside the list. -/
def closedUnder (space : Space) (root : String) (ids : List String) : Bool :=
  decide (root ∈ ids) &&
  ids.all (fun a =>
    match Dict.find space.entries a with
    | some entry => (linksOf entry).all (fun b => decide (b ∈ ids))
    | none => false)

/-- Whether the naming value `fields.internal["de-DE"]` is absent, falsy or a
string. -/
def namingIsText (fields : Fields) : Bool :=
  match Dict.find fields "internal" with
  | none => true
  | some internal =>
    match Dict.find internal "de-DE" with
    | none => true
    | some (.str _) => true
    | some v => !truthy v

/-- Whether the fields are plain objects: no field name and no language tag of
a field occurs twice. -/
def plainFields (fields : Fields) : Bool :=
  decide (Dict.keys fields).Nodup && fields.all (fun field => decide (Dict.keys field.2).Nodup)

/-- A store whose root record has a number as naming value. -/
def numberNamed : Space :=
  { entries := [("R", page "R" [("internal", [("de-DE", (.num true "7"))])])]
    createEntry := createCopy
    updateEntry := bumpVersion
    publishEntry := fun _ _ => .resolved }

/-- A store whose `createEntry` adds to every new record a field that links to
a record `ghost`. -/
def addsLink : Space :=
  { entries := [("R", page "R" [])]
    createEntry := fun calls type fields =>
      createCopy calls type (fields ++ [("origin", [("de-DE", entryLink "ghost")])])
    updateEntry := bumpVersion
    publishEntry := fun _ _ => .resolved }

/-- A store that refuses every `updateEntry`. -/
def rejectsUpdate : Space :=
  { entries := [("R", page "R" [("child", [("de-DE", entryLink "B")])]), ("B", page "B" [])]
    createEntry := createCopy
    updateEntry := fun _ _ => .error "Conflict"
    publishEntry := fun _ _ => .resolved }

/-- A store whose record `R` links to `B` twice: in a language variant, and
inside another object (as an embedded entry of a rich text does). -/
def embedsLink : Space :=
  { entries := [("R", page "R" [("body", [("de-DE", .obj [("target", entryLink "B")])]),
                                ("child", [("de-DE", entryLink "B")])]),
                ("B", page "B" [])]
    createEntry := createCopy
    updateEntry := bumpVersion
    publishEntry := fun _ _ => .resolved }

/-- A store whose record `R` links to the record with the id `constructor`. -/
def protoLinked : Space :=
  { entries := [("R", page "R" [("child", [("de-DE", entryLink "constructor")])]),
                ("constructor", page "constructor" [])]
    createEntry := createCopy
    updateEntry := bumpVersion
    publishEntry := fun _ _ => .resolved }

/-- A store whose record `R` links to a record `X` that it does not hold. -/
def dangling : Space :=
  { entries := [("R", page "R" [("child", [("de-DE", entryLink "X")])])]
    createEntry := createCopy
    updateEntry := bumpVersion
    publishEntry := fun _ _ => .resolved }

/-- Whether a value is one of those `inspectField` has nothing to do with:
`null`, a scalar, an object that is not a link, or a link whose `linkType` is
not `Entry`. -/
def ignoredValue : Value → Bool
  | .null => true
  | .bool _ => true
  | .num _ _ => true
  | .str _ => true
  | .obj _ => true
  | .link _ linkType _ => linkType ≠ "Entry"
  | .arr _ => false

mutual
/-- A value with the target id of every Entry link that sits in it directly or
inside arrays blanked out: what is left is its shape, its scalars, its other
objects, and the `type` and `linkType` of its links. -/
def Value.shape : Value → Value
  | .arr xs => .arr (shapeElems xs)
  | .link type linkType id =>
    if isEntryLink type linkType then .link type linkType "" else .link type linkType id
  | .null => .null
  | .bool b => .bool b
  | .num nonzero text => .num nonzero text
  | .str s => .str s
  | .obj members => .obj members
/-- The shapes of the elements of an array, in order. -/
def shapeElems : List Value → List Value
  | [] => []
  | v :: vs => Value.shape v :: shapeElems vs
end

/-- The fields of a record with every value replaced by its shape. -/
def shapeFields (fields : Fields) : Fields :=
  fields.map (fun field => (field.1, field.2.map (fun variant => (variant.1, Value.shape variant.2))))

/-- What the naming step leaves of the fields of a record: the same field names, every field
other than `internal` as it was, and in `internal` the same language tags and every variant
other than `de-DE` as it was. -/
def SameButNaming (original submitted : Fields) : Prop :=
  Dict.keys submitted = Dict.keys original ∧
  (∀ name, name ≠ "internal" → Dict.find submitted name = Dict.find original name) ∧
  (∀ internal, Dict.find original "internal" = some internal →
    ∃ internal2, Dict.find submitted "internal" = some internal2 ∧
      Dict.keys internal2 = Dict.keys internal ∧
      ∀ lang, lang ≠ "de-DE" → Dict.find internal2 lang = Dict.find internal lang) ∧
  (Dict.find original "internal" = none → submitted = original)

mutual
/-- The chains of nested calls of `findReferences` in a task: for each suspended
`getEntry`, the ids of the calls that enclose it, outermost first, and its own. -/
def Task.chains : Task → List (List String)
  | .done => []
  | .timer id => [[id]]
  | .fetch id => [[id]]
  | .explore id cur _ => (Task.chains cur).map (fun chain => id :: chain)
  | .all ts => chainsList ts
/-- The chains of nested calls in a list of tasks. -/
def chainsList : List Task → List (List String)
  | [] => []
  | t :: ts => Task.chains t ++ chainsList ts
end

/-- The failure of a store call made after the calls `history`, if it fails:
the message its promise is rejected with.  A failure of `publishEntry` never
reaches the code. -/
def failure (space : Space) (history : List Call) : Call → Option String
  | .getEntry id =>
    match space.getEntry id with
    | .error msg => some msg
    | .ok _ => none
  | .createEntry type fields =>
    match space.createEntry history type fields with
    | .error msg => some msg
    | .ok _ => none
  | .updateEntry entry =>
    match space.updateEntry history entry with
    | .error msg => some msg
    | .ok _ => none
  | .publishEntry _ => none



/-! ## Strings: first occurrence -/

theorem splitAtFirst_eq (p : List Char) :
    ∀ (n u v : List Char), splitAtFirst p n = some (u, v) → n = u ++ p ++ v := by
  intro n
  induction n with
  | nil =>
    intro u v h
    unfold splitAtFirst at h
    split at h
    · rename_i hp
      cases h
      simp [hp]
    · cases h
  | cons c n ih =>
    intro u v h
    unfold splitAtFirst at h
    split at h
    · rename_i hp
      cases h
      have := List.prefix_iff_eq_append.mp (List.isPrefixOf_iff_prefix.mp hp)
      simpa using this.symm
    · cases hs : splitAtFirst p n with
      | none => simp [hs] at h
      | some uv =>
        obtain ⟨u1, v1⟩ := uv
        simp [hs] at h
        obtain ⟨rfl, rfl⟩ := h
        have := ih u1 v1 hs
        simp [this]

theorem splitAtFirst_shortest (p : List Char) :
    ∀ (n u v : List Char), splitAtFirst p n = some (u, v) →
      ∀ u2 v2 : List Char, n = u2 ++ p ++ v2 → u.length ≤ u2.length := by
  intro n
  induction n with
  | nil =>
    intro u v h u2 v2 _
    unfold splitAtFirst at h
    split at h
    · cases h; simp
    · cases h
  | cons c n ih =>
    intro u v h u2 v2 h2
    unfold splitAtFirst at h
    split at h
    · cases h; simp
    · rename_i hp
      cases hs : splitAtFirst p n with
      | none => simp [hs] at h
      | some uv =>
        obtain ⟨u1, v1⟩ := uv
        simp [hs] at h
        obtain ⟨rfl, rfl⟩ := h
        cases u2 with
        | nil =>
          exfalso
          apply hp
          rw [List.isPrefixOf_iff_prefix]
          exact ⟨v2, by simpa using h2.symm⟩
        | cons d u3 =>
          simp at h2
          have := ih u1 v1 hs u3 v2 (by simp [h2.2])
          simp
          omega

theorem splitAtFirst_none (p : List Char) :
    ∀ n : List Char, splitAtFirst p n = none → ¬ p <:+: n := by
  intro n
  induction n with
  | nil =>
    intro h hin
    unfold splitAtFirst at h
    split at h
    · cases h
    · rename_i hp
      exact hp (List.eq_nil_of_infix_nil hin)
  | cons c n ih =>
    intro h hin
    unfold splitAtFirst at h
    split at h
    · cases h
    · rename_i hp
      cases hs : splitAtFirst p n with
      | some uv => simp [hs] at h
      | none =>
        rcases List.infix_cons_iff.mp hin with hpre | hin2
        · exact hp (List.isPrefixOf_iff_prefix.mpr hpre)
        · exact ih hs hin2

theorem splitAtFirst_some_of_infix (p n : List Char) (h : p <:+: n) :
    ∃ u v, splitAtFirst p n = some (u, v) := by
  cases hs : splitAtFirst p n with
  | none => exact absurd h (splitAtFirst_none p n hs)
  | some uv => exact ⟨uv.1, uv.2, rfl⟩

theorem getSubstitution_literal (m b a : List Char) :
    ∀ t : List Char, '$' ∉ t → getSubstitution m b a t = t := by
  intro t
  induction t with
  | nil => intro _; rfl
  | cons c r ih =>
    intro h
    simp only [List.mem_cons, not_or] at h
    unfold getSubstitution
    rw [if_neg (fun e => h.1 e.symm), ih h.2]


/-! ## Dictionaries -/

theorem Dict.find_put_same {α : Type} (d : Dict α) (k : String) (v : α) :
    Dict.find (Dict.put d k v) k = some v := by
  induction d with
  | nil => simp [Dict.put, Dict.find]
  | cons p d ih =>
    obtain ⟨k1, v1⟩ := p
    by_cases h : k1 = k
    · simp [Dict.put, Dict.find, h]
    · simp [Dict.put, Dict.find, h, ih]

theorem Dict.find_put_other {α : Type} (d : Dict α) (k j : String) (v : α) (h : k ≠ j) :
    Dict.find (Dict.put d k v) j = Dict.find d j := by
  induction d with
  | nil => simp [Dict.put, Dict.find, h]
  | cons p d ih =>
    obtain ⟨k1, v1⟩ := p
    by_cases h1 : k1 = k
    · subst h1
      simp [Dict.put, Dict.find, h]
    · by_cases h2 : k1 = j
      · subst h2
        simp [Dict.put, Dict.find, h1]
      · simp [Dict.put, Dict.find, h1, h2, ih]

theorem Dict.find_isSome_iff {α : Type} (d : Dict α) (k : String) :
    (Dict.find d k).isSome = true ↔ k ∈ Dict.keys d := by
  induction d with
  | nil => simp [Dict.find, Dict.keys]
  | cons p d ih =>
    obtain ⟨k1, v1⟩ := p
    by_cases h : k1 = k
    · simp [Dict.find, Dict.keys, h]
    · have h2 : ¬ k = k1 := fun e => h e.symm
      simp only [Dict.keys] at ih
      simp [Dict.find, Dict.keys, h, h2, ih]

theorem Dict.find_some_mem_keys {α : Type} (d : Dict α) (k : String) (v : α)
    (h : Dict.find d k = some v) : k ∈ Dict.keys d :=
  (Dict.find_isSome_iff d k).mp (by simp [h])

theorem Dict.mem_keys_find {α : Type} (d : Dict α) (k : String) (h : k ∈ Dict.keys d) :
    ∃ v, Dict.find d k = some v :=
  Option.isSome_iff_exists.mp ((Dict.find_isSome_iff d k).mpr h)

theorem Dict.find_none_iff {α : Type} (d : Dict α) (k : String) :
    Dict.find d k = none ↔ k ∉ Dict.keys d := by
  rw [← Dict.find_isSome_iff]
  cases Dict.find d k <;> simp

theorem Dict.keys_put_mem {α : Type} (d : Dict α) (k : String) (v : α)
    (h : k ∈ Dict.keys d) : Dict.keys (Dict.put d k v) = Dict.keys d := by
  induction d with
  | nil => simp [Dict.keys] at h
  | cons p d ih =>
    obtain ⟨k1, v1⟩ := p
    by_cases h1 : k1 = k
    · simp [Dict.put, Dict.keys, h1]
    · have h2 : k ∈ Dict.keys d := by
        simp only [Dict.keys, List.map_cons, List.mem_cons] at h
        rcases h with h | h
        · exact absurd h.symm h1
        · exact h
      have := ih h2
      simp only [Dict.keys] at this
      simp [Dict.put, Dict.keys, h1, this]

theorem Dict.keys_put_new {α : Type} (d : Dict α) (k : String) (v : α)
    (h : k ∉ Dict.keys d) : Dict.keys (Dict.put d k v) = Dict.keys d ++ [k] := by
  induction d with
  | nil => simp [Dict.put, Dict.keys]
  | cons p d ih =>
    obtain ⟨k1, v1⟩ := p
    simp only [Dict.keys, List.map_cons, List.mem_cons, not_or] at h
    have h1 : ¬ k1 = k := fun e => h.1 e.symm
    have := ih (by simpa [Dict.keys] using h.2)
    simp only [Dict.keys] at this
    simp [Dict.put, Dict.keys, h1, this]

theorem Dict.mem_keys_put {α : Type} (d : Dict α) (k j : String) (v : α) :
    j ∈ Dict.keys (Dict.put d k v) ↔ j = k ∨ j ∈ Dict.keys d := by
  by_cases h : k ∈ Dict.keys d
  · rw [Dict.keys_put_mem d k v h]
    constructor
    · exact Or.inr
    · rintro (rfl | h2)
      · exact h
      · exact h2
  · rw [Dict.keys_put_new d k v h]
    simp [or_comm]

theorem forInKeys_perm {α : Type} (d : Dict α) : (forInKeys d).Perm (Dict.keys d) := by
  unfold forInKeys
  refine ((List.perm_insertionSort _ _).append_right _).trans ?_
  exact List.filter_append_perm _ _

theorem mem_forInKeys {α : Type} (d : Dict α) (k : String) :
    k ∈ forInKeys d ↔ k ∈ Dict.keys d :=
  (forInKeys_perm d).mem_iff

theorem forInKeys_nodup {α : Type} (d : Dict α) (h : (Dict.keys d).Nodup) :
    (forInKeys d).Nodup :=
  (forInKeys_perm d).nodup_iff.mpr h

theorem forInKeys_length {α : Type} (d : Dict α) :
    (forInKeys d).length = (Dict.keys d).length :=
  (forInKeys_perm d).length_eq


/-! ## The naming value -/

set_option maxRecDepth 100000 in
/-- C6: evaluation at tags that hold a `$` pattern. For the naming value `Foo PLACEHOLDER Bar` and
the placeholder `PLACEHOLDER`, the tag `v2` gives `Foo v2 Bar`, but the tag `$&` gives back
`Foo PLACEHOLDER Bar` and the tag `$$` gives `Foo $ Bar`: the tag is not inserted literally. -/
theorem naming_tag_with_dollar :
    newName "v2" "PLACEHOLDER" (.str "Foo PLACEHOLDER Bar") = .ok "Foo v2 Bar" ∧
    newName "$&" "PLACEHOLDER" (.str "Foo PLACEHOLDER Bar") = .ok "Foo PLACEHOLDER Bar" ∧
    newName "$$" "PLACEHOLDER" (.str "Foo PLACEHOLDER Bar") = .ok "Foo $ Bar" ∧
    renameFields "$&" "PLACEHOLDER" [("internal", [("de-DE", .str "Foo PLACEHOLDER Bar")])]
      = .ok [("internal", [("de-DE", .str "Foo PLACEHOLDER Bar")])] := by
  decide!

/-- The naming value for a tag without `$`: the first occurrence of the placeholder is replaced
by the tag itself. -/
theorem newName_replaces_first (tag placeholder name : String)
    (hp : placeholder ≠ "") (hin : placeholder.data <:+: name.data) (htag : '$' ∉ tag.data) :
    ∃ u v : List Char, name.data = u ++ placeholder.data ++ v ∧
      (∀ u2 v2 : List Char, name.data = u2 ++ placeholder.data ++ v2 → u.length ≤ u2.length) ∧
      newName tag placeholder (.str name) = .ok (String.mk (u ++ tag.data ++ v)) := by
  obtain ⟨u, v, hs⟩ := splitAtFirst_some_of_infix _ _ hin
  refine ⟨u, v, splitAtFirst_eq _ _ _ _ hs, splitAtFirst_shortest _ _ _ _ hs, ?_⟩
  have hinc : includes name placeholder = true := by simp [includes, hs]
  simp [newName, hp, hinc, replace, hs, getSubstitution_literal _ _ _ _ htag]

set_option maxRecDepth 100000 in
/-- C7, as stated, fails for the empty naming value: with the naming value `""`, the empty
placeholder and the tag `v2`, the submitted fields are the original fields, with the naming
value `""` and not `" v2"`. -/
theorem naming_empty_value_kept :
    renameFields "v2" "" [("internal", [("de-DE", .str "")])]
      = .ok [("internal", [("de-DE", .str "")])] := by
  decide!

/-- C7, amended: for a naming field (`fields.internal["de-DE"]`) that holds a non-empty string
`n`, every tag `t` and every placeholder that is empty or does not occur in `n`, the fields
submitted to `createEntry` are the original fields with the naming value `n ++ " " ++ t`. -/
theorem naming_value_appended (tag placeholder n : String) (fields : Fields)
    (internal : Dict Value)
    (hfield : Dict.find fields "internal" = some internal)
    (hvalue : Dict.find internal "de-DE" = some (.str n))
    (hn : n ≠ "")
    (hp : placeholder = "" ∨ ¬ placeholder.data <:+: n.data) :
    renameFields tag placeholder fields
      = .ok (Dict.put fields "internal" (Dict.put internal "de-DE" (.str (n ++ " " ++ tag)))) ∧
    ∀ submitted, renameFields tag placeholder fields = .ok submitted →
      (Dict.find submitted "internal").bind (fun langs => Dict.find langs "de-DE")
        = some (.str (n ++ " " ++ tag)) := by
  have hnew : newName tag placeholder (.str n) = .ok (n ++ " " ++ tag) := by
    rcases hp with hp | hp
    · simp [newName, hp]
    · have : includes n placeholder = false := by
        unfold includes
        cases hs : splitAtFirst placeholder.data n.data with
        | none => rfl
        | some uv =>
          exfalso
          apply hp
          have := splitAtFirst_eq _ _ _ _ hs
          exact ⟨uv.1, uv.2, this.symm⟩
      simp [newName, this]
  have hmain : renameFields tag placeholder fields
      = .ok (Dict.put fields "internal" (Dict.put internal "de-DE" (.str (n ++ " " ++ tag)))) := by
    simp [renameFields, hfield, hvalue, truthy, hn, hnew]
  refine ⟨hmain, ?_⟩
  intro submitted hs
  rw [hmain] at hs
  cases hs
  simp [Dict.find_put_same]

set_option maxRecDepth 100000 in
/-- C7, amended, at the example of the claim: naming value `Foo`, empty placeholder, tag `v2`. -/
theorem naming_value_appended_witness :
    renameFields "v2" "" [("internal", [("de-DE", .str "Foo")])]
      = .ok (Dict.put [("internal", [("de-DE", .str "Foo")])] "internal"
          (Dict.put [("de-DE", .str "Foo")] "de-DE" (.str ("Foo" ++ " " ++ "v2")))) ∧
    ∀ submitted, renameFields "v2" "" [("internal", [("de-DE", .str "Foo")])] = .ok submitted →
      (Dict.find submitted "internal").bind (fun langs => Dict.find langs "de-DE")
        = some (.str ("Foo" ++ " " ++ "v2")) :=
  naming_value_appended "v2" "" "Foo" [("internal", [("de-DE", .str "Foo")])]
    [("de-DE", .str "Foo")] (by decide!) (by decide!) (by decide!) (Or.inl rfl)


/-! ## Rewriting the references -/

mutual
theorem updateReferencesOnField_links (nr : Dict Entry) :
    ∀ v w : Value, updateReferencesOnField nr v = .ok w →
      (entryLinks w).map some = (entryLinks v).map (fun t => (Dict.find nr t).map Entry.id)
  | .null, w, h => by simp [updateReferencesOnField] at h; subst h; simp [entryLinks]
  | .bool _, w, h => by simp [updateReferencesOnField] at h; subst h; simp [entryLinks]
  | .num _ _, w, h => by simp [updateReferencesOnField] at h; subst h; simp [entryLinks]
  | .str _, w, h => by simp [updateReferencesOnField] at h; subst h; simp [entryLinks]
  | .obj _, w, h => by simp [updateReferencesOnField] at h; subst h; simp [entryLinks]
  | .link type linkType id, w, h => by
    unfold updateReferencesOnField at h
    by_cases hl : isEntryLink type linkType = true
    · rw [if_pos hl] at h
      cases hf : Dict.find nr id with
      | none => simp [hf] at h
      | some e =>
        simp [hf] at h
        subst h
        simp [entryLinks, hl, hf]
    · rw [if_neg hl] at h
      simp at h
      subst h
      simp [entryLinks, hl]
  | .arr xs, w, h => by
    unfold updateReferencesOnField at h
    cases hx : updateReferencesOnElems nr xs with
    | error e => simp [hx] at h
    | ok ys =>
      simp [hx] at h
      subst h
      simpa [entryLinks] using updateReferencesOnElems_links nr xs ys hx
theorem updateReferencesOnElems_links (nr : Dict Entry) :
    ∀ vs ws : List Value, updateReferencesOnElems nr vs = .ok ws →
      (entryLinksElems ws).map some
        = (entryLinksElems vs).map (fun t => (Dict.find nr t).map Entry.id)
  | [], ws, h => by simp [updateReferencesOnElems] at h; subst h; simp [entryLinksElems]
  | v :: vs, ws, h => by
    unfold updateReferencesOnElems at h
    cases hv : updateReferencesOnField nr v with
    | error e => simp [hv] at h
    | ok w =>
      cases hvs : updateReferencesOnElems nr vs with
      | error e => simp [hv, hvs] at h
      | ok ws2 =>
        simp [hv, hvs] at h
        subst h
        simp [entryLinksElems, updateReferencesOnField_links nr v w hv,
          updateReferencesOnElems_links nr vs ws2 hvs]
end

theorem updateLangs_links (nr : Dict Entry) :
    ∀ field out : Dict Value, updateLangs nr field = .ok out →
      Dict.keys out = Dict.keys field ∧
      (out.flatMap (fun variant => entryLinks variant.2)).map some
        = (field.flatMap (fun variant => entryLinks variant.2)).map
            (fun t => (Dict.find nr t).map Entry.id) := by
  intro field
  induction field with
  | nil => intro out h; simp [updateLangs] at h; subst h; simp [Dict.keys]
  | cons p rest ih =>
    intro out h
    obtain ⟨lang, v⟩ := p
    unfold updateLangs at h
    cases hv : updateReferencesOnField nr v with
    | error e => simp [hv] at h
    | ok w =>
      cases hr : updateLangs nr rest with
      | error e => simp [hv, hr] at h
      | ok ws =>
        simp [hv, hr] at h
        subst h
        obtain ⟨hk, hl⟩ := ih ws hr
        simp only [Dict.keys] at hk
        refine ⟨by simp [Dict.keys, hk], ?_⟩
        simp only [List.flatMap_cons, List.map_append]
        rw [updateReferencesOnField_links nr v w hv, hl]

theorem updateFields_links (nr : Dict Entry) :
    ∀ fields out : Fields, updateFields nr fields = .ok out →
      Dict.keys out = Dict.keys fields ∧
      (fieldLinks out).map some
        = (fieldLinks fields).map (fun t => (Dict.find nr t).map Entry.id) := by
  intro fields
  induction fields with
  | nil => intro out h; simp [updateFields] at h; subst h; simp [Dict.keys, fieldLinks]
  | cons p rest ih =>
    intro out h
    obtain ⟨name, field⟩ := p
    unfold updateFields at h
    cases hv : updateLangs nr field with
    | error e => simp [hv] at h
    | ok f =>
      cases hr : updateFields nr rest with
      | error e => simp [hv, hr] at h
      | ok fs =>
        simp [hv, hr] at h
        subst h
        obtain ⟨hk, hl⟩ := ih fs hr
        simp only [Dict.keys] at hk
        refine ⟨by simp [Dict.keys, hk], ?_⟩
        simp only [fieldLinks] at hl
        simp only [fieldLinks, List.flatMap_cons, List.map_append]
        rw [(updateLangs_links nr field f hv).2, hl]

mutual
theorem updateReferencesOnField_shape (nr : Dict Entry) :
    ∀ v w : Value, updateReferencesOnField nr v = .ok w → Value.shape w = Value.shape v
  | .null, w, h => by simp [updateReferencesOnField] at h; subst h; rfl
  | .bool _, w, h => by simp [updateReferencesOnField] at h; subst h; rfl
  | .num _ _, w, h => by simp [updateReferencesOnField] at h; subst h; rfl
  | .str _, w, h => by simp [updateReferencesOnField] at h; subst h; rfl
  | .obj _, w, h => by simp [updateReferencesOnField] at h; subst h; rfl
  | .link type linkType id, w, h => by
    unfold updateReferencesOnField at h
    by_cases hl : isEntryLink type linkType = true
    · rw [if_pos hl] at h
      cases hf : Dict.find nr id with
      | none => simp [hf] at h
      | some e =>
        simp [hf] at h
        subst h
        simp [Value.shape, hl]
    · rw [if_neg hl] at h
      simp at h
      subst h
      rfl
  | .arr xs, w, h => by
    unfold updateReferencesOnField at h
    cases hx : updateReferencesOnElems nr xs with
    | error e => simp [hx] at h
    | ok ys =>
      simp [hx] at h
      subst h
      simp [Value.shape, updateReferencesOnElems_shape nr xs ys hx]
theorem updateReferencesOnElems_shape (nr : Dict Entry) :
    ∀ vs ws : List Value, updateReferencesOnElems nr vs = .ok ws →
      shapeElems ws = shapeElems vs
  | [], ws, h => by simp [updateReferencesOnElems] at h; subst h; rfl
  | v :: vs, ws, h => by
    unfold updateReferencesOnElems at h
    cases hv : updateReferencesOnField nr v with
    | error e => simp [hv] at h
    | ok w =>
      cases hvs : updateReferencesOnElems nr vs with
      | error e => simp [hv, hvs] at h
      | ok ws2 =>
        simp [hv, hvs] at h
        subst h
        simp [shapeElems, updateReferencesOnField_shape nr v w hv,
          updateReferencesOnElems_shape nr vs ws2 hvs]
end

theorem updateLangs_shape (nr : Dict Entry) :
    ∀ field out : Dict Value, updateLangs nr field = .ok out →
      out.map (fun variant => (variant.1, Value.shape variant.2))
        = field.map (fun variant => (variant.1, Value.shape variant.2)) := by
  intro field
  induction field with
  | nil => intro out h; simp [updateLangs] at h; subst h; rfl
  | cons p rest ih =>
    intro out h
    obtain ⟨lang, v⟩ := p
    unfold updateLangs at h
    cases hv : updateReferencesOnField nr v with
    | error e => simp [hv] at h
    | ok w =>
      cases hr : updateLangs nr rest with
      | error e => simp [hv, hr] at h
      | ok ws =>
        simp [hv, hr] at h
        subst h
        simp [updateReferencesOnField_shape nr v w hv, ih ws hr]

theorem updateFields_shape (nr : Dict Entry) :
    ∀ fields out : Fields, updateFields nr fields = .ok out →
      shapeFields out = shapeFields fields := by
  intro fields
  induction fields with
  | nil => intro out h; simp [updateFields] at h; subst h; rfl
  | cons p rest ih =>
    intro out h
    obtain ⟨name, field⟩ := p
    unfold updateFields at h
    cases hv : updateLangs nr field with
    | error e => simp [hv] at h
    | ok f =>
      cases hr : updateFields nr rest with
      | error e => simp [hv, hr] at h
      | ok fs =>
        simp [hv, hr] at h
        subst h
        have h1 := updateLangs_shape nr field f hv
        have h2 := ih fs hr
        simp only [shapeFields] at h2
        simp [shapeFields, h1, h2]

/-- What the loop of `updateReferenceTree` leaves: every record it visits keeps its id and has
its reachable Entry links redirected, every other record is untouched. -/
theorem updateLoop_spec (space : Space) :
    ∀ (ids : List String) (cur : Dict Entry) (st : State) (res : Dict Entry) (st2 : State),
      ids.Nodup → updateLoop space ids cur st = (.ok res, st2) →
      Dict.keys res = Dict.keys cur ∧
      ∀ k e, Dict.find cur k = some e →
        ∃ e2, Dict.find res k = some e2 ∧ (∃ f, e2 = { e with fields := f }) ∧
          shapeFields e2.fields = shapeFields e.fields ∧
          (k ∉ ids → e2 = e) ∧
          (k ∈ ids → (fieldLinks e2.fields).map some
            = (fieldLinks e.fields).map (fun t => (Dict.find cur t).map Entry.id)) := by
  intro ids
  induction ids with
  | nil =>
    intro cur st res st2 _ h
    simp [updateLoop] at h
    obtain ⟨rfl, rfl⟩ := h
    exact ⟨rfl, fun k e hk => ⟨e, hk, ⟨e.fields, rfl⟩, rfl, fun _ => rfl, fun hm => by simp at hm⟩⟩
  | cons entryId ids ih =>
    intro cur st res st2 hnd h
    have hnot : entryId ∉ ids := (List.nodup_cons.mp hnd).1
    have hnd2 : ids.Nodup := (List.nodup_cons.mp hnd).2
    unfold updateLoop at h
    cases hf : Dict.find cur entryId with
    | none => simp [hf] at h
    | some entry =>
      cases hu : updateFields cur entry.fields with
      | error e => simp [hf, hu] at h
      | ok fields =>
        cases hs : space.updateEntry st.calls { entry with fields := fields } with
        | error msg => simp [hf, hu, hs] at h
        | ok ret =>
          simp only [hf, hu, hs] at h
          obtain ⟨hkeys, hall⟩ := ih _ _ _ _ hnd2 h
          have hmem : entryId ∈ Dict.keys cur := Dict.find_some_mem_keys _ _ _ hf
          have hstable : ∀ t, (Dict.find (Dict.put cur entryId { entry with fields := fields }) t).map
              Entry.id = (Dict.find cur t).map Entry.id := by
            intro t
            by_cases ht : entryId = t
            · subst ht
              simp [Dict.find_put_same, hf]
            · rw [Dict.find_put_other _ _ _ _ ht]
          refine ⟨by rw [hkeys, Dict.keys_put_mem _ _ _ hmem], ?_⟩
          intro k e hk
          by_cases hke : entryId = k
          · subst hke
            rw [hf] at hk
            cases hk
            obtain ⟨e2, h1, h2, _, h3, _⟩ := hall entryId _ (Dict.find_put_same _ _ _)
            have he2 := h3 hnot
            subst he2
            refine ⟨_, h1, ⟨fields, rfl⟩, updateFields_shape cur entry.fields fields hu,
              fun hn => absurd (List.mem_cons_self _ _) hn, fun _ => ?_⟩
            exact (updateFields_links cur entry.fields fields hu).2
          · have hk2 : Dict.find (Dict.put cur entryId { entry with fields := fields }) k = some e := by
              rw [Dict.find_put_other _ _ _ _ hke]; exact hk
            obtain ⟨e2, h1, h2, hsh, h3, h4⟩ := hall k e hk2
            refine ⟨e2, h1, h2, hsh, ?_, ?_⟩
            · intro hn
              exact h3 (fun hm => hn (List.mem_cons_of_mem _ hm))
            · intro hm
              have hm2 : k ∈ ids := by
                rcases List.mem_cons.mp hm with hm | hm
                · exact absurd hm.symm hke
                · exact hm
              rw [h4 hm2]
              congr 1
              funext t
              exact hstable t

/-- C3, amended: after `updateReferenceTree(space, newReferences)` completes, the Clone Map has
the same keys, every record keeps its id, and every Entry link that sits in a language variant of
a field directly or inside (nested) arrays has as target the id of the clone of its former
target, `newReferences[original_id].sys.id`. -/
theorem rewrite_points_at_clones (space : Space) (newReferences : Dict Entry) (st : State)
    (result : Dict Entry) (st2 : State)
    (hkeys : (Dict.keys newReferences).Nodup)
    (h : updateReferenceTree space newReferences st = (.ok result, st2)) :
    Dict.keys result = Dict.keys newReferences ∧
    ∀ k e, Dict.find newReferences k = some e →
      ∃ e2, Dict.find result k = some e2 ∧ e2.id = e.id ∧
        (fieldLinks e2.fields).map some
          = (fieldLinks e.fields).map (fun t => (Dict.find newReferences t).map Entry.id) := by
  obtain ⟨h1, h2⟩ := updateLoop_spec space _ _ _ _ _ (forInKeys_nodup _ hkeys) h
  refine ⟨h1, fun k e hk => ?_⟩
  obtain ⟨e2, ha, ⟨f, hb⟩, _, _, hd⟩ := h2 k e hk
  exact ⟨e2, ha, by rw [hb], hd ((mem_forInKeys _ _).mpr (Dict.find_some_mem_keys _ _ _ hk))⟩

set_option maxRecDepth 100000 in
/-- C3, amended, in the diamond scenario: the rewriting completes, and the clones of `B` and
`C` both point at `copy-6`, the single clone of `D`. -/
theorem rewrite_points_at_clones_witness :
    (updateReferenceTree diamond diamondClones diamondCreated = (.ok diamondRewritten, diamondUpdated) ∧
     (Dict.find diamondRewritten "B").map (fun e => fieldLinks e.fields) = some ["copy-6"] ∧
     (Dict.find diamondRewritten "C").map (fun e => fieldLinks e.fields) = some ["copy-6"] ∧
     (Dict.find diamondRewritten "R").map (fun e => fieldLinks e.fields)
        = some ["copy-5", "copy-7"]) ∧
    (Dict.keys diamondRewritten = Dict.keys diamondClones ∧
    ∀ k e, Dict.find diamondClones k = some e →
      ∃ e2, Dict.find diamondRewritten k = some e2 ∧ e2.id = e.id ∧
        (fieldLinks e2.fields).map some
          = (fieldLinks e.fields).map (fun t => (Dict.find diamondClones t).map Entry.id)) :=
  ⟨by decide!,
   rewrite_points_at_clones diamond diamondClones diamondCreated diamondRewritten
     diamondUpdated (by decide!) (by decide!)⟩

set_option maxRecDepth 100000 in
/-- C3, as stated, fails for a reference inside another object: `updateReferenceTree` completes,
the link to `D` in the field `child` of the copy of `B` points at `copy-D`, but the link to `D`
inside the object of the field `body` still points at the original `D`, although `D` is a key of
the Clone Map (and of the Visited Set it was made from). -/
theorem nested_reference_not_rewritten :
    (updateReferenceTree diamond embeddedClones emptyState).1
      = .ok [("B", page "copy-B" [("body", [("de-DE", .obj [("target", entryLink "D")])]),
                                 ("child", [("de-DE", entryLink "copy-D")])]),
             ("D", page "copy-D" [])] ∧
    (Dict.find embeddedClones "B").map (fun e => nestedFieldLinks e.fields) = some ["D", "D"] ∧
    (Dict.find embeddedClones "D").map Entry.id = some "copy-D" ∧
    (match (updateReferenceTree diamond embeddedClones emptyState).1 with
      | .ok result => (Dict.find result "B").map (fun e => nestedFieldLinks e.fields)
      | .error _ => none) = some ["D", "copy-D"] := by
  decide!

set_option maxRecDepth 100000 in
/-- C4: evaluation at an Entry link whose target has no clone. `updateReferencesOnField` raises
a `TypeError`, and `updateReferenceTree` fails with it before any `updateEntry` call, leaving
the record `B` unvisited. -/
theorem unresolved_reference_raises :
    updateReferencesOnField danglingClones (entryLink "X") = .error .typeError ∧
    updateReferencesOnField [] (.arr [entryLink "X"]) = .error .typeError ∧
    updateReferenceTree diamond danglingClones emptyState = (.error .typeError, emptyState) := by
  decide!


/-! ## Creating the new entries -/

theorem forall2_imp_of_mem {α β : Type} {R S : α → β → Prop} {l1 : List α} {l2 : List β}
    (h : List.Forall₂ R l1 l2) (hsub : ∀ a ∈ l1, ∀ b, R a b → S a b) :
    List.Forall₂ S l1 l2 := by
  induction h with
  | nil => exact List.Forall₂.nil
  | cons hhead _ ih =>
    exact List.Forall₂.cons (hsub _ (List.mem_cons_self _ _) _ hhead)
      (ih (fun a ha b hr => hsub a (List.mem_cons_of_mem _ ha) b hr))

theorem createLoop_spec (space : Space) (tag placeholder : String) :
    ∀ (ids : List String) (st : State) (acc res : Dict Entry) (st2 : State),
      ids.Nodup → (∀ id ∈ ids, id ∉ Dict.keys acc) →
      createLoop space tag placeholder ids st acc = (.ok res, st2) →
      Dict.keys res = Dict.keys acc ++ ids ∧
      st2.newReferenceCount = st.newReferenceCount + ids.length ∧
      st2.referenceCount = st.referenceCount ∧
      st2.updatedReferenceCount = st.updatedReferenceCount ∧
      st2.publishedCount = st.publishedCount ∧
      Dict.keys st2.references = Dict.keys st.references ∧
      (∀ k, k ∉ ids → Dict.find res k = Dict.find acc k) ∧
      (∀ k, k ∉ ids → Dict.find st2.references k = Dict.find st.references k) ∧
      ∃ calls, st2.calls = st.calls ++ calls ∧
        List.Forall₂ (CreatedFor space tag placeholder st.references res st2.references)
          ids calls := by
  intro ids
  induction ids with
  | nil =>
    intro st acc res st2 _ _ h
    simp [createLoop] at h
    obtain ⟨rfl, rfl⟩ := h
    exact ⟨by simp, rfl, rfl, rfl, rfl, rfl, fun _ _ => rfl, fun _ _ => rfl, [], by simp,
      List.Forall₂.nil⟩
  | cons entryId ids ih =>
    intro st acc res st2 hnd hdis h
    have hnot : entryId ∉ ids := (List.nodup_cons.mp hnd).1
    have hnd2 : ids.Nodup := (List.nodup_cons.mp hnd).2
    have hacc : entryId ∉ Dict.keys acc := hdis entryId (List.mem_cons_self _ _)
    unfold createLoop at h
    cases hf : Dict.find st.references entryId with
    | none => simp [hf] at h
    | some entry =>
      cases hr : renameFields tag placeholder entry.fields with
      | error e => simp [hf, hr] at h
      | ok fields =>
        cases hc : space.createEntry st.calls entry.contentType fields with
        | error msg => simp [hf, hr, hc] at h
        | ok newEntry =>
          simp only [hf, hr, hc] at h
          have hdis2 : ∀ id ∈ ids, id ∉ Dict.keys (Dict.put acc entryId newEntry) := by
            intro id hid hmem
            rcases (Dict.mem_keys_put _ _ _ _).mp hmem with h1 | h1
            · exact hnot (h1 ▸ hid)
            · exact hdis id (List.mem_cons_of_mem _ hid) h1
          obtain ⟨h1, h2, h3, h4, h5, h6, h7, h8, calls, h9, h10⟩ := ih _ _ _ _ hnd2 hdis2 h
          have hmem : entryId ∈ Dict.keys st.references := Dict.find_some_mem_keys _ _ _ hf
          simp only at h2 h3 h4 h5 h6 h8 h9 h10
          refine ⟨?_, ?_, h3, h4, h5, ?_, ?_, ?_, ?_⟩
          · rw [h1, Dict.keys_put_new _ _ _ hacc]; simp
          · rw [h2]; simp; omega
          · rw [h6, Dict.keys_put_mem _ _ _ hmem]
          · intro k hk
            have hk1 : k ∉ ids := fun hm => hk (List.mem_cons_of_mem _ hm)
            have hk2 : entryId ≠ k := fun e => hk (e ▸ List.mem_cons_self _ _)
            rw [h7 k hk1, Dict.find_put_other _ _ _ _ hk2]
          · intro k hk
            have hk1 : k ∉ ids := fun hm => hk (List.mem_cons_of_mem _ hm)
            have hk2 : entryId ≠ k := fun e => hk (e ▸ List.mem_cons_self _ _)
            rw [h8 k hk1, Dict.find_put_other _ _ _ _ hk2]
          · refine ⟨Call.createEntry entry.contentType fields :: calls, ?_, ?_⟩
            · rw [h9]; simp
            · refine List.Forall₂.cons ?_ ?_
              · refine ⟨entry, fields, st.calls, newEntry, hf, hr, rfl, hc, ?_, ?_⟩
                · rw [h7 entryId hnot, Dict.find_put_same]
                · rw [h8 entryId hnot, Dict.find_put_same]
              · have hsub : ∀ id ∈ ids, ∀ call,
                    CreatedFor space tag placeholder
                      (Dict.put st.references entryId { entry with fields := fields }) res
                      st2.references id call →
                    CreatedFor space tag placeholder st.references res st2.references id call := by
                  intro id hid call hcf
                  obtain ⟨e, f, hist, cl, a1, a2, a3, a4, a5, a6⟩ := hcf
                  have hne : entryId ≠ id := fun e => hnot (e ▸ hid)
                  rw [Dict.find_put_other _ _ _ _ hne] at a1
                  exact ⟨e, f, hist, cl, a1, a2, a3, a4, a5, a6⟩
                exact forall2_imp_of_mem h10 hsub

/-- C5: after `createNewEntriesFromReferences` completes, the Clone Map has the keys of the
Visited Set (as many, and the same ones), the calls it made on the store are exactly one
`createEntry` per visited record, in the order of the loop, each with the content type of that
record (and its fields after the naming step), and the created counter, reset to 0 by
`recursiveClone`, equals the number of visited records. -/
theorem create_one_per_visited (space : Space) (tag placeholder : String) (st : State)
    (newReferences : Dict Entry) (st2 : State)
    (hkeys : (Dict.keys st.references).Nodup)
    (hzero : st.newReferenceCount = 0)
    (h : createNewEntriesFromReferences space tag placeholder st = (.ok newReferences, st2)) :
    (∀ id, id ∈ Dict.keys newReferences ↔ id ∈ Dict.keys st.references) ∧
    (Dict.keys newReferences).Nodup ∧
    (Dict.keys newReferences).length = (Dict.keys st.references).length ∧
    st2.newReferenceCount = (Dict.keys st.references).length ∧
    ∃ calls, st2.calls = st.calls ++ calls ∧
      calls.length = (Dict.keys st.references).length ∧
      List.Forall₂ (fun id call => ∃ entry fields,
          Dict.find st.references id = some entry ∧
          renameFields tag placeholder entry.fields = .ok fields ∧
          call = Call.createEntry entry.contentType fields)
        (forInKeys st.references) calls := by
  have hnd := forInKeys_nodup _ hkeys
  obtain ⟨h1, h2, _, _, _, _, _, _, calls, h9, h10⟩ :=
    createLoop_spec space tag placeholder _ _ _ _ _ hnd (by simp [Dict.keys]) h
  have hk : Dict.keys newReferences = forInKeys st.references := by
    rw [h1]; simp [Dict.keys]
  refine ⟨?_, ?_, ?_, ?_, calls, h9, ?_, ?_⟩
  · intro id; rw [hk]; exact mem_forInKeys _ _
  · rw [hk]; exact hnd
  · rw [hk]; exact forInKeys_length _
  · rw [h2, hzero, forInKeys_length]; simp
  · rw [← h10.length_eq, forInKeys_length]
  · refine h10.imp ?_
    intro id call hcf
    obtain ⟨e, f, _, _, a1, a2, a3, _⟩ := hcf
    exact ⟨e, f, a1, a2, a3⟩

set_option maxRecDepth 100000 in
/-- C5 for two originals with identical content: two `createEntry` calls with the same payload
are made, and the Clone Map holds two distinct new records. -/
theorem create_one_per_visited_witness :
    ((createNewEntriesFromReferences diamond "v2" "" twinState).2.calls
        = twinState.calls ++
          [Call.createEntry "page" [("internal", [("de-DE", .str "Same v2")])],
           Call.createEntry "page" [("internal", [("de-DE", .str "Same v2")])]] ∧
     ((createNewEntriesFromReferences diamond "v2" "" twinState).1.toOption.map
        (fun d => d.map (fun p => (p.1, p.2.id)))) = some [("T1", "copy-2"), ("T2", "copy-3")]) ∧
    ((∀ id, id ∈ Dict.keys ((createNewEntriesFromReferences diamond "v2" "" twinState).1.toOption.getD [])
        ↔ id ∈ Dict.keys twinState.references) ∧
    (Dict.keys ((createNewEntriesFromReferences diamond "v2" "" twinState).1.toOption.getD [])).Nodup ∧
    (Dict.keys ((createNewEntriesFromReferences diamond "v2" "" twinState).1.toOption.getD [])).length
      = (Dict.keys twinState.references).length ∧
    (createNewEntriesFromReferences diamond "v2" "" twinState).2.newReferenceCount
      = (Dict.keys twinState.references).length ∧
    ∃ calls, (createNewEntriesFromReferences diamond "v2" "" twinState).2.calls
        = twinState.calls ++ calls ∧
      calls.length = (Dict.keys twinState.references).length ∧
      List.Forall₂ (fun id call => ∃ entry fields,
          Dict.find twinState.references id = some entry ∧
          renameFields "v2" "" entry.fields = .ok fields ∧
          call = Call.createEntry entry.contentType fields)
        (forInKeys twinState.references) calls) :=
  ⟨by decide!,
   create_one_per_visited diamond "v2" "" twinState
    ((createNewEntriesFromReferences diamond "v2" "" twinState).1.toOption.getD [])
    (createNewEntriesFromReferences diamond "v2" "" twinState).2
    (by decide!) (by decide!) (by decide!)⟩

/-! ## Publishing -/

theorem forInPairs_keys {α : Type} (d : Dict α) :
    (forInPairs d).map Prod.fst = forInKeys d := by
  unfold forInPairs
  have : ∀ l : List String, (∀ k ∈ l, k ∈ Dict.keys d) →
      (l.filterMap (fun k => (Dict.find d k).map (fun v => (k, v)))).map Prod.fst = l := by
    intro l
    induction l with
    | nil => intro _; rfl
    | cons k l ih =>
      intro hl
      obtain ⟨v, hv⟩ := Dict.mem_keys_find d k (hl k (List.mem_cons_self _ _))
      have := ih (fun j hj => hl j (List.mem_cons_of_mem _ hj))
      simp [List.filterMap_cons, hv, this]
  exact this _ (fun k hk => (mem_forInKeys d k).mp hk)

theorem forInPairs_find {α : Type} (d : Dict α) (p : String × α) (h : p ∈ forInPairs d) :
    Dict.find d p.1 = some p.2 := by
  unfold forInPairs at h
  rw [List.mem_filterMap] at h
  obtain ⟨k, _, hk⟩ := h
  cases hf : Dict.find d k with
  | none => simp [hf] at hk
  | some v =>
    simp [hf] at hk
    subst hk
    exact hf

theorem publishEntry_eq (space : Space) (entry : Entry) (st : State) :
    publishEntry space entry st = { st with calls := st.calls ++ [Call.publishEntry entry] } := by
  unfold publishEntry
  cases space.publishEntry st.calls entry <;> rfl

theorem publishLoop_spec (space : Space) :
    ∀ (ps : List (String × Entry)) (st : State),
      publishLoop space ps st =
        { st with calls := st.calls ++ ps.map (fun p => Call.publishEntry p.2),
                  publishedCount := st.publishedCount + ps.length } := by
  intro ps
  induction ps with
  | nil => intro st; simp [publishLoop]
  | cons p ps ih =>
    intro st
    obtain ⟨k, e⟩ := p
    simp only [publishLoop, publishEntry_eq, ih]
    simp
    omega

/-- C8: whatever the store's `publishEntry` does for each record (resolve, reject, or throw),
`publishEntry` returns with the attempt recorded, and `publishEntries` returns after exactly one
publish attempt per record of the Clone Map, in the order of its loop, with the published counter
advanced by the number of records `N` (from 0, where `recursiveClone` sets it, to `N`) and
nothing else changed. -/
theorem publish_attempts_every_record (space : Space) (newReferences : Dict Entry) (st : State) :
    (∀ entry, publishEntry space entry st
        = { st with calls := st.calls ++ [Call.publishEntry entry] }) ∧
    publishEntries space newReferences st =
      { st with calls := st.calls ++ (forInPairs newReferences).map (fun p => Call.publishEntry p.2),
                publishedCount := st.publishedCount + (Dict.keys newReferences).length } ∧
    (forInPairs newReferences).map Prod.fst = forInKeys newReferences ∧
    (forInKeys newReferences).Perm (Dict.keys newReferences) ∧
    (∀ p ∈ forInPairs newReferences, Dict.find newReferences p.1 = some p.2) := by
  refine ⟨fun entry => publishEntry_eq space entry st, ?_, forInPairs_keys _, forInKeys_perm _,
    fun p hp => forInPairs_find _ p hp⟩
  unfold publishEntries
  rw [publishLoop_spec]
  have : (forInPairs newReferences).length = (Dict.keys newReferences).length := by
    rw [← forInKeys_length, ← forInPairs_keys, List.length_map]
  rw [this]

set_option maxRecDepth 100000 in
/-- Publishing the four new records of the end-to-end scenario, where the store throws for
`copy-5` and rejects for `copy-6`: four attempts, and the counter reaches 4. -/
theorem publish_with_failures :
    (publishEntries diamond diamondRewritten emptyState).publishedCount = 4 ∧
    (publishEntries diamond diamondRewritten emptyState).calls.map
      (fun c => match c with
        | .publishEntry e => e.id
        | _ => "") = ["copy-4", "copy-5", "copy-6", "copy-7"] ∧
    diamond.publishEntry [] (page "copy-5" []) = .threw "refused" := by
  decide!


/-! ## Discovery: facts about tasks -/

theorem Task.Inv_pending (refs : Dict Entry) (anc : List String) (t : Task)
    (h : Task.Inv refs anc t) (hd : t ≠ .done) : 0 < Task.pending t := by
  cases t with
  | done => exact absurd rfl hd
  | timer id => simp [Task.pending]
  | fetch id => simp [Task.pending]
  | explore id cur rest =>
    simp only [Task.Inv] at h
    simpa [Task.pending] using h.2.2.1
  | all ts =>
    simp only [Task.Inv] at h
    simpa [Task.pending] using h.1

theorem mkAll_done (ts : List Task) (h : allDone ts = true) : mkAll ts = .done := by
  simp [mkAll, h]

theorem mkAll_all (ts : List Task) (h : allDone ts = false) : mkAll ts = .all ts := by
  simp [mkAll, h]

theorem allDone_cons (t : Task) (ts : List Task) :
    allDone (t :: ts) = true ↔ t = .done ∧ allDone ts = true := by
  unfold allDone
  cases t <;> simp [Task.isDone]

theorem allDone_facts (m j : Nat) :
    ∀ ts : List Task, allDone ts = true →
      awaitedList ts = [] ∧ costList m j ts = 0 ∧ pendingList ts = 0
  | [], _ => by simp [awaitedList, costList, pendingList]
  | t :: ts, h => by
    obtain ⟨rfl, h2⟩ := (allDone_cons t ts).mp h
    obtain ⟨a, b, c⟩ := allDone_facts m j ts h2
    simp [awaitedList, costList, pendingList, Task.awaited, Task.cost, Task.pending, a, b, c]

theorem pendingList_pos (refs : Dict Entry) (anc : List String) :
    ∀ ts : List Task, InvList refs anc ts → allDone ts = false → 0 < pendingList ts
  | [], _, h => by simp [allDone] at h
  | t :: ts, hinv, h => by
    simp only [InvList] at hinv
    by_cases ht : t = .done
    · subst ht
      have h2 : allDone ts = false := by
        cases hts : allDone ts with
        | false => rfl
        | true => rw [(allDone_cons _ _).mpr ⟨rfl, hts⟩] at h; cases h
      have := pendingList_pos refs anc ts hinv.2 h2
      simpa [pendingList, Task.pending] using this
    · have := Task.Inv_pending refs anc t hinv.1 ht
      simp only [pendingList]
      omega

theorem mkAll_facts (refs : Dict Entry) (anc : List String) (m j : Nat) (ts : List Task)
    (hinv : InvList refs anc ts) :
    Task.Inv refs anc (mkAll ts) ∧ Task.cost m j (mkAll ts) = costList m j ts ∧
      Task.awaited (mkAll ts) = awaitedList ts := by
  cases h : allDone ts with
  | true =>
    obtain ⟨a, b, _⟩ := allDone_facts m j ts h
    rw [mkAll_done ts h]
    simp [Task.Inv, Task.cost, Task.awaited, a, b]
  | false =>
    rw [mkAll_all ts h]
    exact ⟨by simp only [Task.Inv]; exact ⟨pendingList_pos refs anc ts hinv h, hinv⟩,
      by simp [Task.cost], by simp [Task.awaited]⟩

theorem findReferences_facts (refs : Dict Entry) (anc : List String)
    (hanc : ∀ a ∈ anc, a ∈ Dict.keys refs) (m j : Nat) (id : String) :
    Task.Inv refs anc (findReferences refs id) ∧
    Task.cost m j (findReferences refs id) ≤ work m j ∧
    (∀ x ∈ Task.awaited (findReferences refs id),
      x = id ∧ x ∉ Dict.keys refs ∧ inherited x = false) ∧
    (inherited id = false →
      id ∈ Dict.keys refs ∨ id ∈ Task.awaited (findReferences refs id)) := by
  unfold findReferences
  by_cases h : ((Dict.find refs id).isSome || inherited id) = true
  · rw [if_pos h]
    refine ⟨by simp [Task.Inv], by simp [Task.cost], by simp [Task.awaited], ?_⟩
    intro hin
    rw [hin, Bool.or_false] at h
    exact Or.inl ((Dict.find_isSome_iff _ _).mp h)
  · rw [if_neg h]
    have hk : id ∉ Dict.keys refs := fun hm =>
      h (by rw [(Dict.find_isSome_iff _ _).mpr hm]; rfl)
    have hin : inherited id = false := by
      cases hi : inherited id with
      | false => rfl
      | true => exact absurd (by rw [hi, Bool.or_true]) h
    refine ⟨?_, by simp [Task.cost], ?_, fun _ => by simp [Task.awaited]⟩
    · simp only [Task.Inv]
      exact fun hm => hk (hanc id hm)
    · intro x hx
      simp [Task.awaited] at hx
      subst hx
      exact ⟨rfl, hk, hin⟩

mutual
theorem inspectField_facts (refs : Dict Entry) (anc : List String)
    (hanc : ∀ a ∈ anc, a ∈ Dict.keys refs) (m j : Nat) :
    ∀ v : Value,
      Task.Inv refs anc (inspectField refs v) ∧
      Task.cost m j (inspectField refs v) ≤ (entryLinks v).length * work m j ∧
      (∀ x ∈ Task.awaited (inspectField refs v),
        x ∈ entryLinks v ∧ x ∉ Dict.keys refs ∧ inherited x = false) ∧
      (∀ x ∈ entryLinks v, inherited x = false →
        x ∈ Dict.keys refs ∨ x ∈ Task.awaited (inspectField refs v))
  | .null => by simp [inspectField, Task.Inv, Task.cost, Task.awaited, entryLinks]
  | .bool _ => by simp [inspectField, Task.Inv, Task.cost, Task.awaited, entryLinks]
  | .num _ _ => by simp [inspectField, Task.Inv, Task.cost, Task.awaited, entryLinks]
  | .str _ => by simp [inspectField, Task.Inv, Task.cost, Task.awaited, entryLinks]
  | .obj _ => by simp [inspectField, Task.Inv, Task.cost, Task.awaited, entryLinks]
  | .link type linkType id => by
    by_cases hl : isEntryLink type linkType = true
    · obtain ⟨a, b, c, d⟩ := findReferences_facts refs anc hanc m j id
      simp only [inspectField, entryLinks, if_pos hl]
      refine ⟨a, by simpa using b, ?_, ?_⟩
      · intro x hx
        obtain ⟨rfl, h2⟩ := c x hx
        exact ⟨by simp, h2⟩
      · intro x hx hin
        simp at hx
        subst hx
        exact d hin
    · simp [inspectField, entryLinks, hl, Task.Inv, Task.cost, Task.awaited]
  | .arr xs => by
    obtain ⟨a, b, c, d⟩ := inspectElems_facts refs anc hanc m j xs
    obtain ⟨e, f, g⟩ := mkAll_facts refs anc m j (inspectElems refs xs) a
    simp only [inspectField, entryLinks]
    refine ⟨e, by rw [f]; exact b, ?_, ?_⟩
    · intro x hx; rw [g] at hx; exact c x hx
    · intro x hx hin; rw [g]; exact d x hx hin
theorem inspectElems_facts (refs : Dict Entry) (anc : List String)
    (hanc : ∀ a ∈ anc, a ∈ Dict.keys refs) (m j : Nat) :
    ∀ vs : List Value,
      InvList refs anc (inspectElems refs vs) ∧
      costList m j (inspectElems refs vs) ≤ (entryLinksElems vs).length * work m j ∧
      (∀ x ∈ awaitedList (inspectElems refs vs),
        x ∈ entryLinksElems vs ∧ x ∉ Dict.keys refs ∧ inherited x = false) ∧
      (∀ x ∈ entryLinksElems vs, inherited x = false →
        x ∈ Dict.keys refs ∨ x ∈ awaitedList (inspectElems refs vs))
  | [] => by simp [inspectElems, InvList, costList, awaitedList, entryLinksElems]
  | v :: vs => by
    obtain ⟨a, b, c, d⟩ := inspectField_facts refs anc hanc m j v
    obtain ⟨a2, b2, c2, d2⟩ := inspectElems_facts refs anc hanc m j vs
    simp only [inspectElems, InvList, costList, awaitedList, entryLinksElems]
    refine ⟨⟨a, a2⟩, ?_, ?_, ?_⟩
    · rw [List.length_append, Nat.add_mul]
      omega
    · intro x hx
      rcases List.mem_append.mp hx with hx | hx
      · exact ⟨List.mem_append_left _ (c x hx).1, (c x hx).2⟩
      · exact ⟨List.mem_append_right _ (c2 x hx).1, (c2 x hx).2⟩
    · intro x hx hin
      rcases List.mem_append.mp hx with hx | hx
      · rcases d x hx hin with h | h
        · exact Or.inl h
        · exact Or.inr (List.mem_append_left _ h)
      · rcases d2 x hx hin with h | h
        · exact Or.inl h
        · exact Or.inr (List.mem_append_right _ h)
end

theorem exploreFrom_cons_done (refs : Dict Entry) (id : String) (v : Value) (vs : List Value)
    (h : inspectField refs v = .done) :
    exploreFrom refs id (v :: vs) = exploreFrom refs id vs := by
  simp [exploreFrom, h]

theorem exploreFrom_cons_pending (refs : Dict Entry) (id : String) (v : Value) (vs : List Value)
    (h : inspectField refs v ≠ .done) :
    exploreFrom refs id (v :: vs) = .explore id (inspectField refs v) vs := by
  unfold exploreFrom
  split
  · rename_i heq
    exact absurd heq h
  · rfl

theorem exploreFrom_facts (refs : Dict Entry) (anc : List String)
    (hanc : ∀ a ∈ anc, a ∈ Dict.keys refs) (m j : Nat) (id : String)
    (hid : id ∉ anc) (hk : id ∈ Dict.keys refs) :
    ∀ vs : List Value,
      Task.Inv refs anc (exploreFrom refs id vs) ∧
      Task.cost m j (exploreFrom refs id vs) ≤ (entryLinksElems vs).length * work m (j - 1) ∧
      (∀ x ∈ Task.awaited (exploreFrom refs id vs),
        x ∈ entryLinksElems vs ∧ inherited x = false) ∧
      (∀ x ∈ entryLinksElems vs, inherited x = false →
        x ∈ Dict.keys refs ∨ x ∈ Task.awaited (exploreFrom refs id vs)) := by
  intro vs
  induction vs with
  | nil => simp [exploreFrom, Task.Inv, Task.cost, Task.awaited, entryLinksElems]
  | cons v vs ih =>
    have hanc2 : ∀ a ∈ id :: anc, a ∈ Dict.keys refs := by
      intro a ha
      rcases List.mem_cons.mp ha with rfl | ha
      · exact hk
      · exact hanc a ha
    obtain ⟨a, b, c, d⟩ := inspectField_facts refs (id :: anc) hanc2 m (j - 1) v
    obtain ⟨a2, b2, c2, d2⟩ := ih
    by_cases hv : inspectField refs v = .done
    · rw [exploreFrom_cons_done refs id v vs hv]
      rw [hv] at d
      simp only [entryLinksElems]
      refine ⟨a2, ?_, ?_, ?_⟩
      · rw [List.length_append, Nat.add_mul]; omega
      · intro x hx; exact ⟨List.mem_append_right _ (c2 x hx).1, (c2 x hx).2⟩
      · intro x hx hin
        rcases List.mem_append.mp hx with hx | hx
        · rcases d x hx hin with h | h
          · exact Or.inl h
          · simp [Task.awaited] at h
        · exact d2 x hx hin
    · rw [exploreFrom_cons_pending refs id v vs hv]
      simp only [entryLinksElems, Task.Inv, Task.cost, Task.awaited]
      refine ⟨⟨hid, hk, Task.Inv_pending _ _ _ a hv, a⟩, ?_, ?_, ?_⟩
      · rw [List.length_append, Nat.add_mul]; omega
      · intro x hx
        rcases List.mem_append.mp hx with hx | hx
        · exact ⟨List.mem_append_left _ (c x hx).1, (c x hx).2.2⟩
        · have hf := List.mem_filter.mp hx
          exact ⟨List.mem_append_right _ hf.1, by simpa using hf.2⟩
      · intro x hx hin
        rcases List.mem_append.mp hx with hx | hx
        · rcases d x hx hin with h | h
          · exact Or.inl h
          · exact Or.inr (List.mem_append_left _ h)
        · exact Or.inr (List.mem_append_right _
            (List.mem_filter.mpr ⟨hx, by simp [hin]⟩))

mutual
theorem Task.Inv_mono (refs refs2 : Dict Entry)
    (hsub : ∀ x, x ∈ Dict.keys refs → x ∈ Dict.keys refs2) :
    ∀ (t : Task) (anc : List String), Task.Inv refs anc t → Task.Inv refs2 anc t
  | .done, _, _ => by simp [Task.Inv]
  | .timer _, _, h => by simpa [Task.Inv] using h
  | .fetch _, _, h => by simpa [Task.Inv] using h
  | .explore id cur rest, anc, h => by
    simp only [Task.Inv] at h ⊢
    exact ⟨h.1, hsub _ h.2.1, h.2.2.1, Task.Inv_mono refs refs2 hsub cur _ h.2.2.2⟩
  | .all ts, anc, h => by
    simp only [Task.Inv] at h ⊢
    exact ⟨h.1, InvList_mono refs refs2 hsub ts anc h.2⟩
theorem InvList_mono (refs refs2 : Dict Entry)
    (hsub : ∀ x, x ∈ Dict.keys refs → x ∈ Dict.keys refs2) :
    ∀ (ts : List Task) (anc : List String), InvList refs anc ts → InvList refs2 anc ts
  | [], _, _ => by simp [InvList]
  | t :: ts, anc, h => by
    simp only [InvList] at h ⊢
    exact ⟨Task.Inv_mono refs refs2 hsub t anc h.1, InvList_mono refs refs2 hsub ts anc h.2⟩
end

mutual
theorem Task.leaf_awaited :
    ∀ (t : Task) (k : Nat) (b : Bool) (id : String),
      Task.leaf t k = some (b, id) → id ∈ Task.awaited t
  | .done, _, _, _, h => by simp [Task.leaf] at h
  | .timer i, k, b, id, h => by
    simp only [Task.leaf] at h
    split at h
    · cases h; simp [Task.awaited]
    · cases h
  | .fetch i, k, b, id, h => by
    simp only [Task.leaf] at h
    split at h
    · cases h; simp [Task.awaited]
    · cases h
  | .explore i cur rest, k, b, id, h => by
    simp only [Task.leaf] at h
    simp only [Task.awaited]
    exact List.mem_append_left _ (Task.leaf_awaited cur k b id h)
  | .all ts, k, b, id, h => by
    simp only [Task.leaf] at h
    simp only [Task.awaited]
    exact leafList_awaited ts k b id h
theorem leafList_awaited :
    ∀ (ts : List Task) (k : Nat) (b : Bool) (id : String),
      leafList ts k = some (b, id) → id ∈ awaitedList ts
  | [], _, _, _, h => by simp [leafList] at h
  | t :: ts, k, b, id, h => by
    simp only [leafList] at h
    simp only [awaitedList]
    split at h
    · exact List.mem_append_left _ (Task.leaf_awaited t k b id h)
    · exact List.mem_append_right _ (leafList_awaited ts _ b id h)
end

mutual
theorem Task.leaf_of_lt :
    ∀ (t : Task) (k : Nat), k < Task.pending t → ∃ b id, Task.leaf t k = some (b, id)
  | .done, _, h => by simp [Task.pending] at h
  | .timer i, k, h => by
    simp only [Task.pending] at h
    exact ⟨false, i, by simp [Task.leaf]; omega⟩
  | .fetch i, k, h => by
    simp only [Task.pending] at h
    exact ⟨true, i, by simp [Task.leaf]; omega⟩
  | .explore i cur rest, k, h => by
    simp only [Task.pending] at h
    simpa [Task.leaf] using Task.leaf_of_lt cur k h
  | .all ts, k, h => by
    simp only [Task.pending] at h
    simpa [Task.leaf] using leafList_of_lt ts k h
theorem leafList_of_lt :
    ∀ (ts : List Task) (k : Nat), k < pendingList ts → ∃ b id, leafList ts k = some (b, id)
  | [], _, h => by simp [pendingList] at h
  | t :: ts, k, h => by
    simp only [pendingList] at h
    simp only [leafList]
    split
    · rename_i hlt
      exact Task.leaf_of_lt t k hlt
    · rename_i hge
      exact leafList_of_lt ts _ (by omega)
end

theorem resumeAt_explore_done (refs : Dict Entry) (new : Task) (id : String) (cur : Task)
    (rest : List Value) (k : Nat) (h : Task.resumeAt refs new cur k = .done) :
    Task.resumeAt refs new (.explore id cur rest) k = exploreFrom refs id rest := by
  simp [Task.resumeAt, h]

theorem resumeAt_explore_pending (refs : Dict Entry) (new : Task) (id : String) (cur : Task)
    (rest : List Value) (k : Nat) (h : Task.resumeAt refs new cur k ≠ .done) :
    Task.resumeAt refs new (.explore id cur rest) k
      = .explore id (Task.resumeAt refs new cur k) rest := by
  simp only [Task.resumeAt]

mutual
theorem Task.resumeAt_facts (refs refs2 : Dict Entry)
    (hsub : ∀ x, x ∈ Dict.keys refs → x ∈ Dict.keys refs2)
    (new : Task) (b : Bool) (id : String) (m D : Nat)
    (hnew : ∀ anc : List String, id ∉ anc → (∀ a ∈ anc, a ∈ Dict.keys refs2) → anc.Nodup →
      Task.Inv refs2 anc new ∧
      Task.cost m (D - anc.length) new + 1
        ≤ Task.cost m (D - anc.length) (if b then .fetch id else .timer id)) :
    ∀ (t : Task) (k : Nat) (anc : List String),
      Task.Inv refs anc t → (∀ a ∈ anc, a ∈ Dict.keys refs) → anc.Nodup →
      Task.leaf t k = some (b, id) →
      Task.Inv refs2 anc (Task.resumeAt refs2 new t k) ∧
      Task.cost m (D - anc.length) (Task.resumeAt refs2 new t k) + 1
        ≤ Task.cost m (D - anc.length) t
  | .done, _, _, _, _, _, h => by simp [Task.leaf] at h
  | .timer i, k, anc, hinv, hanc, hnd, h => by
    simp only [Task.leaf] at h
    split at h
    · rename_i hk
      cases h
      simp only [Task.Inv] at hinv
      simpa [Task.resumeAt, hk] using hnew anc hinv (fun a ha => hsub a (hanc a ha)) hnd
    · cases h
  | .fetch i, k, anc, hinv, hanc, hnd, h => by
    simp only [Task.leaf] at h
    split at h
    · rename_i hk
      cases h
      simp only [Task.Inv] at hinv
      simpa [Task.resumeAt, hk] using hnew anc hinv (fun a ha => hsub a (hanc a ha)) hnd
    · cases h
  | .explore i cur rest, k, anc, hinv, hanc, hnd, h => by
    simp only [Task.leaf] at h
    simp only [Task.Inv] at hinv
    obtain ⟨h1, h2, h3, h4⟩ := hinv
    have hanc2 : ∀ a ∈ i :: anc, a ∈ Dict.keys refs := by
      intro a ha
      rcases List.mem_cons.mp ha with rfl | ha
      · exact h2
      · exact hanc a ha
    have hnd2 : (i :: anc).Nodup := List.nodup_cons.mpr ⟨h1, hnd⟩
    obtain ⟨r1, r2⟩ := Task.resumeAt_facts refs refs2 hsub new b id m D hnew cur k (i :: anc)
      h4 hanc2 hnd2 h
    have hlen : D - (i :: anc).length = D - anc.length - 1 := by
      simp only [List.length_cons]; omega
    rw [hlen] at r2
    by_cases hd : Task.resumeAt refs2 new cur k = .done
    · rw [resumeAt_explore_done refs2 new i cur rest k hd]
      obtain ⟨e1, e2, _, _⟩ := exploreFrom_facts refs2 anc (fun a ha => hsub a (hanc a ha)) m
        (D - anc.length) i h1 (hsub i h2) rest
      refine ⟨e1, ?_⟩
      simp only [Task.cost]
      omega
    · rw [resumeAt_explore_pending refs2 new i cur rest k hd]
      simp only [Task.Inv, Task.cost]
      refine ⟨⟨h1, hsub i h2, Task.Inv_pending _ _ _ r1 hd, r1⟩, ?_⟩
      omega
  | .all ts, k, anc, hinv, hanc, hnd, h => by
    simp only [Task.leaf] at h
    simp only [Task.Inv] at hinv
    obtain ⟨r1, r2⟩ := resumeAtList_facts refs refs2 hsub new b id m D hnew ts k anc
      hinv.2 hanc hnd h
    obtain ⟨e, f, _⟩ := mkAll_facts refs2 anc m (D - anc.length) _ r1
    simp only [Task.resumeAt, Task.cost]
    refine ⟨e, ?_⟩
    rw [f]
    exact r2
theorem resumeAtList_facts (refs refs2 : Dict Entry)
    (hsub : ∀ x, x ∈ Dict.keys refs → x ∈ Dict.keys refs2)
    (new : Task) (b : Bool) (id : String) (m D : Nat)
    (hnew : ∀ anc : List String, id ∉ anc → (∀ a ∈ anc, a ∈ Dict.keys refs2) → anc.Nodup →
      Task.Inv refs2 anc new ∧
      Task.cost m (D - anc.length) new + 1
        ≤ Task.cost m (D - anc.length) (if b then .fetch id else .timer id)) :
    ∀ (ts : List Task) (k : Nat) (anc : List String),
      InvList refs anc ts → (∀ a ∈ anc, a ∈ Dict.keys refs) → anc.Nodup →
      leafList ts k = some (b, id) →
      InvList refs2 anc (resumeAtList refs2 new ts k) ∧
      costList m (D - anc.length) (resumeAtList refs2 new ts k) + 1
        ≤ costList m (D - anc.length) ts
  | [], _, _, _, _, _, h => by simp [leafList] at h
  | t :: ts, k, anc, hinv, hanc, hnd, h => by
    simp only [leafList] at h
    simp only [InvList] at hinv
    simp only [resumeAtList]
    split at h
    · rename_i hlt
      obtain ⟨r1, r2⟩ := Task.resumeAt_facts refs refs2 hsub new b id m D hnew t k anc
        hinv.1 hanc hnd h
      rw [if_pos hlt]
      simp only [InvList, costList]
      exact ⟨⟨r1, InvList_mono refs refs2 hsub ts anc hinv.2⟩, by omega⟩
    · rename_i hge
      obtain ⟨r1, r2⟩ := resumeAtList_facts refs refs2 hsub new b id m D hnew ts _ anc
        hinv.2 hanc hnd h
      rw [if_neg hge]
      simp only [InvList, costList]
      exact ⟨⟨Task.Inv_mono refs refs2 hsub t anc hinv.1, r1⟩, by omega⟩
end

theorem mkAll_awaited (ts : List Task) : Task.awaited (mkAll ts) = awaitedList ts := by
  cases h : allDone ts with
  | true =>
    rw [mkAll_done ts h, (allDone_facts 0 0 ts h).1]
    simp [Task.awaited]
  | false =>
    rw [mkAll_all ts h]
    simp [Task.awaited]

theorem exploreFrom_awaited (refs : Dict Entry) (id : String) :
    ∀ vs : List Value,
      (∀ x ∈ Task.awaited (exploreFrom refs id vs),
        x ∈ entryLinksElems vs ∧ inherited x = false) ∧
      (∀ x ∈ entryLinksElems vs, inherited x = false →
        x ∈ Dict.keys refs ∨ x ∈ Task.awaited (exploreFrom refs id vs)) := by
  intro vs
  induction vs with
  | nil => simp [exploreFrom, Task.awaited, entryLinksElems]
  | cons v vs ih =>
    obtain ⟨_, _, c, d⟩ := inspectField_facts refs [] (by simp) 0 0 v
    obtain ⟨c2, d2⟩ := ih
    by_cases hv : inspectField refs v = .done
    · rw [exploreFrom_cons_done refs id v vs hv]
      rw [hv] at d
      simp only [entryLinksElems]
      refine ⟨?_, ?_⟩
      · intro x hx; exact ⟨List.mem_append_right _ (c2 x hx).1, (c2 x hx).2⟩
      · intro x hx hin
        rcases List.mem_append.mp hx with hx | hx
        · rcases d x hx hin with h | h
          · exact Or.inl h
          · simp [Task.awaited] at h
        · exact d2 x hx hin
    · rw [exploreFrom_cons_pending refs id v vs hv]
      simp only [entryLinksElems, Task.awaited]
      refine ⟨?_, ?_⟩
      · intro x hx
        rcases List.mem_append.mp hx with hx | hx
        · exact ⟨List.mem_append_left _ (c x hx).1, (c x hx).2.2⟩
        · have hf := List.mem_filter.mp hx
          exact ⟨List.mem_append_right _ hf.1, by simpa using hf.2⟩
      · intro x hx hin
        rcases List.mem_append.mp hx with hx | hx
        · rcases d x hx hin with h | h
          · exact Or.inl h
          · exact Or.inr (List.mem_append_left _ h)
        · exact Or.inr (List.mem_append_right _
            (List.mem_filter.mpr ⟨hx, by simp [hin]⟩))

mutual
theorem Task.resumeAt_awaited (refs2 : Dict Entry) (new : Task) (b : Bool) (id : String) :
    ∀ (t : Task) (k : Nat), Task.leaf t k = some (b, id) →
      (∀ x ∈ Task.awaited (Task.resumeAt refs2 new t k),
        x ∈ Task.awaited t ∨ x ∈ Task.awaited new) ∧
      (∀ x ∈ Task.awaited t,
        x = id ∨ x ∈ Dict.keys refs2 ∨ x ∈ Task.awaited (Task.resumeAt refs2 new t k)) ∧
      (∀ x ∈ Task.awaited new, x ∈ Task.awaited (Task.resumeAt refs2 new t k))
  | .done, _, h => by simp [Task.leaf] at h
  | .timer i, k, h => by
    simp only [Task.leaf] at h
    split at h
    · rename_i hk
      cases h
      simp [Task.resumeAt, hk, Task.awaited]
      exact fun x hx => Or.inr hx
    · cases h
  | .fetch i, k, h => by
    simp only [Task.leaf] at h
    split at h
    · rename_i hk
      cases h
      simp [Task.resumeAt, hk, Task.awaited]
      exact fun x hx => Or.inr hx
    · cases h
  | .explore i cur rest, k, h => by
    simp only [Task.leaf] at h
    obtain ⟨r1, r2, r3⟩ := Task.resumeAt_awaited refs2 new b id cur k h
    by_cases hd : Task.resumeAt refs2 new cur k = .done
    · rw [resumeAt_explore_done refs2 new i cur rest k hd]
      rw [hd] at r2 r3
      obtain ⟨c, d⟩ := exploreFrom_awaited refs2 i rest
      simp only [Task.awaited]
      refine ⟨?_, ?_, ?_⟩
      · intro x hx
        exact Or.inl (List.mem_append_right _
          (List.mem_filter.mpr ⟨(c x hx).1, by simp [(c x hx).2]⟩))
      · intro x hx
        rcases List.mem_append.mp hx with hx | hx
        · rcases r2 x hx with h1 | h1 | h1
          · exact Or.inl h1
          · exact Or.inr (Or.inl h1)
          · simp [Task.awaited] at h1
        · have hf := List.mem_filter.mp hx
          rcases d x hf.1 (by simpa using hf.2) with h1 | h1
          · exact Or.inr (Or.inl h1)
          · exact Or.inr (Or.inr h1)
      · intro x hx
        have := r3 x hx
        simp [Task.awaited] at this
    · rw [resumeAt_explore_pending refs2 new i cur rest k hd]
      simp only [Task.awaited]
      refine ⟨?_, ?_, ?_⟩
      · intro x hx
        rcases List.mem_append.mp hx with hx | hx
        · rcases r1 x hx with h1 | h1
          · exact Or.inl (List.mem_append_left _ h1)
          · exact Or.inr h1
        · exact Or.inl (List.mem_append_right _ hx)
      · intro x hx
        rcases List.mem_append.mp hx with hx | hx
        · rcases r2 x hx with h1 | h1 | h1
          · exact Or.inl h1
          · exact Or.inr (Or.inl h1)
          · exact Or.inr (Or.inr (List.mem_append_left _ h1))
        · exact Or.inr (Or.inr (List.mem_append_right _ hx))
      · intro x hx
        exact List.mem_append_left _ (r3 x hx)
  | .all ts, k, h => by
    simp only [Task.leaf] at h
    simp only [Task.resumeAt, mkAll_awaited, Task.awaited]
    exact resumeAtList_awaited refs2 new b id ts k h
theorem resumeAtList_awaited (refs2 : Dict Entry) (new : Task) (b : Bool) (id : String) :
    ∀ (ts : List Task) (k : Nat), leafList ts k = some (b, id) →
      (∀ x ∈ awaitedList (resumeAtList refs2 new ts k),
        x ∈ awaitedList ts ∨ x ∈ Task.awaited new) ∧
      (∀ x ∈ awaitedList ts,
        x = id ∨ x ∈ Dict.keys refs2 ∨ x ∈ awaitedList (resumeAtList refs2 new ts k)) ∧
      (∀ x ∈ Task.awaited new, x ∈ awaitedList (resumeAtList refs2 new ts k))
  | [], _, h => by simp [leafList] at h
  | t :: ts, k, h => by
    simp only [leafList] at h
    simp only [resumeAtList]
    split at h
    · rename_i hlt
      obtain ⟨r1, r2, r3⟩ := Task.resumeAt_awaited refs2 new b id t k h
      rw [if_pos hlt]
      simp only [awaitedList]
      refine ⟨?_, ?_, ?_⟩
      · intro x hx
        rcases List.mem_append.mp hx with hx | hx
        · rcases r1 x hx with h1 | h1
          · exact Or.inl (List.mem_append_left _ h1)
          · exact Or.inr h1
        · exact Or.inl (List.mem_append_right _ hx)
      · intro x hx
        rcases List.mem_append.mp hx with hx | hx
        · rcases r2 x hx with h1 | h1 | h1
          · exact Or.inl h1
          · exact Or.inr (Or.inl h1)
          · exact Or.inr (Or.inr (List.mem_append_left _ h1))
        · exact Or.inr (Or.inr (List.mem_append_right _ hx))
      · intro x hx
        exact List.mem_append_left _ (r3 x hx)
    · rename_i hge
      obtain ⟨r1, r2, r3⟩ := resumeAtList_awaited refs2 new b id ts _ h
      rw [if_neg hge]
      simp only [awaitedList]
      refine ⟨?_, ?_, ?_⟩
      · intro x hx
        rcases List.mem_append.mp hx with hx | hx
        · exact Or.inl (List.mem_append_left _ hx)
        · rcases r1 x hx with h1 | h1
          · exact Or.inl (List.mem_append_right _ h1)
          · exact Or.inr h1
      · intro x hx
        rcases List.mem_append.mp hx with hx | hx
        · exact Or.inr (Or.inr (List.mem_append_left _ hx))
        · rcases r2 x hx with h1 | h1 | h1
          · exact Or.inl h1
          · exact Or.inr (Or.inl h1)
          · exact Or.inr (Or.inr (List.mem_append_right _ h1))
      · intro x hx
        exact List.mem_append_right _ (r3 x hx)
end

/-! ## Discovery: one resumption -/

theorem work_pos (m j : Nat) : 2 ≤ work m j := by
  cases j <;> simp [work]

theorem linksOf_le_maxLinks (space : Space) (id : String) (entry : Entry)
    (h : Dict.find space.entries id = some entry) :
    (linksOf entry).length ≤ maxLinks space := by
  unfold maxLinks
  generalize space.entries = d at h
  induction d with
  | nil => simp [Dict.find] at h
  | cons p d ih =>
    obtain ⟨k, e⟩ := p
    simp only [Dict.find] at h
    split at h
    · cases h
      simp
    · have := ih h
      simp only [List.map_cons, List.sum_cons]
      omega

theorem keys_length {α : Type} (d : Dict α) : (Dict.keys d).length = d.length := by
  simp [Dict.keys]

theorem Space.getEntry_of_find (space : Space) (id : String) (entry : Entry)
    (h : Dict.find space.entries id = some entry) : space.getEntry id = .ok entry := by
  simp [Space.getEntry, h]

theorem resume_timer (space : Space) (k : Nat) (task : Task) (st : State) (id : String)
    (h : Task.leaf task k = some (false, id)) :
    resume space k task st =
      (.ok (Task.resumeAt st.references (.fetch id) task k),
        { st with calls := st.calls ++ [Call.getEntry id] }) := by
  simp [resume, h]

theorem resume_fetch (space : Space) (k : Nat) (task : Task) (st : State) (id : String)
    (entry : Entry) (h : Task.leaf task k = some (true, id))
    (hf : Dict.find space.entries id = some entry) :
    resume space k task st =
      (.ok (Task.resumeAt (Dict.put st.references id entry)
          (exploreFrom (Dict.put st.references id entry) id (langValues entry.fields)) task k),
        { st with references := Dict.put st.references id entry,
                  referenceCount := st.referenceCount + 1 }) := by
  simp [resume, h, Space.getEntry_of_find space id entry hf]

/-- One resumption keeps the invariant of discovery and lowers the bound on the resumptions
left, as long as the store holds every reachable record. -/
theorem resume_good_leaf (space : Space) (root : String) (task : Task) (st : State)
    (hg : Good space root task st)
    (k : Nat) (hk : k < Task.pending task)
    (hfetch : ∀ id, Task.leaf task k = some (true, id) →
      ∃ e, Dict.find space.entries id = some e) :
    ∃ task2 st2, resume space k task st = (.ok task2, st2) ∧ Good space root task2 st2 ∧
      Task.cost (maxLinks space) space.entries.length task2 + 1
        ≤ Task.cost (maxLinks space) space.entries.length task := by
  obtain ⟨b, id, hleaf⟩ := Task.leaf_of_lt task k hk
  have hidA : id ∈ Task.awaited task := Task.leaf_awaited task k b id hleaf
  have hidR : Reachable space root id := hg.reachAwaited id hidA
  cases b with
  | false =>
    refine ⟨_, _, resume_timer space k task st id hleaf, ?_, ?_⟩
    · have hnew : ∀ anc : List String, id ∉ anc → (∀ a ∈ anc, a ∈ Dict.keys st.references) →
          anc.Nodup → Task.Inv st.references anc (.fetch id) ∧
          Task.cost (maxLinks space) (space.entries.length - anc.length) (.fetch id) + 1
            ≤ Task.cost (maxLinks space) (space.entries.length - anc.length)
                (if false then .fetch id else .timer id) := by
        intro anc h1 _ _
        have := work_pos (maxLinks space) (space.entries.length - anc.length)
        simp only [Task.Inv, Task.cost]
        exact ⟨h1, by omega⟩
      obtain ⟨r1, _⟩ := Task.resumeAt_facts st.references st.references (fun _ h => h)
        (.fetch id) false id _ _ hnew task k [] hg.inv (by simp) List.nodup_nil hleaf
      obtain ⟨a1, a2, a3⟩ := Task.resumeAt_awaited st.references (.fetch id) false id task k hleaf
      have hin : id ∈ Task.awaited (Task.resumeAt st.references (.fetch id) task k) :=
        a3 id (by simp [Task.awaited])
      refine ⟨r1, hg.stored, hg.reachKeys, ?_, ?_, ?_⟩
      · intro x hx
        rcases a1 x hx with h | h
        · exact hg.reachAwaited x h
        · simp [Task.awaited] at h
          exact h ▸ hidR
      · intro hroot
        rcases hg.rootCovered hroot with h | h
        · exact Or.inl h
        · rcases a2 root h with h | h | h
          · exact Or.inr (h ▸ hin)
          · exact Or.inl h
          · exact Or.inr h
      · intro j e hj x hx hxi
        rcases hg.closed j e hj x hx hxi with h | h
        · exact Or.inl h
        · rcases a2 x h with h | h | h
          · exact Or.inr (h ▸ hin)
          · exact Or.inl h
          · exact Or.inr h
    · have hnew : ∀ anc : List String, id ∉ anc → (∀ a ∈ anc, a ∈ Dict.keys st.references) →
          anc.Nodup → Task.Inv st.references anc (.fetch id) ∧
          Task.cost (maxLinks space) (space.entries.length - anc.length) (.fetch id) + 1
            ≤ Task.cost (maxLinks space) (space.entries.length - anc.length)
                (if false then .fetch id else .timer id) := by
        intro anc h1 _ _
        have := work_pos (maxLinks space) (space.entries.length - anc.length)
        simp only [Task.Inv, Task.cost]
        exact ⟨h1, by omega⟩
      obtain ⟨_, r2⟩ := Task.resumeAt_facts st.references st.references (fun _ h => h)
        (.fetch id) false id _ _ hnew task k [] hg.inv (by simp) List.nodup_nil hleaf
      simpa using r2
  | true =>
    obtain ⟨entry, hentry⟩ := hfetch id hleaf
    have hsub : ∀ x, x ∈ Dict.keys st.references →
        x ∈ Dict.keys (Dict.put st.references id entry) :=
      fun x hx => (Dict.mem_keys_put _ _ _ _).mpr (Or.inr hx)
    have hidK : id ∈ Dict.keys (Dict.put st.references id entry) :=
      (Dict.mem_keys_put _ _ _ _).mpr (Or.inl rfl)
    have hstore : ∀ x, x ∈ Dict.keys (Dict.put st.references id entry) →
        x ∈ Dict.keys space.entries := by
      intro x hx
      rcases (Dict.mem_keys_put _ _ _ _).mp hx with h | h
      · exact h ▸ Dict.find_some_mem_keys _ _ _ hentry
      · obtain ⟨e, he⟩ := Dict.mem_keys_find _ _ h
        exact Dict.find_some_mem_keys _ _ _ (hg.stored x e he)
    have hnew : ∀ anc : List String, id ∉ anc →
        (∀ a ∈ anc, a ∈ Dict.keys (Dict.put st.references id entry)) → anc.Nodup →
        Task.Inv (Dict.put st.references id entry) anc
          (exploreFrom (Dict.put st.references id entry) id (langValues entry.fields)) ∧
        Task.cost (maxLinks space) (space.entries.length - anc.length)
          (exploreFrom (Dict.put st.references id entry) id (langValues entry.fields)) + 1
          ≤ Task.cost (maxLinks space) (space.entries.length - anc.length)
              (if true then .fetch id else .timer id) := by
      intro anc h1 h2 h3
      obtain ⟨e1, e2, _, _⟩ := exploreFrom_facts (Dict.put st.references id entry) anc h2
        (maxLinks space) (space.entries.length - anc.length) id h1 hidK (langValues entry.fields)
      refine ⟨e1, ?_⟩
      have hpig : (id :: anc).length ≤ (Dict.keys space.entries).length := by
        apply List.Subperm.length_le
        apply List.subperm_of_subset (List.nodup_cons.mpr ⟨h1, h3⟩)
        intro x hx
        rcases List.mem_cons.mp hx with rfl | hx
        · exact hstore _ hidK
        · exact hstore _ (h2 x hx)
      rw [keys_length] at hpig
      simp only [List.length_cons] at hpig
      obtain ⟨j, hj⟩ : ∃ j, space.entries.length - anc.length = j + 1 :=
        ⟨space.entries.length - anc.length - 1, by omega⟩
      rw [hj] at e2 ⊢
      have hm := linksOf_le_maxLinks space id entry hentry
      simp only [linksOf] at hm
      simp only [if_true, Task.cost, work]
      have hmul : (entryLinksElems (langValues entry.fields)).length * work (maxLinks space) j
          ≤ maxLinks space * work (maxLinks space) j := Nat.mul_le_mul_right _ hm
      simp only [Nat.add_sub_cancel] at e2
      omega
    obtain ⟨r1, r2⟩ := Task.resumeAt_facts st.references (Dict.put st.references id entry) hsub
      _ true id _ _ hnew task k [] hg.inv (by simp) List.nodup_nil hleaf
    obtain ⟨a1, a2, a3⟩ := Task.resumeAt_awaited (Dict.put st.references id entry)
      (exploreFrom (Dict.put st.references id entry) id (langValues entry.fields)) true id task k
      hleaf
    obtain ⟨c, d⟩ := exploreFrom_awaited (Dict.put st.references id entry) id
      (langValues entry.fields)
    refine ⟨_, _, resume_fetch space k task st id entry hleaf hentry, ?_, by simpa using r2⟩
    refine ⟨r1, ?_, ?_, ?_, ?_, ?_⟩
    · intro j e hj
      by_cases hji : id = j
      · subst hji
        rw [Dict.find_put_same] at hj
        cases hj
        exact hentry
      · simp only at hj
        rw [Dict.find_put_other _ _ _ _ hji] at hj
        exact hg.stored j e hj
    · intro j hj
      rcases (Dict.mem_keys_put _ _ _ _).mp hj with h | h
      · exact h ▸ hidR
      · exact hg.reachKeys j h
    · intro x hx
      rcases a1 x hx with h | h
      · exact hg.reachAwaited x h
      · exact Reachable.step hidR hentry (c x h).1
    · intro hroot
      rcases hg.rootCovered hroot with h | h
      · exact Or.inl (hsub _ h)
      · rcases a2 root h with h | h | h
        · exact Or.inl (h ▸ hidK)
        · exact Or.inl h
        · exact Or.inr h
    · intro j e hj x hx hxi
      simp only at hj
      by_cases hji : id = j
      · subst hji
        rw [Dict.find_put_same] at hj
        cases hj
        rcases d x hx hxi with h | h
        · exact Or.inl h
        · exact Or.inr (a3 x h)
      · rw [Dict.find_put_other _ _ _ _ hji] at hj
        rcases hg.closed j e hj x hx hxi with h | h
        · exact Or.inl (hsub _ h)
        · rcases a2 x h with h | h | h
          · exact Or.inl (h ▸ hidK)
          · exact Or.inl h
          · exact Or.inr h

theorem resume_good (space : Space) (root : String) (task : Task) (st : State)
    (hg : Good space root task st)
    (hfetch : ∀ id, Reachable space root id → ∃ e, Dict.find space.entries id = some e)
    (k : Nat) (hk : k < Task.pending task) :
    ∃ task2 st2, resume space k task st = (.ok task2, st2) ∧ Good space root task2 st2 ∧
      Task.cost (maxLinks space) space.entries.length task2 + 1
        ≤ Task.cost (maxLinks space) space.entries.length task :=
  resume_good_leaf space root task st hg k hk
    (fun id hl => hfetch id (hg.reachAwaited id (Task.leaf_awaited task k true id hl)))

/-- One resumption either keeps the invariant of discovery and lowers the bound, or is the
answer to a `getEntry` for a reachable id that the store does not hold, which rejects. -/
theorem resume_step (space : Space) (root : String) (task : Task) (st : State)
    (hg : Good space root task st) (k : Nat) (hk : k < Task.pending task) :
    (∃ task2 st2, resume space k task st = (.ok task2, st2) ∧ Good space root task2 st2 ∧
      Task.cost (maxLinks space) space.entries.length task2 + 1
        ≤ Task.cost (maxLinks space) space.entries.length task) ∨
    (∃ id, Reachable space root id ∧ Dict.find space.entries id = none ∧
      resume space k task st = (.error (.store "NotFound"), st)) := by
  by_cases h : ∀ id, Task.leaf task k = some (true, id) →
      ∃ e, Dict.find space.entries id = some e
  · exact Or.inl (resume_good_leaf space root task st hg k hk h)
  · right
    push_neg at h
    obtain ⟨id, hl, hn⟩ := h
    have hnone : Dict.find space.entries id = none := by
      cases hf : Dict.find space.entries id with
      | none => rfl
      | some e => exact absurd hf (hn e)
    refine ⟨id, hg.reachAwaited id (Task.leaf_awaited task k true id hl), hnone, ?_⟩
    simp [resume, hl, Space.getEntry, hnone]

/-! ## Discovery: runs -/

theorem run_done (space : Space) (schedule : List Nat) (st : State) :
    run space schedule .done st = (.ok .done, st) := by
  cases schedule <;> simp [run]

theorem run_cons_ok (space : Space) (k : Nat) (ks : List Nat) (task : Task) (st : State)
    (task1 : Task) (st1 : State) (h : task ≠ .done)
    (hr : resume space (k % Task.pending task) task st = (.ok task1, st1)) :
    run space (k :: ks) task st = run space ks task1 st1 := by
  cases task with
  | done => exact absurd rfl h
  | timer _ => simp [run, hr]
  | fetch _ => simp [run, hr]
  | explore _ _ _ => simp [run, hr]
  | all _ => simp [run, hr]

theorem run_cons_error (space : Space) (k : Nat) (ks : List Nat) (task : Task) (st : State)
    (e : Err) (st1 : State) (h : task ≠ .done)
    (hr : resume space (k % Task.pending task) task st = (.error e, st1)) :
    run space (k :: ks) task st = (.error e, st1) := by
  cases task with
  | done => exact absurd rfl h
  | timer _ => simp [run, hr]
  | fetch _ => simp [run, hr]
  | explore _ _ _ => simp [run, hr]
  | all _ => simp [run, hr]

/-- Every run of discovery that is long enough ends with the root call returned, whatever the
order of the resumptions. -/
theorem run_completes (space : Space) (root : String)
    (hfetch : ∀ id, Reachable space root id → ∃ e, Dict.find space.entries id = some e) :
    ∀ (n : Nat) (schedule : List Nat) (task : Task) (st : State),
      Good space root task st →
      Task.cost (maxLinks space) space.entries.length task ≤ n →
      n ≤ schedule.length →
      ∃ st2, run space schedule task st = (.ok .done, st2) ∧ Good space root .done st2 := by
  intro n
  induction n with
  | zero =>
    intro schedule task st hg hc _
    by_cases hd : task = .done
    · subst hd
      exact ⟨st, run_done space schedule st, hg⟩
    · exfalso
      have hp := Task.Inv_pending _ _ _ hg.inv hd
      obtain ⟨_, _, _, _, h⟩ := resume_good space root task st hg hfetch 0 hp
      omega
  | succ n ih =>
    intro schedule task st hg hc hlen
    by_cases hd : task = .done
    · subst hd
      exact ⟨st, run_done space schedule st, hg⟩
    · cases schedule with
      | nil => simp at hlen
      | cons k ks =>
        have hp := Task.Inv_pending _ _ _ hg.inv hd
        obtain ⟨task2, st2, h1, h2, h3⟩ := resume_good space root task st hg hfetch
          (k % Task.pending task) (Nat.mod_lt _ hp)
        rw [run_cons_ok space k ks task st task2 st2 hd h1]
        simp only [List.length_cons] at hlen
        exact ih ks task2 st2 h2 (by omega) (by omega)

theorem good_start (space : Space) (root : String) (st : State) (h : st.references = []) :
    Good space root (findReferences st.references root) st := by
  obtain ⟨a, _, c, d⟩ := findReferences_facts st.references [] (by simp) 0 0 root
  refine ⟨a, ?_, ?_, ?_, d, ?_⟩
  · intro k e hk; simp [h, Dict.find] at hk
  · intro k hk; simp [h, Dict.keys] at hk
  · intro x hx
    rw [(c x hx).1]
    exact Reachable.root
  · intro k e hk; simp [h, Dict.find] at hk

theorem start_cost (space : Space) (root : String) (refs : Dict Entry) :
    Task.cost (maxLinks space) space.entries.length (findReferences refs root)
      ≤ discoveryBound space :=
  (findReferences_facts refs [] (by simp) (maxLinks space) space.entries.length root).2.1

/-- When discovery has completed and no reachable id is the name of an inherited member, the
Visited Set holds exactly the reachable ids. -/
theorem good_done_reachable (space : Space) (root : String) (st : State)
    (hg : Good space root .done st)
    (hnames : ∀ id, Reachable space root id → inherited id = false) (id : String) :
    id ∈ Dict.keys st.references ↔ Reachable space root id := by
  constructor
  · exact hg.reachKeys id
  · intro hr
    induction hr with
    | root =>
      rcases hg.rootCovered (hnames root Reachable.root) with h | h
      · exact h
      · simp [Task.awaited] at h
    | step hra hfind hmem ih =>
      obtain ⟨e, he⟩ := Dict.mem_keys_find _ _ ih
      have := hg.stored _ e he
      rw [hfind] at this
      cases this
      rcases hg.closed _ _ he _ hmem (hnames _ (Reachable.step hra hfind hmem)) with h | h
      · exact h
      · simp [Task.awaited] at h

theorem closedUnder_sound (space : Space) (root : String) (ids : List String)
    (h : closedUnder space root ids = true) :
    ∀ id, Reachable space root id → id ∈ ids ∧ ∃ e, Dict.find space.entries id = some e := by
  simp only [closedUnder, Bool.and_eq_true, decide_eq_true_eq, List.all_eq_true] at h
  obtain ⟨hroot, hall⟩ := h
  have hmem : ∀ id, Reachable space root id → id ∈ ids := by
    intro id hr
    induction hr with
    | root => exact hroot
    | step _ hfind hb ih =>
      have := hall _ ih
      rw [hfind] at this
      simp only [List.all_eq_true, decide_eq_true_eq] at this
      exact this _ hb
  intro id hr
  refine ⟨hmem id hr, ?_⟩
  have := hall id (hmem id hr)
  cases hf : Dict.find space.entries id with
  | none => simp [hf] at this
  | some e => exact ⟨e, rfl⟩

/-- For every store that holds a record for every id reachable from the root, none of them the
name of an inherited member, and a Visited Set that starts empty, every run of
`findReferences(space, root)` of at least `discoveryBound space` resumptions, in whatever order
they come, completes; then the keys of the Visited Set are exactly the reachable ids, and each
key maps to the record of the store. -/
theorem discover_plain_ids (space : Space) (root : String) (st : State)
    (hempty : st.references = [])
    (hfetch : ∀ id, Reachable space root id → ∃ e, Dict.find space.entries id = some e)
    (hnames : ∀ id, Reachable space root id → inherited id = false)
    (schedule : List Nat) (hlen : discoveryBound space ≤ schedule.length) :
    ∃ st2, discover space schedule root st = (.ok .done, st2) ∧
      (∀ id, id ∈ Dict.keys st2.references ↔ Reachable space root id) ∧
      (∀ id e, Dict.find st2.references id = some e → Dict.find space.entries id = some e) := by
  have hstart := good_start space root st hempty
  obtain ⟨st2, h1, h2⟩ := run_completes space root hfetch _ schedule _ st hstart
    (start_cost space root st.references) hlen
  exact ⟨st2, h1, good_done_reachable space root st2 h2 hnames, h2.stored⟩

set_option maxRecDepth 100000 in
/-- The end-to-end scenario: the store holds `R`, `B`, `C` and `D`, all reachable from `R`;
under the schedule that always resumes the first suspended call the Visited Set ends with
exactly these four keys. -/
theorem discover_plain_ids_diamond :
    (Dict.keys (discover diamond (List.replicate 8 0) "R" emptyState).2.references
        = ["R", "B", "D", "C"] ∧
      completed (discover diamond (List.replicate 8 0) "R" emptyState) = true) ∧
    ∃ st2, discover diamond (List.replicate (discoveryBound diamond) 0) "R" emptyState
        = (.ok .done, st2) ∧
      (∀ id, id ∈ Dict.keys st2.references ↔ Reachable diamond "R" id) ∧
      (∀ id e, Dict.find st2.references id = some e → Dict.find diamond.entries id = some e) :=
  ⟨by decide!,
   discover_plain_ids diamond "R" emptyState rfl
    (fun id h => (closedUnder_sound diamond "R" ["R", "B", "C", "D"] (by decide!) id h).2)
    (fun id h => (by decide! : ∀ x ∈ ["R", "B", "C", "D"], inherited x = false) id
      (closedUnder_sound diamond "R" ["R", "B", "C", "D"] (by decide!) id h).1)
    (List.replicate (discoveryBound diamond) 0) (by simp)⟩

set_option maxRecDepth 100000 in
/-- C1 fails at an id that is the name of an inherited member. In the store `protoLinked` the
record `R` links to the record `constructor`, which the store holds, so `constructor` is
reachable from `R`. The run of `findReferences(space, "R")` completes after fetching `R` alone:
for `constructor` the test of line 64 finds the inherited member and returns, so the Visited Set
ends with the one key `R`. -/
theorem inherited_id_not_visited :
    (completed (discover protoLinked [0, 0] "R" emptyState) = true ∧
      (discover protoLinked [0, 0] "R" emptyState).2.calls = [Call.getEntry "R"] ∧
      Dict.keys (discover protoLinked [0, 0] "R" emptyState).2.references = ["R"] ∧
      (discover protoLinked [0, 0] "R" emptyState).2.referenceCount = 1 ∧
      Task.isDone (findReferences ([] : Dict Entry) "constructor") = true ∧
      Dict.find protoLinked.entries "constructor" = some (page "constructor" [])) ∧
    Reachable protoLinked "R" "constructor" :=
  ⟨by decide!,
   Reachable.step Reachable.root
    (by decide! : Dict.find protoLinked.entries "R"
      = some (page "R" [("child", [("de-DE", entryLink "constructor")])]))
    (by decide!)⟩


/-! ## Discovery: two links to one record in one array -/

set_option maxRecDepth 100000 in
/-- C2: evaluation at a root whose array holds two Entry links to the same record `D`. Both
calls of `findReferences` for `D` are started by the same `field.map` and pass the test of
`references[entryId]` before either has stored its record. In whatever order the four later
resumptions come, discovery completes with `getEntry` called twice for `D`, the counter at 3
and two keys in the Visited Set. -/
theorem twin_links_fetched_twice :
    ∀ a b c d : Fin 2,
      completed (discover twinLinks [0, 0, a.val, b.val, c.val, d.val] "R" emptyState) = true ∧
      (discover twinLinks [0, 0, a.val, b.val, c.val, d.val] "R" emptyState).2.calls.count
        (Call.getEntry "D") = 2 ∧
      (discover twinLinks [0, 0, a.val, b.val, c.val, d.val] "R" emptyState).2.referenceCount = 3 ∧
      Dict.keys (discover twinLinks [0, 0, a.val, b.val, c.val, d.val] "R" emptyState).2.references
        = ["R", "D"] := by
  decide!


/-! ## The calls of each phase -/

theorem resume_calls (space : Space) (k : Nat) (task : Task) (st : State) :
    ∃ cs, (resume space k task st).2.calls = st.calls ++ cs ∧ ∀ c ∈ cs, Call.phase c = 0 := by
  unfold resume
  cases hl : Task.leaf task k with
  | none => exact ⟨[], by simp, by simp⟩
  | some p =>
    obtain ⟨b, id⟩ := p
    cases b with
    | false => exact ⟨[Call.getEntry id], by simp, by simp [Call.phase]⟩
    | true =>
      cases hg : space.getEntry id with
      | error msg => exact ⟨[], by simp [hg], by simp⟩
      | ok entry => exact ⟨[], by simp [hg], by simp⟩

theorem run_calls (space : Space) :
    ∀ (schedule : List Nat) (task : Task) (st : State),
      ∃ cs, (run space schedule task st).2.calls = st.calls ++ cs ∧
        ∀ c ∈ cs, Call.phase c = 0 := by
  intro schedule
  induction schedule with
  | nil => intro task st; exact ⟨[], by simp [run], by simp⟩
  | cons k ks ih =>
    intro task st
    by_cases hd : task = .done
    · subst hd
      exact ⟨[], by simp [run_done], by simp⟩
    · obtain ⟨cs, h1, h2⟩ := resume_calls space (k % Task.pending task) task st
      cases hr : resume space (k % Task.pending task) task st with
      | mk r st1 =>
        rw [hr] at h1
        cases r with
        | error e =>
          rw [run_cons_error space k ks task st e st1 hd hr]
          exact ⟨cs, h1, h2⟩
        | ok task1 =>
          rw [run_cons_ok space k ks task st task1 st1 hd hr]
          obtain ⟨cs2, h3, h4⟩ := ih task1 st1
          refine ⟨cs ++ cs2, ?_, ?_⟩
          · rw [h3]
            simp only at h1
            rw [h1, List.append_assoc]
          · intro c hc
            rcases List.mem_append.mp hc with hc | hc
            · exact h2 c hc
            · exact h4 c hc

theorem createLoop_calls (space : Space) (tag placeholder : String) :
    ∀ (ids : List String) (st : State) (acc : Dict Entry),
      ∃ cs, (createLoop space tag placeholder ids st acc).2.calls = st.calls ++ cs ∧
        ∀ c ∈ cs, Call.phase c = 1 := by
  intro ids
  induction ids with
  | nil => intro st acc; exact ⟨[], by simp [createLoop], by simp⟩
  | cons entryId ids ih =>
    intro st acc
    unfold createLoop
    cases hf : Dict.find st.references entryId with
    | none => exact ⟨[], by simp, by simp⟩
    | some entry =>
      cases hr : renameFields tag placeholder entry.fields with
      | error e => exact ⟨[], by simp [hr], by simp⟩
      | ok fields =>
        cases hc : space.createEntry st.calls entry.contentType fields with
        | error msg =>
          exact ⟨[Call.createEntry entry.contentType fields], by simp [hr, hc],
            by simp [Call.phase]⟩
        | ok newEntry =>
          simp only [hr, hc]
          obtain ⟨cs, h1, h2⟩ := ih
            { st with references := Dict.put st.references entryId { entry with fields := fields },
                      calls := st.calls ++ [Call.createEntry entry.contentType fields],
                      newReferenceCount := st.newReferenceCount + 1 }
            (Dict.put acc entryId newEntry)
          refine ⟨Call.createEntry entry.contentType fields :: cs, ?_, ?_⟩
          · rw [h1]; simp
          · intro c hc
            rcases List.mem_cons.mp hc with rfl | hc
            · simp [Call.phase]
            · exact h2 c hc

theorem updateLoop_calls (space : Space) :
    ∀ (ids : List String) (cur : Dict Entry) (st : State),
      ∃ cs, (updateLoop space ids cur st).2.calls = st.calls ++ cs ∧
        ∀ c ∈ cs, Call.phase c = 2 := by
  intro ids
  induction ids with
  | nil => intro cur st; exact ⟨[], by simp [updateLoop], by simp⟩
  | cons entryId ids ih =>
    intro cur st
    unfold updateLoop
    cases hf : Dict.find cur entryId with
    | none => exact ⟨[], by simp, by simp⟩
    | some entry =>
      cases hu : updateFields cur entry.fields with
      | error e => exact ⟨[], by simp [hu], by simp⟩
      | ok fields =>
        cases hs : space.updateEntry st.calls { entry with fields := fields } with
        | error msg =>
          exact ⟨[Call.updateEntry { entry with fields := fields }], by simp [hu, hs],
            by simp [Call.phase]⟩
        | ok ret =>
          simp only [hu, hs]
          obtain ⟨cs, h1, h2⟩ := ih (Dict.put cur entryId { entry with fields := fields })
            { st with calls := st.calls ++ [Call.updateEntry { entry with fields := fields }],
                      updatedReferenceCount := st.updatedReferenceCount + 1 }
          refine ⟨Call.updateEntry { entry with fields := fields } :: cs, ?_, ?_⟩
          · rw [h1]; simp
          · intro c hc
            rcases List.mem_cons.mp hc with rfl | hc
            · simp [Call.phase]
            · exact h2 c hc

theorem publishEntries_calls (space : Space) (newReferences : Dict Entry) (st : State) :
    ∃ cs, (publishEntries space newReferences st).calls = st.calls ++ cs ∧
      ∀ c ∈ cs, Call.phase c = 3 := by
  refine ⟨(forInPairs newReferences).map (fun p => Call.publishEntry p.2), ?_, ?_⟩
  · simp [publishEntries, publishLoop_spec]
  · intro c hc
    obtain ⟨p, _, rfl⟩ := List.mem_map.mp hc
    simp [Call.phase]

theorem pairwise_phase_of_const (n : Nat) :
    ∀ cs : List Call, (∀ c ∈ cs, Call.phase c = n) →
      List.Pairwise (fun a b => Call.phase a ≤ Call.phase b) cs := by
  intro cs
  induction cs with
  | nil => intro _; exact List.Pairwise.nil
  | cons c cs ih =>
    intro h
    refine List.Pairwise.cons ?_ (ih (fun d hd => h d (List.mem_cons_of_mem _ hd)))
    intro d hd
    rw [h c (List.mem_cons_self _ _), h d (List.mem_cons_of_mem _ hd)]

theorem pairwise_phase_append (n : Nat) (xs ys : List Call)
    (hx : List.Pairwise (fun a b => Call.phase a ≤ Call.phase b) xs)
    (hxn : ∀ c ∈ xs, Call.phase c ≤ n) (hy : ∀ c ∈ ys, Call.phase c = n + 1) :
    List.Pairwise (fun a b => Call.phase a ≤ Call.phase b) (xs ++ ys) ∧
      ∀ c ∈ xs ++ ys, Call.phase c ≤ n + 1 := by
  refine ⟨List.pairwise_append.mpr ⟨hx, pairwise_phase_of_const _ ys hy, ?_⟩, ?_⟩
  · intro a ha b hb
    have := hxn a ha
    have := hy b hb
    omega
  · intro c hc
    rcases List.mem_append.mp hc with hc | hc
    · have := hxn c hc; omega
    · have := hy c hc; omega

/-- C10: in every call of `recursiveClone`, however it ends, the store calls it makes come in
phase order: no `createEntry` call before a `getEntry` call, no `updateEntry` call before a
`getEntry` or `createEntry` call, and no `publishEntry` call before a call of another kind. -/
theorem phases_never_overlap (space : Space) (schedule : List Nat)
    (entryId tag placeholder : String) (st0 : State) :
    ∃ cs, (recursiveClone space schedule entryId tag placeholder st0).2.calls = st0.calls ++ cs ∧
      List.Pairwise (fun a b => Call.phase a ≤ Call.phase b) cs := by
  obtain ⟨gs, hg1, hg2⟩ := run_calls space schedule
    (findReferences ([] : Dict Entry) entryId)
    { references := [], referenceCount := 0, newReferenceCount := 0,
      updatedReferenceCount := 0, publishedCount := 0, calls := st0.calls }
  have hgp := pairwise_phase_of_const 0 gs hg2
  simp only at hg1
  unfold recursiveClone
  simp only [discover]
  cases hd : run space schedule (findReferences ([] : Dict Entry) entryId)
      { references := [], referenceCount := 0, newReferenceCount := 0,
        updatedReferenceCount := 0, publishedCount := 0, calls := st0.calls } with
  | mk r st1 =>
    rw [hd] at hg1
    simp only at hg1
    cases r with
    | error e => exact ⟨gs, hg1, hgp⟩
    | ok task =>
      cases task with
      | timer _ => exact ⟨gs, hg1, hgp⟩
      | fetch _ => exact ⟨gs, hg1, hgp⟩
      | explore _ _ _ => exact ⟨gs, hg1, hgp⟩
      | all _ => exact ⟨gs, hg1, hgp⟩
      | done =>
        simp only
        obtain ⟨cr, hc1, hc2⟩ := createLoop_calls space tag placeholder
          (forInKeys st1.references) st1 []
        obtain ⟨p1, q1⟩ := pairwise_phase_append 0 gs cr hgp
          (fun c hc => by rw [hg2 c hc]) hc2
        cases hcr : createNewEntriesFromReferences space tag placeholder st1 with
        | mk r2 st2 =>
          have hc1b : st2.calls = st1.calls ++ cr := by
            have : (createNewEntriesFromReferences space tag placeholder st1).2 = st2 := by
              rw [hcr]
            rw [← this]
            exact hc1
          cases r2 with
          | error e =>
            exact ⟨gs ++ cr, by simp only; rw [hc1b, hg1, List.append_assoc], p1⟩
          | ok newReferences =>
            simp only
            obtain ⟨up, hu1, hu2⟩ := updateLoop_calls space (forInKeys newReferences)
              newReferences st2
            obtain ⟨p2, q2⟩ := pairwise_phase_append 1 (gs ++ cr) up p1 q1 hu2
            cases hur : updateReferenceTree space newReferences st2 with
            | mk r3 st3 =>
              have hu1b : st3.calls = st2.calls ++ up := by
                have : (updateReferenceTree space newReferences st2).2 = st3 := by rw [hur]
                rw [← this]
                exact hu1
              cases r3 with
              | error e =>
                exact ⟨gs ++ cr ++ up,
                  by simp only; rw [hu1b, hc1b, hg1]; simp only [List.append_assoc], p2⟩
              | ok rewritten =>
                simp only
                obtain ⟨pb, hp1, hp2⟩ := publishEntries_calls space rewritten st3
                obtain ⟨p3, _⟩ := pairwise_phase_append 2 (gs ++ cr ++ up) pb p2 q2 hp2
                exact ⟨gs ++ cr ++ up ++ pb,
                  by rw [hp1, hu1b, hc1b, hg1]; simp only [List.append_assoc], p3⟩


/-! ## The whole operation -/

theorem Dict.keys_put_nodup {α : Type} (d : Dict α) (k : String) (v : α)
    (h : (Dict.keys d).Nodup) : (Dict.keys (Dict.put d k v)).Nodup := by
  by_cases hk : k ∈ Dict.keys d
  · rw [Dict.keys_put_mem d k v hk]; exact h
  · rw [Dict.keys_put_new d k v hk]
    rw [List.nodup_append]
    exact ⟨h, by simp, by
      intro a ha hb
      simp at hb
      exact hk (hb ▸ ha)⟩

theorem resume_keys_nodup (space : Space) (k : Nat) (task : Task) (st : State)
    (h : (Dict.keys st.references).Nodup) :
    (Dict.keys (resume space k task st).2.references).Nodup := by
  unfold resume
  cases hl : Task.leaf task k with
  | none => exact h
  | some p =>
    obtain ⟨b, id⟩ := p
    cases b with
    | false => exact h
    | true =>
      cases hg : space.getEntry id with
      | error msg => simpa [hg] using h
      | ok entry => simpa [hg] using Dict.keys_put_nodup _ _ _ h

theorem run_keys_nodup (space : Space) :
    ∀ (schedule : List Nat) (task : Task) (st : State),
      (Dict.keys st.references).Nodup →
      (Dict.keys (run space schedule task st).2.references).Nodup := by
  intro schedule
  induction schedule with
  | nil => intro task st h; simpa [run] using h
  | cons k ks ih =>
    intro task st h
    by_cases hd : task = .done
    · subst hd
      simpa [run_done] using h
    · have hn := resume_keys_nodup space (k % Task.pending task) task st h
      cases hr : resume space (k % Task.pending task) task st with
      | mk r st1 =>
        rw [hr] at hn
        cases r with
        | error e =>
          rw [run_cons_error space k ks task st e st1 hd hr]
          exact hn
        | ok task1 =>
          rw [run_cons_ok space k ks task st task1 st1 hd hr]
          exact ih task1 st1 hn

theorem langLinks_put_str (internal : Dict Value) (l s : String) :
    ∀ x ∈ (Dict.put internal l (.str s)).flatMap (fun variant => entryLinks variant.2),
      x ∈ internal.flatMap (fun variant => entryLinks variant.2) := by
  induction internal with
  | nil => simp [Dict.put, entryLinks]
  | cons p d ih =>
    obtain ⟨k, v⟩ := p
    intro x hx
    by_cases hk : k = l
    · simp only [Dict.put, if_pos hk, List.flatMap_cons, List.mem_append] at hx
      rcases hx with hx | hx
      · simp [entryLinks] at hx
      · simp only [List.flatMap_cons, List.mem_append]
        exact Or.inr hx
    · simp only [Dict.put, if_neg hk, List.flatMap_cons, List.mem_append] at hx
      simp only [List.flatMap_cons, List.mem_append]
      rcases hx with hx | hx
      · exact Or.inl hx
      · exact Or.inr (ih x hx)

theorem fieldLinks_put (fields : Fields) (k : String) (old new : Dict Value)
    (hf : Dict.find fields k = some old)
    (hsub : ∀ x ∈ new.flatMap (fun variant => entryLinks variant.2),
      x ∈ old.flatMap (fun variant => entryLinks variant.2)) :
    ∀ x ∈ fieldLinks (Dict.put fields k new), x ∈ fieldLinks fields := by
  induction fields with
  | nil => simp [Dict.find] at hf
  | cons p d ih =>
    obtain ⟨k1, v1⟩ := p
    intro x hx
    by_cases hk : k1 = k
    · simp only [Dict.find, if_pos hk] at hf
      cases hf
      simp only [fieldLinks, Dict.put, if_pos hk, List.flatMap_cons, List.mem_append] at hx ⊢
      rcases hx with hx | hx
      · exact Or.inl (hsub x hx)
      · exact Or.inr hx
    · simp only [Dict.find, if_neg hk] at hf
      simp only [fieldLinks, Dict.put, if_neg hk, List.flatMap_cons, List.mem_append] at hx ⊢
      rcases hx with hx | hx
      · exact Or.inl hx
      · exact Or.inr (ih hf x hx)

theorem renameFields_total (tag placeholder : String) (fields : Fields)
    (h : namingIsText fields = true) :
    ∃ f, renameFields tag placeholder fields = .ok f ∧
      ∀ x ∈ fieldLinks f, x ∈ fieldLinks fields := by
  unfold namingIsText at h
  unfold renameFields
  cases hi : Dict.find fields "internal" with
  | none => exact ⟨fields, rfl, fun _ hx => hx⟩
  | some internal =>
    simp only [hi] at h ⊢
    cases hv : Dict.find internal "de-DE" with
    | none => exact ⟨fields, rfl, fun _ hx => hx⟩
    | some v =>
      simp only [hv] at h ⊢
      by_cases ht : truthy v = true
      · cases v with
        | str s =>
          have hn : ∃ name, newName tag placeholder (.str s) = .ok name := by
            by_cases hc : placeholder ≠ "" ∧ includes s placeholder = true
            · exact ⟨replace s placeholder tag, by simp only [newName, if_pos hc]⟩
            · exact ⟨s ++ " " ++ tag, by simp only [newName, if_neg hc]⟩
          obtain ⟨name, hn⟩ := hn
          refine ⟨Dict.put fields "internal" (Dict.put internal "de-DE" (.str name)),
            by simp [ht, hn], ?_⟩
          exact fieldLinks_put fields "internal" internal _ hi
            (langLinks_put_str internal "de-DE" name)
        | null => simp [truthy] at ht
        | bool b => simp [ht] at h
        | num _ _ => simp [ht] at h
        | arr xs => simp [ht] at h
        | link a b c => simp [ht] at h
        | obj ms => simp [ht] at h
      · exact ⟨fields, by simp [ht], fun _ hx => hx⟩

theorem Dict.find_of_mem {α : Type} (d : Dict α) (p : String × α)
    (hn : (Dict.keys d).Nodup) (hp : p ∈ d) : Dict.find d p.1 = some p.2 := by
  induction d with
  | nil => simp at hp
  | cons q d ih =>
    obtain ⟨k, v⟩ := q
    simp only [Dict.keys, List.map_cons, List.nodup_cons] at hn
    rcases List.mem_cons.mp hp with rfl | hp
    · simp [Dict.find]
    · have hne : k ≠ p.1 := by
        intro e
        apply hn.1
        rw [e]
        exact List.mem_map_of_mem Prod.fst hp
      simp only [Dict.find, if_neg hne]
      exact ih hn.2 hp

theorem mem_forInPairs {α : Type} (d : Dict α) (p : String × α)
    (hn : (Dict.keys d).Nodup) (hp : p ∈ d) : p ∈ forInPairs d := by
  unfold forInPairs
  rw [List.mem_filterMap]
  refine ⟨p.1, (mem_forInKeys d p.1).mpr (List.mem_map_of_mem Prod.fst hp), ?_⟩
  rw [Dict.find_of_mem d p hn hp]
  rfl

theorem mem_entryLinksElems (x : String) :
    ∀ vs : List Value, x ∈ entryLinksElems vs ↔ ∃ v ∈ vs, x ∈ entryLinks v := by
  intro vs
  induction vs with
  | nil => simp [entryLinksElems]
  | cons v vs ih => simp [entryLinksElems, ih]

theorem fieldLinks_sub_linksOf (entry : Entry) (h : plainFields entry.fields = true) :
    ∀ x ∈ fieldLinks entry.fields, x ∈ linksOf entry := by
  intro x hx
  simp only [plainFields, Bool.and_eq_true, decide_eq_true_eq, List.all_eq_true] at h
  obtain ⟨h1, h2⟩ := h
  simp only [fieldLinks, List.mem_flatMap] at hx
  obtain ⟨field, hfield, variant, hvariant, hx⟩ := hx
  rw [linksOf, mem_entryLinksElems]
  refine ⟨variant.2, ?_, hx⟩
  simp only [langValues, List.mem_flatMap, List.mem_map]
  exact ⟨field, mem_forInPairs _ field h1 hfield, variant,
    mem_forInPairs _ variant (h2 field hfield) hvariant, rfl⟩

mutual
theorem updateReferencesOnField_total (nr : Dict Entry) :
    ∀ v : Value, (∀ x ∈ entryLinks v, x ∈ Dict.keys nr) →
      ∃ w, updateReferencesOnField nr v = .ok w
  | .null, _ => ⟨.null, by simp [updateReferencesOnField]⟩
  | .bool b, _ => ⟨.bool b, by simp [updateReferencesOnField]⟩
  | .num a b, _ => ⟨.num a b, by simp [updateReferencesOnField]⟩
  | .str s, _ => ⟨.str s, by simp [updateReferencesOnField]⟩
  | .obj ms, _ => ⟨.obj ms, by simp [updateReferencesOnField]⟩
  | .link type linkType id, h => by
    by_cases hl : isEntryLink type linkType = true
    · have : id ∈ Dict.keys nr := h id (by simp [entryLinks, hl])
      obtain ⟨e, he⟩ := Dict.mem_keys_find nr id this
      exact ⟨.link type linkType e.id, by simp [updateReferencesOnField, hl, he]⟩
    · exact ⟨.link type linkType id, by simp [updateReferencesOnField, hl]⟩
  | .arr xs, h => by
    obtain ⟨ys, hys⟩ := updateReferencesOnElems_total nr xs (by simpa [entryLinks] using h)
    exact ⟨.arr ys, by simp [updateReferencesOnField, hys]⟩
theorem updateReferencesOnElems_total (nr : Dict Entry) :
    ∀ vs : List Value, (∀ x ∈ entryLinksElems vs, x ∈ Dict.keys nr) →
      ∃ ws, updateReferencesOnElems nr vs = .ok ws
  | [], _ => ⟨[], by simp [updateReferencesOnElems]⟩
  | v :: vs, h => by
    obtain ⟨w, hw⟩ := updateReferencesOnField_total nr v
      (fun x hx => h x (by simp [entryLinksElems, hx]))
    obtain ⟨ws, hws⟩ := updateReferencesOnElems_total nr vs
      (fun x hx => h x (by simp [entryLinksElems, hx]))
    exact ⟨w :: ws, by simp [updateReferencesOnElems, hw, hws]⟩
end

theorem updateLangs_total (nr : Dict Entry) :
    ∀ field : Dict Value,
      (∀ x ∈ field.flatMap (fun variant => entryLinks variant.2), x ∈ Dict.keys nr) →
      ∃ out, updateLangs nr field = .ok out := by
  intro field
  induction field with
  | nil => intro _; exact ⟨[], by simp [updateLangs]⟩
  | cons p rest ih =>
    obtain ⟨lang, v⟩ := p
    intro h
    obtain ⟨w, hw⟩ := updateReferencesOnField_total nr v
      (fun x hx => h x (by simp [hx]))
    obtain ⟨ws, hws⟩ := ih (fun x hx => h x (by
      simp only [List.flatMap_cons, List.mem_append]; exact Or.inr hx))
    exact ⟨(lang, w) :: ws, by simp [updateLangs, hw, hws]⟩

theorem updateFields_total (nr : Dict Entry) :
    ∀ fields : Fields, (∀ x ∈ fieldLinks fields, x ∈ Dict.keys nr) →
      ∃ out, updateFields nr fields = .ok out := by
  intro fields
  induction fields with
  | nil => intro _; exact ⟨[], by simp [updateFields]⟩
  | cons p rest ih =>
    obtain ⟨name, field⟩ := p
    intro h
    obtain ⟨f, hf⟩ := updateLangs_total nr field
      (fun x hx => h x (by
        simp only [fieldLinks, List.flatMap_cons, List.mem_append]; exact Or.inl hx))
    obtain ⟨fs, hfs⟩ := ih (fun x hx => h x (by
      simp only [fieldLinks, List.flatMap_cons, List.mem_append] at hx ⊢; exact Or.inr hx))
    exact ⟨(name, f) :: fs, by simp [updateFields, hf, hfs]⟩

theorem forall2_left {α β : Type} {R : α → β → Prop} {l1 : List α} {l2 : List β}
    (h : List.Forall₂ R l1 l2) : ∀ a ∈ l1, ∃ b, R a b := by
  induction h with
  | nil => intro a ha; simp at ha
  | cons hhead _ ih =>
    intro a ha
    rcases List.mem_cons.mp ha with rfl | ha
    · exact ⟨_, hhead⟩
    · exact ih a ha

theorem createLoop_total (space : Space) (tag placeholder : String)
    (hcreate : ∀ calls type fields,
      ∃ c, space.createEntry calls type fields = .ok c ∧ c.fields = fields) :
    ∀ (ids : List String) (st : State) (acc : Dict Entry),
      ids.Nodup →
      (∀ id ∈ ids, ∃ e, Dict.find st.references id = some e ∧ namingIsText e.fields = true) →
      ∃ res st2, createLoop space tag placeholder ids st acc = (.ok res, st2) := by
  intro ids
  induction ids with
  | nil => intro st acc _ _; exact ⟨acc, st, by simp [createLoop]⟩
  | cons entryId ids ih =>
    intro st acc hnd h
    have hnot : entryId ∉ ids := (List.nodup_cons.mp hnd).1
    obtain ⟨e, he, hname⟩ := h entryId (List.mem_cons_self _ _)
    obtain ⟨fields, hr, _⟩ := renameFields_total tag placeholder e.fields hname
    obtain ⟨c, hc, _⟩ := hcreate st.calls e.contentType fields
    have hrest : ∀ id ∈ ids, ∃ e2,
        Dict.find (Dict.put st.references entryId { e with fields := fields }) id = some e2 ∧
        namingIsText e2.fields = true := by
      intro id hid
      have hne : entryId ≠ id := fun e => hnot (e ▸ hid)
      rw [Dict.find_put_other _ _ _ _ hne]
      exact h id (List.mem_cons_of_mem _ hid)
    obtain ⟨res, st2, hres⟩ := ih
      { st with references := Dict.put st.references entryId { e with fields := fields },
                calls := st.calls ++ [Call.createEntry e.contentType fields],
                newReferenceCount := st.newReferenceCount + 1 }
      (Dict.put acc entryId c) (List.nodup_cons.mp hnd).2 hrest
    exact ⟨res, st2, by simp only [createLoop, he, hr, hc]; exact hres⟩

theorem updateLoop_total (space : Space)
    (hupdate : ∀ calls e, ∃ r, space.updateEntry calls e = .ok r) :
    ∀ (ids : List String) (cur : Dict Entry) (st : State),
      ids.Nodup →
      (∀ id ∈ ids, ∃ e, Dict.find cur id = some e ∧
        ∀ x ∈ fieldLinks e.fields, x ∈ Dict.keys cur) →
      ∃ res st2, updateLoop space ids cur st = (.ok res, st2) := by
  intro ids
  induction ids with
  | nil => intro cur st _ _; exact ⟨cur, st, by simp [updateLoop]⟩
  | cons entryId ids ih =>
    intro cur st hnd h
    have hnot : entryId ∉ ids := (List.nodup_cons.mp hnd).1
    obtain ⟨e, he, hlinks⟩ := h entryId (List.mem_cons_self _ _)
    obtain ⟨fields, hf⟩ := updateFields_total cur e.fields hlinks
    obtain ⟨r, hr⟩ := hupdate st.calls { e with fields := fields }
    have hmem : entryId ∈ Dict.keys cur := Dict.find_some_mem_keys _ _ _ he
    have hrest : ∀ id ∈ ids, ∃ e2,
        Dict.find (Dict.put cur entryId { e with fields := fields }) id = some e2 ∧
        ∀ x ∈ fieldLinks e2.fields,
          x ∈ Dict.keys (Dict.put cur entryId { e with fields := fields }) := by
      intro id hid
      have hne : entryId ≠ id := fun e => hnot (e ▸ hid)
      rw [Dict.find_put_other _ _ _ _ hne, Dict.keys_put_mem _ _ _ hmem]
      exact h id (List.mem_cons_of_mem _ hid)
    obtain ⟨res, st2, hres⟩ := ih (Dict.put cur entryId { e with fields := fields })
      { st with calls := st.calls ++ [Call.updateEntry { e with fields := fields }],
                updatedReferenceCount := st.updatedReferenceCount + 1 }
      (List.nodup_cons.mp hnd).2 hrest
    exact ⟨res, st2, by simp only [updateLoop, he, hf, hr]; exact hres⟩

/-- C9, amended: when the store holds a record for every reachable id, no reachable id is the
name of an inherited member, `createEntry` and `updateEntry` always succeed, `createEntry`
returns the fields submitted to it, and every reachable record is a plain object whose naming
value is absent, falsy or a string, then every run of `recursiveClone` that is long enough for
discovery completes its phases and returns the Clone Map's entry for the root. The Clone Map
(`newReferences`, the result of `createNewEntriesFromReferences` on the discovered state) holds
for every reachable id the record `createEntry` returned for that original; the record returned
is the one for the root with new fields, in which every Entry link reached by the rewriter has
the id of the Clone Map's record for its former target. -/
theorem clone_returns_rewritten_root (space : Space) (root tag placeholder : String)
    (st0 : State) (schedule : List Nat)
    (hfetch : ∀ id, Reachable space root id → ∃ e, Dict.find space.entries id = some e)
    (hnames : ∀ id, Reachable space root id → inherited id = false)
    (hplain : ∀ id e, Reachable space root id → Dict.find space.entries id = some e →
      plainFields e.fields = true)
    (hname : ∀ id e, Reachable space root id → Dict.find space.entries id = some e →
      namingIsText e.fields = true)
    (hcreate : ∀ calls type fields,
      ∃ c, space.createEntry calls type fields = .ok c ∧ c.fields = fields)
    (hupdate : ∀ calls e, ∃ r, space.updateEntry calls e = .ok r)
    (hlen : discoveryBound space ≤ schedule.length) :
    ∃ (st1 : State) (newReferences : Dict Entry) (st2 : State) (rewritten : Dict Entry)
      (st3 : State) (clone result : Entry),
      discover space schedule root
          { references := [], referenceCount := 0, newReferenceCount := 0,
            updatedReferenceCount := 0, publishedCount := 0, calls := st0.calls }
        = (.ok .done, st1) ∧
      createNewEntriesFromReferences space tag placeholder st1 = (.ok newReferences, st2) ∧
      updateReferenceTree space newReferences st2 = (.ok rewritten, st3) ∧
      recursiveClone space schedule root tag placeholder st0
        = (.returned (some result), publishEntries space rewritten st3) ∧
      (∀ id, id ∈ Dict.keys newReferences ↔ Reachable space root id) ∧
      (∀ id, Reachable space root id →
        ∃ (original : Entry) (fields : Fields) (history : List Call) (c : Entry),
          Dict.find space.entries id = some original ∧
          renameFields tag placeholder original.fields = .ok fields ∧
          space.createEntry history original.contentType fields = .ok c ∧
          Dict.find newReferences id = some c) ∧
      Dict.find newReferences root = some clone ∧
      (∃ f, result = { clone with fields := f }) ∧
      (fieldLinks result.fields).map some
        = (fieldLinks clone.fields).map (fun t => (Dict.find newReferences t).map Entry.id) ∧
      (∀ t ∈ fieldLinks clone.fields, t ∈ Dict.keys newReferences) := by
  -- discovery
  let st : State :=
    { references := [], referenceCount := 0, newReferenceCount := 0,
      updatedReferenceCount := 0, publishedCount := 0, calls := st0.calls }
  have hstart := good_start space root st rfl
  have hcost : Task.cost (maxLinks space) space.entries.length
      (findReferences st.references root) ≤ discoveryBound space :=
    start_cost space root st.references
  obtain ⟨st1, hrun, hgood⟩ := run_completes space root hfetch _ schedule _ st hstart hcost hlen
  have hreach := good_done_reachable space root st1 hgood hnames
  have hnd1 : (Dict.keys st1.references).Nodup := by
    have := run_keys_nodup space schedule (findReferences st.references root) st
      (by simp [st, Dict.keys])
    rw [hrun] at this
    exact this
  have hndk := forInKeys_nodup _ hnd1
  -- creation
  have hvisited : ∀ id ∈ forInKeys st1.references,
      ∃ e, Dict.find st1.references id = some e ∧ namingIsText e.fields = true := by
    intro id hid
    have hk := (mem_forInKeys _ _).mp hid
    obtain ⟨e, he⟩ := Dict.mem_keys_find _ _ hk
    exact ⟨e, he, hname id e ((hreach id).mp hk) (hgood.stored id e he)⟩
  obtain ⟨newReferences, st2, hcr⟩ := createLoop_total space tag placeholder hcreate
    (forInKeys st1.references) st1 [] hndk hvisited
  obtain ⟨hk1, _, _, _, _, _, _, _, calls, _, hall⟩ :=
    createLoop_spec space tag placeholder _ _ _ _ _ hndk (by simp [Dict.keys]) hcr
  have hkeys : Dict.keys newReferences = forInKeys st1.references := by
    rw [hk1]; simp [Dict.keys]
  have hmemk : ∀ id, id ∈ Dict.keys newReferences ↔ Reachable space root id := by
    intro id
    rw [hkeys, mem_forInKeys]
    exact hreach id
  have hclone : ∀ id, Reachable space root id →
      ∃ (entry : Entry) (fields : Fields) (history : List Call) (clone : Entry),
        Dict.find space.entries id = some entry ∧
        renameFields tag placeholder entry.fields = .ok fields ∧
        space.createEntry history entry.contentType fields = .ok clone ∧
        Dict.find newReferences id = some clone ∧
        ∀ x ∈ fieldLinks clone.fields, x ∈ Dict.keys newReferences := by
    intro id hr
    have hid : id ∈ forInKeys st1.references := (mem_forInKeys _ _).mpr ((hreach id).mpr hr)
    obtain ⟨call, entry, fields, history, clone, a1, a2, _, a4, a5, _⟩ := forall2_left hall id hid
    have hstored := hgood.stored id entry a1
    refine ⟨entry, fields, history, clone, hstored, a2, a4, a5, ?_⟩
    obtain ⟨c, hc, hecho⟩ := hcreate history entry.contentType fields
    rw [a4] at hc
    cases hc
    intro x hx
    rw [hecho] at hx
    obtain ⟨f, hf, hsub⟩ := renameFields_total tag placeholder entry.fields
      (hname id entry hr hstored)
    rw [a2] at hf
    cases hf
    have hx2 := fieldLinks_sub_linksOf entry (hplain id entry hr hstored) x (hsub x hx)
    exact (hmemk x).mpr (Reachable.step hr hstored hx2)
  -- rewriting
  have hndn : (Dict.keys newReferences).Nodup := by rw [hkeys]; exact hndk
  have hupd : ∀ id ∈ forInKeys newReferences, ∃ e, Dict.find newReferences id = some e ∧
      ∀ x ∈ fieldLinks e.fields, x ∈ Dict.keys newReferences := by
    intro id hid
    have hr := (hmemk id).mp ((mem_forInKeys _ _).mp hid)
    obtain ⟨_, _, _, clone, _, _, _, b4, b5⟩ := hclone id hr
    exact ⟨clone, b4, b5⟩
  obtain ⟨rewritten, st3, hup⟩ := updateLoop_total space hupdate (forInKeys newReferences)
    newReferences st2 (forInKeys_nodup _ hndn) hupd
  obtain ⟨_, hspec⟩ := updateLoop_spec space _ _ _ _ _ (forInKeys_nodup _ hndn) hup
  obtain ⟨original, fields, history, clone, c1, c2, c3, c4, c5⟩ := hclone root Reachable.root
  obtain ⟨result, d1, d2, _, _, d4⟩ := hspec root clone c4
  have hrootk : root ∈ forInKeys newReferences :=
    (mem_forInKeys _ _).mpr (Dict.find_some_mem_keys _ _ _ c4)
  have hdisc : discover space schedule root st = (.ok .done, st1) := hrun
  have hcr2 : createNewEntriesFromReferences space tag placeholder st1
      = (.ok newReferences, st2) := hcr
  have hup2 : updateReferenceTree space newReferences st2 = (.ok rewritten, st3) := hup
  refine ⟨st1, newReferences, st2, rewritten, st3, clone, result, hdisc, hcr2, hup2, ?_, hmemk,
    ?_, c4, d2, d4 hrootk, c5⟩
  · simp only [recursiveClone]
    rw [hdisc]
    simp only [hcr2, hup2, returnValue, d1]
  · intro id hr
    obtain ⟨e, f, hist, c, b1, b2, b3, b4, _⟩ := hclone id hr
    exact ⟨e, f, hist, c, b1, b2, b3, b4⟩

theorem Dict.mem_of_find {α : Type} (d : Dict α) (k : String) (v : α)
    (h : Dict.find d k = some v) : (k, v) ∈ d := by
  induction d with
  | nil => simp [Dict.find] at h
  | cons p d ih =>
    obtain ⟨k1, v1⟩ := p
    simp only [Dict.find] at h
    split at h
    · rename_i hk
      cases h
      simp [hk]
    · exact List.mem_cons_of_mem _ (ih h)

theorem eq_of_completed (out : Except Err Task × State) (h : completed out = true) :
    out = (.ok .done, out.2) := by
  obtain ⟨r, st⟩ := out
  cases r with
  | error e => simp [completed] at h
  | ok task => cases task <;> simp_all [completed]

/-- The result of `recursiveClone` when its first three phases complete. -/
theorem recursiveClone_returned (space : Space) (schedule : List Nat)
    (entryId tag placeholder : String) (st0 st1 : State) (newReferences : Dict Entry)
    (st2 : State) (rewritten : Dict Entry) (st3 : State)
    (h1 : discover space schedule entryId
        { references := [], referenceCount := 0, newReferenceCount := 0,
          updatedReferenceCount := 0, publishedCount := 0, calls := st0.calls }
      = (.ok .done, st1))
    (h2 : createNewEntriesFromReferences space tag placeholder st1 = (.ok newReferences, st2))
    (h3 : updateReferenceTree space newReferences st2 = (.ok rewritten, st3)) :
    recursiveClone space schedule entryId tag placeholder st0
      = (returnValue rewritten entryId, publishEntries space rewritten st3) := by
  simp only [recursiveClone]
  rw [h1]
  simp only [h2, h3]

set_option maxRecDepth 100000 in
theorem diamond_discovered :
    discover diamond (List.replicate 8 0) "R" emptyState = (.ok .done, diamondVisited) := by
  have h : completed (discover diamond (List.replicate 8 0) "R" emptyState) = true ∧
      (discover diamond (List.replicate 8 0) "R" emptyState).2 = diamondVisited := by decide!
  rw [eq_of_completed _ h.1, h.2]

set_option maxRecDepth 100000 in
theorem diamond_created :
    createNewEntriesFromReferences diamond "v2" "PLACEHOLDER" diamondVisited
      = (.ok diamondClones, diamondCreated) := by
  decide!

set_option maxRecDepth 100000 in
theorem diamond_updated :
    updateReferenceTree diamond diamondClones diamondCreated
      = (.ok diamondRewritten, diamondUpdated) := by
  decide!

set_option maxRecDepth 100000 in
theorem diamond_published :
    publishEntries diamond diamondRewritten diamondUpdated = diamondPublished := by
  decide!

/-- The end-to-end scenario: `recursiveClone` returns the rewritten clone of `R`. -/
theorem diamond_run :
    recursiveClone diamond (List.replicate 8 0) "R" "v2" "PLACEHOLDER" emptyState
      = (.returned (some (page "copy-4" [("internal", [("de-DE", .str "Root v2")]),
                                         ("left", [("de-DE", entryLink "copy-5")]),
                                         ("right", [("de-DE", entryLink "copy-7")])])),
         diamondPublished) := by
  rw [recursiveClone_returned diamond _ "R" "v2" "PLACEHOLDER" emptyState diamondVisited
    diamondClones diamondCreated diamondRewritten diamondUpdated diamond_discovered
    diamond_created diamond_updated, diamond_published]
  rfl

set_option maxRecDepth 100000 in
/-- C9, amended, in the end-to-end scenario: the hypotheses hold for the store `diamond`, and
`recursiveClone` returns the new record `copy-4` made for `R`, renamed, whose links point at
`copy-5` and `copy-7`, the clones of `B` and `C`. -/
theorem clone_returns_rewritten_root_witness :
    (recursiveClone diamond (List.replicate 8 0) "R" "v2" "PLACEHOLDER" emptyState).1
      = .returned (some (page "copy-4" [("internal", [("de-DE", .str "Root v2")]),
                                        ("left", [("de-DE", entryLink "copy-5")]),
                                        ("right", [("de-DE", entryLink "copy-7")])])) ∧
    ∃ (st1 : State) (newReferences : Dict Entry) (st2 : State) (rewritten : Dict Entry)
      (st3 : State) (clone result : Entry),
      discover diamond (List.replicate (discoveryBound diamond) 0) "R"
          { references := [], referenceCount := 0, newReferenceCount := 0,
            updatedReferenceCount := 0, publishedCount := 0, calls := emptyState.calls }
        = (.ok .done, st1) ∧
      createNewEntriesFromReferences diamond "v2" "PLACEHOLDER" st1
        = (.ok newReferences, st2) ∧
      updateReferenceTree diamond newReferences st2 = (.ok rewritten, st3) ∧
      recursiveClone diamond (List.replicate (discoveryBound diamond) 0) "R" "v2" "PLACEHOLDER"
          emptyState
        = (.returned (some result), publishEntries diamond rewritten st3) ∧
      (∀ id, id ∈ Dict.keys newReferences ↔ Reachable diamond "R" id) ∧
      (∀ id, Reachable diamond "R" id →
        ∃ (original : Entry) (fields : Fields) (history : List Call) (c : Entry),
          Dict.find diamond.entries id = some original ∧
          renameFields "v2" "PLACEHOLDER" original.fields = .ok fields ∧
          diamond.createEntry history original.contentType fields = .ok c ∧
          Dict.find newReferences id = some c) ∧
      Dict.find newReferences "R" = some clone ∧
      (∃ f, result = { clone with fields := f }) ∧
      (fieldLinks result.fields).map some
        = (fieldLinks clone.fields).map (fun t => (Dict.find newReferences t).map Entry.id) ∧
      (∀ t ∈ fieldLinks clone.fields, t ∈ Dict.keys newReferences) :=
  ⟨by rw [diamond_run],
   clone_returns_rewritten_root diamond "R" "v2" "PLACEHOLDER" emptyState
    (List.replicate (discoveryBound diamond) 0)
    (fun id h => (closedUnder_sound diamond "R" ["R", "B", "C", "D"] (by decide!) id h).2)
    (fun id h => (by decide! : ∀ x ∈ ["R", "B", "C", "D"], inherited x = false) id
      (closedUnder_sound diamond "R" ["R", "B", "C", "D"] (by decide!) id h).1)
    (fun id e _ hf =>
      (by decide! : ∀ p ∈ diamond.entries, plainFields p.2.fields = true) (id, e)
        (Dict.mem_of_find _ _ _ hf))
    (fun id e _ hf =>
      (by decide! : ∀ p ∈ diamond.entries, namingIsText p.2.fields = true) (id, e)
        (Dict.mem_of_find _ _ _ hf))
    (fun _ _ _ => ⟨_, rfl, rfl⟩)
    (fun _ _ => ⟨_, rfl⟩)
    (by simp)⟩

set_option maxRecDepth 100000 in
/-- C9, as stated, fails although every store call succeeds. In the store `embedsLink`
`recursiveClone` returns the new record made for `R`, in which the link to `B` inside the object
of the field `body` still has the original `B` as target, while the link of the field `child`
has the id of the clone of `B`. In the store `numberNamed` the naming value of the root is the
number 7: the one store call made, `getEntry`, succeeds, and `recursiveClone` fails with the
`TypeError` of `name.includes`. In the store `addsLink`, `createEntry` succeeds and returns a
record with one more link: both store calls succeed, and `recursiveClone` fails with the
`TypeError` of the rewriter. -/
theorem clone_fails_though_store_succeeds :
    (recursiveClone embedsLink [0, 0, 0, 0] "R" "v2" "" emptyState).1
      = .returned (some (page "copy-2"
          [("body", [("de-DE", .obj [("target", entryLink "B")])]),
           ("child", [("de-DE", entryLink "copy-3")])])) ∧
    nestedFieldLinks [("body", [("de-DE", .obj [("target", entryLink "B")])]),
                      ("child", [("de-DE", entryLink "copy-3")])] = ["B", "copy-3"] ∧
    recursiveClone numberNamed [0, 0] "R" "v2" "PLACEHOLDER" emptyState
      = (.failed .typeError,
         { references := [("R", page "R" [("internal", [("de-DE", .num true "7")])])],
           referenceCount := 1, newReferenceCount := 0, updatedReferenceCount := 0,
           publishedCount := 0, calls := [Call.getEntry "R"] }) ∧
    numberNamed.getEntry "R" = .ok (page "R" [("internal", [("de-DE", .num true "7")])]) ∧
    (recursiveClone addsLink [0, 0] "R" "v2" "" emptyState).1 = .failed .typeError ∧
    (recursiveClone addsLink [0, 0] "R" "v2" "" emptyState).2.calls
      = [Call.getEntry "R", Call.createEntry "page" []] ∧
    addsLink.createEntry [Call.getEntry "R"] "page" []
      = .ok { id := "copy-1", contentType := "page", version := 1,
              fields := [("origin", [("de-DE", entryLink "ghost")])] } := by
  decide!


/-! ## What the phases leave untouched -/

/-- C13: `inspectField` applied to `null`, a scalar, an object that is not a link, or a link
whose `linkType` is not `Entry` returns at once: no call of `findReferences` is started (so no
`getEntry` call is suspended), whatever the Visited Set holds, and the loop of the caller goes
on with its next language variant. The Visited Set and the counter are arguments that
`inspectField` only reads; they change in `resume`, when a suspended `getEntry` is answered. -/
theorem inspect_ignored_value (references : Dict Entry) (v : Value)
    (hv : ignoredValue v = true) :
    inspectField references v = .done ∧
    Task.pending (inspectField references v) = 0 ∧
    Task.awaited (inspectField references v) = [] ∧
    ∀ (entryId : String) (rest : List Value),
      exploreFrom references entryId (v :: rest) = exploreFrom references entryId rest := by
  have h : inspectField references v = .done := by
    cases v with
    | null => rfl
    | bool _ => rfl
    | num _ _ => rfl
    | str _ => rfl
    | obj _ => rfl
    | arr _ => simp [ignoredValue] at hv
    | link type linkType id =>
      have hl : isEntryLink type linkType = false := by
        simp only [ignoredValue, decide_eq_true_eq] at hv
        simp [isEntryLink, hv]
      simp [inspectField, hl]
  refine ⟨h, by rw [h]; rfl, by rw [h]; rfl, fun entryId rest => ?_⟩
  exact exploreFrom_cons_done references entryId v rest h

set_option maxRecDepth 100000 in
/-- C13 at an Asset link, with the Visited Set of the end-to-end scenario. -/
theorem inspect_ignored_value_witness :
    inspectField diamondVisited.references (.link "Link" "Asset" "B") = .done ∧
    Task.pending (inspectField diamondVisited.references (.link "Link" "Asset" "B")) = 0 ∧
    Task.awaited (inspectField diamondVisited.references (.link "Link" "Asset" "B")) = [] ∧
    ∀ (entryId : String) (rest : List Value),
      exploreFrom diamondVisited.references entryId (.link "Link" "Asset" "B" :: rest)
        = exploreFrom diamondVisited.references entryId rest :=
  inspect_ignored_value diamondVisited.references (.link "Link" "Asset" "B") (by decide!)

/-- C17: `recursiveClone` starts from the empty Visited Set and from counters at 0, whatever
the module state was: for any two values of `references` and of the four counters (and the same
store, schedule and arguments) it makes the same store calls, returns the same outcome and
leaves the same state. -/
theorem clone_resets_module_state (space : Space) (schedule : List Nat)
    (entryId tag placeholder : String) (calls : List Call)
    (refs1 refs2 : Dict Entry) (a1 b1 c1 d1 a2 b2 c2 d2 : Nat) :
    recursiveClone space schedule entryId tag placeholder
        { references := refs1, referenceCount := a1, newReferenceCount := b1,
          updatedReferenceCount := c1, publishedCount := d1, calls := calls }
      = recursiveClone space schedule entryId tag placeholder
        { references := refs2, referenceCount := a2, newReferenceCount := b2,
          updatedReferenceCount := c2, publishedCount := d2, calls := calls } :=
  rfl

set_option maxRecDepth 100000 in
/-- What the reset is for: on the Visited Set a previous run from `R` left, `findReferences`
returns at once, with no `getEntry` call and nothing discovered anew. -/
theorem discover_on_visited_root :
    completed (discover diamond (List.replicate 8 0) "R" diamondVisited) = true ∧
    (discover diamond (List.replicate 8 0) "R" diamondVisited).2 = diamondVisited := by
  decide!

/-- C18: when `updateReferencesOnField` returns, the rewritten value has the shape of its
input: arrays of the same length in the same order, the same scalars, the same objects other
than Entry links, and for every link the same `type` and `linkType`; only the target id of an
Entry link can differ. The same holds for all fields of a record under the field walk of
`updateReferenceTree`, which also keeps the field names and language tags. -/
theorem rewrite_keeps_shape (newReferences : Dict Entry) (v w : Value)
    (h : updateReferencesOnField newReferences v = .ok w) :
    Value.shape w = Value.shape v ∧
    ∀ fields out : Fields, updateFields newReferences fields = .ok out →
      shapeFields out = shapeFields fields :=
  ⟨updateReferencesOnField_shape newReferences v w h,
   fun fields out hf => updateFields_shape newReferences fields out hf⟩

set_option maxRecDepth 100000 in
/-- C18 at an array that holds an Entry link, an Asset link, a string and an object. -/
theorem rewrite_keeps_shape_witness :
    updateReferencesOnField diamondClones
        (.arr [entryLink "D", .link "Link" "Asset" "D", .str "D", .obj [("x", entryLink "D")]])
      = .ok (.arr [entryLink "copy-6", .link "Link" "Asset" "D", .str "D",
                   .obj [("x", entryLink "D")]]) ∧
    (Value.shape (.arr [entryLink "copy-6", .link "Link" "Asset" "D", .str "D",
                        .obj [("x", entryLink "D")]])
      = Value.shape (.arr [entryLink "D", .link "Link" "Asset" "D", .str "D",
                           .obj [("x", entryLink "D")]]) ∧
    ∀ fields out : Fields, updateFields diamondClones fields = .ok out →
      shapeFields out = shapeFields fields) :=
  ⟨by decide!,
   rewrite_keeps_shape diamondClones
    (.arr [entryLink "D", .link "Link" "Asset" "D", .str "D", .obj [("x", entryLink "D")]])
    (.arr [entryLink "copy-6", .link "Link" "Asset" "D", .str "D", .obj [("x", entryLink "D")]])
    (by decide!)⟩

theorem sameButNaming_refl (fields : Fields) : SameButNaming fields fields :=
  ⟨rfl, fun _ _ => rfl, fun internal h => ⟨internal, h, rfl, fun _ _ => rfl⟩, fun _ => rfl⟩

theorem renameFields_frame (tag placeholder : String) (fields submitted : Fields)
    (h : renameFields tag placeholder fields = .ok submitted) :
    SameButNaming fields submitted := by
  unfold renameFields at h
  cases hi : Dict.find fields "internal" with
  | none =>
    simp only [hi] at h
    cases h
    exact sameButNaming_refl fields
  | some internal =>
    simp only [hi] at h
    cases hv : Dict.find internal "de-DE" with
    | none =>
      simp only [hv] at h
      cases h
      exact sameButNaming_refl fields
    | some v =>
      simp only [hv] at h
      by_cases ht : truthy v = true
      · rw [if_pos ht] at h
        cases hn : newName tag placeholder v with
        | error e => simp [hn] at h
        | ok name =>
          simp only [hn] at h
          cases h
          have hk1 : "internal" ∈ Dict.keys fields := Dict.find_some_mem_keys _ _ _ hi
          have hk2 : "de-DE" ∈ Dict.keys internal := Dict.find_some_mem_keys _ _ _ hv
          refine ⟨Dict.keys_put_mem _ _ _ hk1, ?_, ?_, ?_⟩
          · intro name2 hne
            exact Dict.find_put_other _ _ _ _ (fun e => hne e.symm)
          · intro internal0 h0
            rw [hi] at h0
            cases h0
            refine ⟨_, Dict.find_put_same _ _ _, Dict.keys_put_mem _ _ _ hk2, ?_⟩
            intro lang hne
            exact Dict.find_put_other _ _ _ _ (fun e => hne e.symm)
          · intro h0
            rw [hi] at h0
            cases h0
      · rw [if_neg ht] at h
        cases h
        exact sameButNaming_refl fields

/-- C15: when `createNewEntriesFromReferences` completes, it has made one `createEntry` call
per visited record, in the order of its loop, with the content type of that record and with
fields that are the fields of that record except for the `de-DE` variant of the field
`internal`: same field names, same language tags, every other field and language variant
unchanged; they are the original fields themselves when the field `internal` is absent. -/
theorem create_payload_is_original (space : Space) (tag placeholder : String) (st : State)
    (newReferences : Dict Entry) (st2 : State)
    (hkeys : (Dict.keys st.references).Nodup)
    (h : createNewEntriesFromReferences space tag placeholder st = (.ok newReferences, st2)) :
    ∃ calls, st2.calls = st.calls ++ calls ∧
      List.Forall₂ (fun id call => ∃ entry submitted,
          Dict.find st.references id = some entry ∧
          call = Call.createEntry entry.contentType submitted ∧
          SameButNaming entry.fields submitted)
        (forInKeys st.references) calls := by
  obtain ⟨_, _, _, _, _, _, _, _, calls, h9, h10⟩ :=
    createLoop_spec space tag placeholder _ _ _ _ _ (forInKeys_nodup _ hkeys)
      (by simp [Dict.keys]) h
  refine ⟨calls, h9, h10.imp ?_⟩
  intro id call hcf
  obtain ⟨e, f, _, _, a1, a2, a3, _⟩ := hcf
  exact ⟨e, f, a1, a3, renameFields_frame tag placeholder e.fields f a2⟩

/-- C15 in the end-to-end scenario: of the four payloads, those of `R` and `D` differ from
the originals in the naming value only, those of `B` and `C` are the original fields. -/
theorem create_payload_is_original_witness :
    ∃ calls, diamondCreated.calls = diamondVisited.calls ++ calls ∧
      List.Forall₂ (fun id call => ∃ entry submitted,
          Dict.find diamondVisited.references id = some entry ∧
          call = Call.createEntry entry.contentType submitted ∧
          SameButNaming entry.fields submitted)
        (forInKeys diamondVisited.references) calls :=
  create_payload_is_original diamond "v2" "PLACEHOLDER" diamondVisited diamondClones
    diamondCreated (by decide!) diamond_created


/-! ## Termination of discovery -/

theorem run_good (space : Space) (root : String)
    (hfetch : ∀ id, Reachable space root id → ∃ e, Dict.find space.entries id = some e) :
    ∀ (schedule : List Nat) (task : Task) (st : State), Good space root task st →
      ∃ task2 st2, run space schedule task st = (.ok task2, st2) ∧
        Good space root task2 st2 := by
  intro schedule
  induction schedule with
  | nil => intro task st hg; exact ⟨task, st, by simp [run], hg⟩
  | cons k ks ih =>
    intro task st hg
    by_cases hd : task = .done
    · subst hd
      exact ⟨.done, st, run_done space _ st, hg⟩
    · have hp := Task.Inv_pending _ _ _ hg.inv hd
      obtain ⟨task1, st1, h1, h2, _⟩ := resume_good space root task st hg hfetch
        (k % Task.pending task) (Nat.mod_lt _ hp)
      rw [run_cons_ok space k ks task st task1 st1 hd h1]
      exact ih task1 st1 h2

theorem run_good_ok (space : Space) (root : String) :
    ∀ (schedule : List Nat) (task : Task) (st : State), Good space root task st →
      ∀ task2 st2, run space schedule task st = (.ok task2, st2) →
        Good space root task2 st2 := by
  intro schedule
  induction schedule with
  | nil =>
    intro task st hg task2 st2 h
    simp [run] at h
    obtain ⟨rfl, rfl⟩ := h
    exact hg
  | cons k ks ih =>
    intro task st hg task2 st2 h
    by_cases hd : task = .done
    · subst hd
      rw [run_done] at h
      simp at h
      obtain ⟨rfl, rfl⟩ := h
      exact hg
    · have hp := Task.Inv_pending _ _ _ hg.inv hd
      rcases resume_step space root task st hg (k % Task.pending task) (Nat.mod_lt _ hp) with
        ⟨task1, st1, h1, h2, _⟩ | ⟨id, _, _, h1⟩
      · rw [run_cons_ok space k ks task st task1 st1 hd h1] at h
        exact ih task1 st1 h2 task2 st2 h
      · rw [run_cons_error space k ks task st _ st hd h1] at h
        simp at h

mutual
theorem Task.chains_nodup (refs : Dict Entry) :
    ∀ (t : Task) (anc : List String), Task.Inv refs anc t → anc.Nodup →
      ∀ chain ∈ Task.chains t, (chain ++ anc).Nodup
  | .done, _, _, _, chain, h => by simp [Task.chains] at h
  | .timer id, anc, hinv, hnd, chain, h => by
    simp only [Task.chains, List.mem_singleton] at h
    subst h
    simp only [Task.Inv] at hinv
    simpa using ⟨hinv, hnd⟩
  | .fetch id, anc, hinv, hnd, chain, h => by
    simp only [Task.chains, List.mem_singleton] at h
    subst h
    simp only [Task.Inv] at hinv
    simpa using ⟨hinv, hnd⟩
  | .explore id cur rest, anc, hinv, hnd, chain, h => by
    simp only [Task.chains, List.mem_map] at h
    obtain ⟨c, hc, rfl⟩ := h
    simp only [Task.Inv] at hinv
    have := Task.chains_nodup refs cur (id :: anc) hinv.2.2.2
      (List.nodup_cons.mpr ⟨hinv.1, hnd⟩) c hc
    exact (List.perm_middle.nodup_iff).mp this
  | .all ts, anc, hinv, hnd, chain, h => by
    simp only [Task.chains] at h
    simp only [Task.Inv] at hinv
    exact chainsList_nodup refs ts anc hinv.2 hnd chain h
theorem chainsList_nodup (refs : Dict Entry) :
    ∀ (ts : List Task) (anc : List String), InvList refs anc ts → anc.Nodup →
      ∀ chain ∈ chainsList ts, (chain ++ anc).Nodup
  | [], _, _, _, chain, h => by simp [chainsList] at h
  | t :: ts, anc, hinv, hnd, chain, h => by
    simp only [chainsList, List.mem_append] at h
    simp only [InvList] at hinv
    rcases h with h | h
    · exact Task.chains_nodup refs t anc hinv.1 hnd chain h
    · exact chainsList_nodup refs ts anc hinv.2 hnd chain h
end

mutual
theorem Task.chains_mem (refs : Dict Entry) :
    ∀ (t : Task) (anc : List String), Task.Inv refs anc t →
      ∀ chain ∈ Task.chains t, ∀ x ∈ chain, x ∈ Dict.keys refs ∨ x ∈ Task.awaited t
  | .done, _, _, chain, h => by simp [Task.chains] at h
  | .timer id, anc, _, chain, h => by
    simp only [Task.chains, List.mem_singleton] at h
    subst h
    intro x hx
    exact Or.inr (by simpa [Task.awaited] using hx)
  | .fetch id, anc, _, chain, h => by
    simp only [Task.chains, List.mem_singleton] at h
    subst h
    intro x hx
    exact Or.inr (by simpa [Task.awaited] using hx)
  | .explore id cur rest, anc, hinv, chain, h => by
    simp only [Task.chains, List.mem_map] at h
    obtain ⟨c, hc, rfl⟩ := h
    simp only [Task.Inv] at hinv
    intro x hx
    rcases List.mem_cons.mp hx with rfl | hx
    · exact Or.inl hinv.2.1
    · rcases Task.chains_mem refs cur (id :: anc) hinv.2.2.2 c hc x hx with h1 | h1
      · exact Or.inl h1
      · exact Or.inr (by simp only [Task.awaited]; exact List.mem_append_left _ h1)
  | .all ts, anc, hinv, chain, h => by
    simp only [Task.chains] at h
    simp only [Task.Inv] at hinv
    simpa [Task.awaited] using chainsList_mem refs ts anc hinv.2 chain h
theorem chainsList_mem (refs : Dict Entry) :
    ∀ (ts : List Task) (anc : List String), InvList refs anc ts →
      ∀ chain ∈ chainsList ts, ∀ x ∈ chain, x ∈ Dict.keys refs ∨ x ∈ awaitedList ts
  | [], _, _, chain, h => by simp [chainsList] at h
  | t :: ts, anc, hinv, chain, h => by
    simp only [chainsList, List.mem_append] at h
    simp only [InvList] at hinv
    intro x hx
    rcases h with h | h
    · rcases Task.chains_mem refs t anc hinv.1 chain h x hx with h1 | h1
      · exact Or.inl h1
      · exact Or.inr (by simp only [awaitedList]; exact List.mem_append_left _ h1)
    · rcases chainsList_mem refs ts anc hinv.2 chain h x hx with h1 | h1
      · exact Or.inl h1
      · exact Or.inr (by simp only [awaitedList]; exact List.mem_append_right _ h1)
end

/-- C12: for every store that holds a record for every id reachable from the root (cycles
included) and a Visited Set that starts empty, `findReferences(space, root)` terminates: every
run of at least `discoveryBound space` resumptions, in whatever order, ends with the root call
returned. At every moment of every run, along each chain of nested `findReferences` calls the
ids are pairwise distinct, so its depth is at most the number of records of the store. -/
theorem discovery_terminates (space : Space) (root : String) (st : State)
    (hempty : st.references = [])
    (hfetch : ∀ id, Reachable space root id → ∃ e, Dict.find space.entries id = some e) :
    (∀ schedule : List Nat, discoveryBound space ≤ schedule.length →
      completed (discover space schedule root st) = true) ∧
    (∀ schedule : List Nat, ∃ task st2,
      discover space schedule root st = (.ok task, st2) ∧
      ∀ chain ∈ Task.chains task, chain.Nodup ∧ chain.length ≤ space.entries.length) := by
  have hstart := good_start space root st hempty
  constructor
  · intro schedule hlen
    have hcost : Task.cost (maxLinks space) space.entries.length
        (findReferences st.references root) ≤ discoveryBound space :=
      start_cost space root st.references
    obtain ⟨st2, h1, _⟩ := run_completes space root hfetch _ schedule _ st hstart hcost hlen
    simp [discover, h1, completed]
  · intro schedule
    obtain ⟨task, st2, h1, hg⟩ := run_good space root hfetch schedule _ st hstart
    refine ⟨task, st2, h1, fun chain hc => ?_⟩
    have hnd : chain.Nodup := by
      simpa using Task.chains_nodup st2.references task [] hg.inv List.nodup_nil chain hc
    refine ⟨hnd, ?_⟩
    rw [← keys_length]
    apply List.Subperm.length_le
    apply List.subperm_of_subset hnd
    intro x hx
    rcases Task.chains_mem st2.references task [] hg.inv chain hc x hx with h | h
    · obtain ⟨e, he⟩ := Dict.mem_keys_find _ _ h
      exact Dict.find_some_mem_keys _ _ _ (hg.stored x e he)
    · obtain ⟨e, he⟩ := hfetch x (hg.reachAwaited x h)
      exact Dict.find_some_mem_keys _ _ _ he

set_option maxRecDepth 100000 in
/-- C12 in the end-to-end scenario, and the chains after three resumptions: `R` is stored and
the call for `B` nested in it is suspended. -/
theorem discovery_terminates_witness :
    (match (discover diamond [0, 0, 0] "R" emptyState).1 with
      | .ok task => Task.chains task
      | .error _ => []) = [["R", "B"]] ∧
    ((∀ schedule : List Nat, discoveryBound diamond ≤ schedule.length →
      completed (discover diamond schedule "R" emptyState) = true) ∧
    (∀ schedule : List Nat, ∃ task st2,
      discover diamond schedule "R" emptyState = (.ok task, st2) ∧
      ∀ chain ∈ Task.chains task, chain.Nodup ∧ chain.length ≤ diamond.entries.length)) :=
  ⟨by decide!,
   discovery_terminates diamond "R" emptyState rfl
    (fun id h => (closedUnder_sound diamond "R" ["R", "B", "C", "D"] (by decide!) id h).2)⟩


/-! ## Discovery is exhaustive for the rewriter -/

theorem renameFields_links (tag placeholder : String) (fields submitted : Fields)
    (h : renameFields tag placeholder fields = .ok submitted) :
    ∀ x ∈ fieldLinks submitted, x ∈ fieldLinks fields := by
  unfold renameFields at h
  cases hi : Dict.find fields "internal" with
  | none => simp only [hi] at h; cases h; exact fun _ hx => hx
  | some internal =>
    simp only [hi] at h
    cases hv : Dict.find internal "de-DE" with
    | none => simp only [hv] at h; cases h; exact fun _ hx => hx
    | some v =>
      simp only [hv] at h
      by_cases ht : truthy v = true
      · rw [if_pos ht] at h
        cases hn : newName tag placeholder v with
        | error e => simp [hn] at h
        | ok name =>
          simp only [hn] at h
          cases h
          exact fieldLinks_put fields "internal" internal _ hi
            (langLinks_put_str internal "de-DE" name)
      · rw [if_neg ht] at h
        cases h
        exact fun _ hx => hx

theorem updateLoop_no_typeError (space : Space) :
    ∀ (ids : List String) (cur : Dict Entry) (st : State),
      ids.Nodup →
      (∀ id ∈ ids, ∃ e, Dict.find cur id = some e ∧
        ∀ x ∈ fieldLinks e.fields, x ∈ Dict.keys cur) →
      (updateLoop space ids cur st).1 ≠ .error .typeError := by
  intro ids
  induction ids with
  | nil => intro cur st _ _; simp [updateLoop]
  | cons entryId ids ih =>
    intro cur st hnd h
    have hnot : entryId ∉ ids := (List.nodup_cons.mp hnd).1
    obtain ⟨e, he, hlinks⟩ := h entryId (List.mem_cons_self _ _)
    obtain ⟨fields, hf⟩ := updateFields_total cur e.fields hlinks
    have hmem : entryId ∈ Dict.keys cur := Dict.find_some_mem_keys _ _ _ he
    have hrest : ∀ id ∈ ids, ∃ e2,
        Dict.find (Dict.put cur entryId { e with fields := fields }) id = some e2 ∧
        ∀ x ∈ fieldLinks e2.fields,
          x ∈ Dict.keys (Dict.put cur entryId { e with fields := fields }) := by
      intro id hid
      have hne : entryId ≠ id := fun e => hnot (e ▸ hid)
      rw [Dict.find_put_other _ _ _ _ hne, Dict.keys_put_mem _ _ _ hmem]
      exact h id (List.mem_cons_of_mem _ hid)
    cases hr : space.updateEntry st.calls { e with fields := fields } with
    | error msg => simp [updateLoop, he, hf, hr]
    | ok r =>
      simp only [updateLoop, he, hf, hr]
      exact ih _ _ (List.nodup_cons.mp hnd).2 hrest

/-- When the store holds a record for every reachable id, no reachable id is the name of an
inherited member, the records are plain objects, and `createEntry` returns the fields submitted
to it, then in every run of `recursiveClone` discovery completes, and if the new entries are all
created, every Entry link the rewriter reaches in a record of the Clone Map has a target that is
a key of the Clone Map: the field walk of every record succeeds, and `updateReferenceTree` does
not fail with the `TypeError` of a missing lookup. -/
theorem rewriter_plain_ids (space : Space) (schedule : List Nat)
    (root tag placeholder : String) (st0 : State)
    (hfetch : ∀ id, Reachable space root id → ∃ e, Dict.find space.entries id = some e)
    (hnames : ∀ id, Reachable space root id → inherited id = false)
    (hplain : ∀ id e, Dict.find space.entries id = some e → plainFields e.fields = true)
    (hecho : ∀ calls type fields c,
      space.createEntry calls type fields = .ok c → c.fields = fields)
    (hlen : discoveryBound space ≤ schedule.length) :
    ∃ st1, discover space schedule root
        { references := [], referenceCount := 0, newReferenceCount := 0,
          updatedReferenceCount := 0, publishedCount := 0, calls := st0.calls }
        = (.ok .done, st1) ∧
      ∀ newReferences st2,
        createNewEntriesFromReferences space tag placeholder st1 = (.ok newReferences, st2) →
        (∀ id clone, Dict.find newReferences id = some clone →
          (∀ t ∈ fieldLinks clone.fields, t ∈ Dict.keys newReferences) ∧
          ∃ rewritten, updateFields newReferences clone.fields = .ok rewritten) ∧
        (updateReferenceTree space newReferences st2).1 ≠ .error .typeError := by
  let st : State :=
    { references := [], referenceCount := 0, newReferenceCount := 0,
      updatedReferenceCount := 0, publishedCount := 0, calls := st0.calls }
  have hstart := good_start space root st rfl
  have hcost : Task.cost (maxLinks space) space.entries.length
      (findReferences st.references root) ≤ discoveryBound space :=
    start_cost space root st.references
  obtain ⟨st1, hrun, hgood⟩ := run_completes space root hfetch _ schedule _ st hstart hcost hlen
  refine ⟨st1, hrun, ?_⟩
  intro newReferences st2 hcr
  have hreach := good_done_reachable space root st1 hgood hnames
  have hnd1 : (Dict.keys st1.references).Nodup := by
    have := run_keys_nodup space schedule (findReferences st.references root) st
      (by simp [st, Dict.keys])
    rw [hrun] at this
    exact this
  have hndk := forInKeys_nodup _ hnd1
  obtain ⟨hk1, _, _, _, _, _, _, _, calls, _, hall⟩ :=
    createLoop_spec space tag placeholder _ _ _ _ _ hndk (by simp [Dict.keys]) hcr
  have hkeys : Dict.keys newReferences = forInKeys st1.references := by
    rw [hk1]; simp [Dict.keys]
  have hlinks : ∀ id clone, Dict.find newReferences id = some clone →
      ∀ t ∈ fieldLinks clone.fields, t ∈ Dict.keys newReferences := by
    intro id clone hfind t ht
    have hid : id ∈ forInKeys st1.references := by
      rw [← hkeys]; exact Dict.find_some_mem_keys _ _ _ hfind
    have hr : Reachable space root id := (hreach id).mp ((mem_forInKeys _ _).mp hid)
    obtain ⟨call, entry, fields, history, clone2, a1, a2, _, a4, a5, _⟩ :=
      forall2_left hall id hid
    rw [hfind] at a5
    cases a5
    have hstored := hgood.stored id entry a1
    rw [hecho _ _ _ _ a4] at ht
    have hx := fieldLinks_sub_linksOf entry (hplain id entry hstored) t
      (renameFields_links tag placeholder entry.fields fields a2 t ht)
    rw [hkeys, mem_forInKeys]
    exact (hreach t).mpr (Reachable.step hr hstored hx)
  refine ⟨fun id clone hfind => ⟨hlinks id clone hfind,
    updateFields_total newReferences clone.fields (hlinks id clone hfind)⟩, ?_⟩
  have hndn : (Dict.keys newReferences).Nodup := by rw [hkeys]; exact hndk
  apply updateLoop_no_typeError space _ _ _ (forInKeys_nodup _ hndn)
  intro id hid
  obtain ⟨e, he⟩ := Dict.mem_keys_find _ _ ((mem_forInKeys _ _).mp hid)
  exact ⟨e, he, hlinks id e he⟩

set_option maxRecDepth 100000 in
/-- The end-to-end scenario: the rewriter finds every target. -/
theorem rewriter_plain_ids_diamond :
    ∃ st1, discover diamond (List.replicate (discoveryBound diamond) 0) "R"
        { references := [], referenceCount := 0, newReferenceCount := 0,
          updatedReferenceCount := 0, publishedCount := 0, calls := emptyState.calls }
        = (.ok .done, st1) ∧
      ∀ newReferences st2,
        createNewEntriesFromReferences diamond "v2" "PLACEHOLDER" st1
          = (.ok newReferences, st2) →
        (∀ id clone, Dict.find newReferences id = some clone →
          (∀ t ∈ fieldLinks clone.fields, t ∈ Dict.keys newReferences) ∧
          ∃ rewritten, updateFields newReferences clone.fields = .ok rewritten) ∧
        (updateReferenceTree diamond newReferences st2).1 ≠ .error .typeError :=
  rewriter_plain_ids diamond (List.replicate (discoveryBound diamond) 0) "R" "v2"
    "PLACEHOLDER" emptyState
    (fun id h => (closedUnder_sound diamond "R" ["R", "B", "C", "D"] (by decide!) id h).2)
    (fun id h => (by decide! : ∀ x ∈ ["R", "B", "C", "D"], inherited x = false) id
      (closedUnder_sound diamond "R" ["R", "B", "C", "D"] (by decide!) id h).1)
    (fun id e hf =>
      (by decide! : ∀ p ∈ diamond.entries, plainFields p.2.fields = true) (id, e)
        (Dict.mem_of_find _ _ _ hf))
    (fun _ _ _ c h => by cases h; rfl)
    (by simp)

set_option maxRecDepth 100000 in
/-- C16 fails at a reference to an id that is the name of an inherited member. The store
`protoLinked` holds `R` and `constructor`, so every fetch succeeds, and its `createEntry`
returns the fields submitted to it. Discovery passes over `constructor` (the test of line 64
finds the inherited member), the Clone Map gets the one key `R`, and the rewriter reaches the
link to `constructor` in the new record: its target is not a key of the Clone Map, and
`recursiveClone` fails in the rewrite phase with the `TypeError` of line 129. -/
theorem inherited_target_unresolved :
    protoLinked.getEntry "R"
      = .ok (page "R" [("child", [("de-DE", entryLink "constructor")])]) ∧
    protoLinked.getEntry "constructor" = .ok (page "constructor" []) ∧
    protoLinked.createEntry [Call.getEntry "R"] "page"
        [("child", [("de-DE", entryLink "constructor")])]
      = .ok { id := "copy-1", contentType := "page", version := 1,
              fields := [("child", [("de-DE", entryLink "constructor")])] } ∧
    (createNewEntriesFromReferences protoLinked "v2" ""
        (discover protoLinked [0, 0] "R" emptyState).2).1
      = .ok [("R", page "copy-1" [("child", [("de-DE", entryLink "constructor")])])] ∧
    updateReferencesOnField
        [("R", page "copy-1" [("child", [("de-DE", entryLink "constructor")])])]
        (entryLink "constructor")
      = .error .typeError ∧
    (recursiveClone protoLinked [0, 0] "R" "v2" "" emptyState).1 = .failed .typeError ∧
    (recursiveClone protoLinked [0, 0] "R" "v2" "" emptyState).2.calls
      = [Call.getEntry "R",
         Call.createEntry "page" [("child", [("de-DE", entryLink "constructor")])]] := by
  decide!


/-! ## Failures -/

theorem split_left {α : Type} (P : α → Prop) (xs ys pre post : List α) (c : α)
    (h : xs ++ ys = pre ++ c :: post) (hx : ∀ x ∈ xs, P x) (hc : ¬ P c) :
    ∃ pre2, pre = xs ++ pre2 ∧ ys = pre2 ++ c :: post := by
  rcases List.append_eq_append_iff.mp h with ⟨a, h1, h2⟩ | ⟨a, h1, h2⟩
  · exact ⟨a, h1, h2⟩
  · cases a with
    | nil =>
      simp at h1 h2
      exact ⟨[], by simp [h1], h2.symm⟩
    | cons b a =>
      exfalso
      simp at h2
      apply hc
      rw [h2.1]
      exact hx b (by rw [h1]; simp)

theorem split_right {α : Type} (P : α → Prop) (xs ys pre post : List α) (c : α)
    (h : xs ++ ys = pre ++ c :: post) (hy : ∀ y ∈ ys, P y) (hc : ¬ P c) :
    ∃ post2, post = post2 ++ ys ∧ xs = pre ++ c :: post2 := by
  rcases List.append_eq_append_iff.mp h with ⟨a, h1, h2⟩ | ⟨a, h1, h2⟩
  · exfalso
    apply hc
    exact hy c (by rw [h2]; simp)
  · cases a with
    | nil =>
      exfalso
      simp at h2
      apply hc
      exact hy c (by rw [← h2]; simp)
    | cons b a =>
      simp at h2
      obtain ⟨rfl, rfl⟩ := h2
      exact ⟨a, rfl, h1⟩

theorem getEntry_error (space : Space) (id msg : String)
    (h : space.getEntry id = .error msg) :
    msg = "NotFound" ∧ Dict.find space.entries id = none := by
  unfold Space.getEntry at h
  cases hf : Dict.find space.entries id with
  | none => simp [hf] at h; exact ⟨h.symm, rfl⟩
  | some e => simp [hf] at h

theorem resume_error (space : Space) (k : Nat) (task : Task) (st : State) (e : Err)
    (st2 : State) (h : resume space k task st = (.error e, st2)) :
    e = .store "NotFound" ∧ st2 = st := by
  unfold resume at h
  cases hl : Task.leaf task k with
  | none => simp [hl] at h
  | some p =>
    obtain ⟨b, id⟩ := p
    cases b with
    | false => simp [hl] at h
    | true =>
      cases hg : space.getEntry id with
      | error msg =>
        simp [hl, hg] at h
        obtain ⟨rfl, rfl⟩ := h
        rw [(getEntry_error space id msg hg).1]
        exact ⟨rfl, rfl⟩
      | ok entry => simp [hl, hg] at h

theorem run_error (space : Space) :
    ∀ (schedule : List Nat) (task : Task) (st : State) (e : Err) (st2 : State),
      run space schedule task st = (.error e, st2) → e = .store "NotFound" := by
  intro schedule
  induction schedule with
  | nil => intro task st e st2 h; simp [run] at h
  | cons k ks ih =>
    intro task st e st2 h
    by_cases hd : task = .done
    · subst hd
      rw [run_done] at h
      simp at h
    · cases hr : resume space (k % Task.pending task) task st with
      | mk r st1 =>
        cases r with
        | error e1 =>
          rw [run_cons_error space k ks task st e1 st1 hd hr] at h
          simp at h
          rw [← h.1]
          exact (resume_error space _ task st e1 st1 hr).1
        | ok task1 =>
          rw [run_cons_ok space k ks task st task1 st1 hd hr] at h
          exact ih task1 st1 e st2 h

/-- After one resumption, every id that was stored or awaited is still stored or awaited, and
the id of a `getEntry` call just issued is awaited. -/
theorem resume_issued (space : Space) (k : Nat) (task : Task) (st : State) (task2 : Task)
    (st2 : State) (h : resume space k task st = (.ok task2, st2)) :
    (∀ x, x ∈ Dict.keys st.references ∨ x ∈ Task.awaited task →
      x ∈ Dict.keys st2.references ∨ x ∈ Task.awaited task2) ∧
    (st2.calls = st.calls ∨
      ∃ id, st2.calls = st.calls ++ [Call.getEntry id] ∧ id ∈ Task.awaited task2) := by
  unfold resume at h
  cases hl : Task.leaf task k with
  | none =>
    simp [hl] at h
    obtain ⟨rfl, rfl⟩ := h
    exact ⟨fun x hx => hx, Or.inl rfl⟩
  | some p =>
    obtain ⟨b, id⟩ := p
    cases b with
    | false =>
      simp [hl] at h
      obtain ⟨rfl, rfl⟩ := h
      obtain ⟨_, a2, a3⟩ := Task.resumeAt_awaited st.references (.fetch id) false id task k hl
      have hin := a3 id (by simp [Task.awaited])
      refine ⟨?_, Or.inr ⟨id, rfl, hin⟩⟩
      intro x hx
      rcases hx with hx | hx
      · exact Or.inl hx
      · rcases a2 x hx with h1 | h1 | h1
        · exact Or.inr (h1 ▸ hin)
        · exact Or.inl h1
        · exact Or.inr h1
    | true =>
      cases hg : space.getEntry id with
      | error msg => simp [hl, hg] at h
      | ok entry =>
        simp [hl, hg] at h
        obtain ⟨rfl, rfl⟩ := h
        obtain ⟨_, a2, _⟩ := Task.resumeAt_awaited (Dict.put st.references id entry)
          (exploreFrom (Dict.put st.references id entry) id (langValues entry.fields))
          true id task k hl
        refine ⟨?_, Or.inl rfl⟩
        intro x hx
        rcases hx with hx | hx
        · exact Or.inl ((Dict.mem_keys_put _ _ _ _).mpr (Or.inr hx))
        · rcases a2 x hx with h1 | h1 | h1
          · exact Or.inl ((Dict.mem_keys_put _ _ _ _).mpr (Or.inl h1))
          · exact Or.inl h1
          · exact Or.inr h1

theorem run_issued (space : Space) (h0 : List Call) :
    ∀ (schedule : List Nat) (task : Task) (st : State) (base : List Call),
      st.calls = h0 ++ base →
      (∀ id, Call.getEntry id ∈ base →
        id ∈ Dict.keys st.references ∨ id ∈ Task.awaited task) →
      ∀ task2 st2, run space schedule task st = (.ok task2, st2) →
        ∃ gs, st2.calls = h0 ++ gs ∧
          ∀ id, Call.getEntry id ∈ gs →
            id ∈ Dict.keys st2.references ∨ id ∈ Task.awaited task2 := by
  intro schedule
  induction schedule with
  | nil =>
    intro task st base hb hi task2 st2 h
    simp [run] at h
    obtain ⟨rfl, rfl⟩ := h
    exact ⟨base, hb, hi⟩
  | cons k ks ih =>
    intro task st base hb hi task2 st2 h
    by_cases hd : task = .done
    · subst hd
      rw [run_done] at h
      simp at h
      obtain ⟨rfl, rfl⟩ := h
      exact ⟨base, hb, hi⟩
    · cases hr : resume space (k % Task.pending task) task st with
      | mk r st1 =>
        cases r with
        | error e1 =>
          rw [run_cons_error space k ks task st e1 st1 hd hr] at h
          simp at h
        | ok task1 =>
          rw [run_cons_ok space k ks task st task1 st1 hd hr] at h
          obtain ⟨hkeep, hcalls⟩ := resume_issued space _ task st task1 st1 hr
          rcases hcalls with hc | ⟨id, hc, hin⟩
          · exact ih task1 st1 base (by rw [hc, hb])
              (fun i hi2 => hkeep i (hi i hi2)) task2 st2 h
          · refine ih task1 st1 (base ++ [Call.getEntry id])
              (by rw [hc, hb, List.append_assoc]) ?_ task2 st2 h
            intro i hi2
            rcases List.mem_append.mp hi2 with hi2 | hi2
            · exact hkeep i (hi i hi2)
            · simp at hi2
              exact Or.inr (hi2 ▸ hin)

/-- What the loop of `createNewEntriesFromReferences` does when a `createEntry` call fails: it
ends with that failure, and the failed call is its last. -/
theorem createLoop_failstop (space : Space) (tag placeholder : String) :
    ∀ (ids : List String) (st : State) (acc : Dict Entry),
      ∃ cs, (createLoop space tag placeholder ids st acc).2.calls = st.calls ++ cs ∧
        (∀ c ∈ cs, Call.phase c = 1) ∧
        ∀ pre c post msg, cs = pre ++ c :: post →
          failure space (st.calls ++ pre) c = some msg →
          (createLoop space tag placeholder ids st acc).1 = .error (.store msg) ∧ post = [] := by
  intro ids
  induction ids with
  | nil =>
    intro st acc
    exact ⟨[], by simp [createLoop], by simp, fun pre c post msg h => by simp at h⟩
  | cons entryId ids ih =>
    intro st acc
    unfold createLoop
    cases hf : Dict.find st.references entryId with
    | none => exact ⟨[], by simp, by simp, fun pre c post msg h => by simp at h⟩
    | some entry =>
      cases hr : renameFields tag placeholder entry.fields with
      | error e => exact ⟨[], by simp [hr], by simp, fun pre c post msg h => by simp at h⟩
      | ok fields =>
        cases hc : space.createEntry st.calls entry.contentType fields with
        | error m =>
          refine ⟨[Call.createEntry entry.contentType fields], by simp [hr, hc],
            by simp [Call.phase], ?_⟩
          intro pre c post msg h hfail
          cases pre with
          | nil =>
            simp at h
            obtain ⟨rfl, rfl⟩ := h
            simp [failure, hc] at hfail
            simp [hr, hc, hfail]
          | cons b pre => simp at h
        | ok newEntry =>
          simp only [hr, hc]
          obtain ⟨cs, h1, h2, h3⟩ := ih
            { st with references := Dict.put st.references entryId { entry with fields := fields },
                      calls := st.calls ++ [Call.createEntry entry.contentType fields],
                      newReferenceCount := st.newReferenceCount + 1 }
            (Dict.put acc entryId newEntry)
          refine ⟨Call.createEntry entry.contentType fields :: cs, by rw [h1]; simp, ?_, ?_⟩
          · intro c hcm
            rcases List.mem_cons.mp hcm with rfl | hcm
            · simp [Call.phase]
            · exact h2 c hcm
          · intro pre c post msg h hfail
            cases pre with
            | nil =>
              simp at h
              obtain ⟨rfl, rfl⟩ := h
              simp [failure, hc] at hfail
            | cons b pre =>
              simp at h
              obtain ⟨rfl, rfl⟩ := h
              exact h3 pre c post msg rfl (by simpa using hfail)

/-- What the loop of `updateReferenceTree` does when an `updateEntry` call fails. -/
theorem updateLoop_failstop (space : Space) :
    ∀ (ids : List String) (cur : Dict Entry) (st : State),
      ∃ cs, (updateLoop space ids cur st).2.calls = st.calls ++ cs ∧
        (∀ c ∈ cs, Call.phase c = 2) ∧
        ∀ pre c post msg, cs = pre ++ c :: post →
          failure space (st.calls ++ pre) c = some msg →
          (updateLoop space ids cur st).1 = .error (.store msg) ∧ post = [] := by
  intro ids
  induction ids with
  | nil =>
    intro cur st
    exact ⟨[], by simp [updateLoop], by simp, fun pre c post msg h => by simp at h⟩
  | cons entryId ids ih =>
    intro cur st
    unfold updateLoop
    cases hf : Dict.find cur entryId with
    | none => exact ⟨[], by simp, by simp, fun pre c post msg h => by simp at h⟩
    | some entry =>
      cases hu : updateFields cur entry.fields with
      | error e => exact ⟨[], by simp [hu], by simp, fun pre c post msg h => by simp at h⟩
      | ok fields =>
        cases hs : space.updateEntry st.calls { entry with fields := fields } with
        | error m =>
          refine ⟨[Call.updateEntry { entry with fields := fields }], by simp [hu, hs],
            by simp [Call.phase], ?_⟩
          intro pre c post msg h hfail
          cases pre with
          | nil =>
            simp at h
            obtain ⟨rfl, rfl⟩ := h
            simp [failure, hs] at hfail
            simp [hu, hs, hfail]
          | cons b pre => simp at h
        | ok ret =>
          simp only [hu, hs]
          obtain ⟨cs, h1, h2, h3⟩ := ih (Dict.put cur entryId { entry with fields := fields })
            { st with calls := st.calls ++ [Call.updateEntry { entry with fields := fields }],
                      updatedReferenceCount := st.updatedReferenceCount + 1 }
          refine ⟨Call.updateEntry { entry with fields := fields } :: cs, by rw [h1]; simp,
            ?_, ?_⟩
          · intro c hcm
            rcases List.mem_cons.mp hcm with rfl | hcm
            · simp [Call.phase]
            · exact h2 c hcm
          · intro pre c post msg h hfail
            cases pre with
            | nil =>
              simp at h
              obtain ⟨rfl, rfl⟩ := h
              simp [failure, hs] at hfail
            | cons b pre =>
              simp at h
              obtain ⟨rfl, rfl⟩ := h
              exact h3 pre c post msg rfl (by simpa using hfail)
mutual
theorem Task.pending_le_cost (m : Nat) : ∀ (t : Task) (j : Nat), Task.pending t ≤ Task.cost m j t
  | .done, j => by simp [Task.pending, Task.cost]
  | .timer _, j => by have := work_pos m j; simp [Task.pending, Task.cost]; omega
  | .fetch _, j => by have := work_pos m j; simp [Task.pending, Task.cost]; omega
  | .explore _ cur _, j => by
    have := Task.pending_le_cost m cur (j - 1)
    simp only [Task.pending, Task.cost]
    omega
  | .all ts, j => by
    have := pendingList_le_costList m ts j
    simpa [Task.pending, Task.cost] using this
theorem pendingList_le_costList (m : Nat) :
    ∀ (ts : List Task) (j : Nat), pendingList ts ≤ costList m j ts
  | [], j => by simp [pendingList, costList]
  | t :: ts, j => by
    have := Task.pending_le_cost m t j
    have := pendingList_le_costList m ts j
    simp only [pendingList, costList]
    omega
end

/-- Every run of discovery that is long enough has ended, with the root call returned or
with a failure, whatever the store holds. -/
theorem run_settles (space : Space) (root : String) :
    ∀ (schedule : List Nat) (task : Task) (st : State),
      Good space root task st →
      Task.cost (maxLinks space) space.entries.length task ≤ schedule.length →
      (∃ st2, run space schedule task st = (.ok .done, st2)) ∨
      (∃ e st2, run space schedule task st = (.error e, st2)) := by
  intro schedule
  induction schedule with
  | nil =>
    intro task st hg hc
    by_cases hd : task = .done
    · subst hd
      exact Or.inl ⟨st, run_done space [] st⟩
    · exfalso
      have hp := Task.Inv_pending _ _ _ hg.inv hd
      have := Task.pending_le_cost (maxLinks space) task space.entries.length
      simp at hc
      omega
  | cons k ks ih =>
    intro task st hg hc
    by_cases hd : task = .done
    · subst hd
      exact Or.inl ⟨st, run_done space _ st⟩
    · have hp := Task.Inv_pending _ _ _ hg.inv hd
      rcases resume_step space root task st hg (k % Task.pending task) (Nat.mod_lt _ hp) with
        ⟨task2, st2, h1, h2, h3⟩ | ⟨id, _, _, h⟩
      · rw [run_cons_ok space k ks task st task2 st2 hd h1]
        simp only [List.length_cons] at hc
        exact ih task2 st2 h2 (by omega)
      · exact Or.inr ⟨_, _, run_cons_error space k ks task st _ st hd h⟩

theorem recursiveClone_cases (space : Space) (schedule : List Nat)
    (root tag placeholder : String) (st0 : State) :
    (∃ e st1,
      discover space schedule root
        { references := [], referenceCount := 0, newReferenceCount := 0,
          updatedReferenceCount := 0, publishedCount := 0, calls := st0.calls }
        = (.error e, st1) ∧
      recursiveClone space schedule root tag placeholder st0 = (.failed e, st1)) ∨
    (∃ task st1,
      discover space schedule root
        { references := [], referenceCount := 0, newReferenceCount := 0,
          updatedReferenceCount := 0, publishedCount := 0, calls := st0.calls }
        = (.ok task, st1) ∧ task ≠ .done ∧
      recursiveClone space schedule root tag placeholder st0 = (.pending, st1)) ∨
    (∃ st1,
      discover space schedule root
        { references := [], referenceCount := 0, newReferenceCount := 0,
          updatedReferenceCount := 0, publishedCount := 0, calls := st0.calls }
        = (.ok .done, st1) ∧
      ((∃ e st2,
          createNewEntriesFromReferences space tag placeholder st1 = (.error e, st2) ∧
          recursiveClone space schedule root tag placeholder st0 = (.failed e, st2)) ∨
        (∃ newReferences st2,
          createNewEntriesFromReferences space tag placeholder st1 = (.ok newReferences, st2) ∧
          ((∃ e st3,
              updateReferenceTree space newReferences st2 = (.error e, st3) ∧
              recursiveClone space schedule root tag placeholder st0 = (.failed e, st3)) ∨
            (∃ rewritten st3,
              updateReferenceTree space newReferences st2 = (.ok rewritten, st3) ∧
              recursiveClone space schedule root tag placeholder st0
                = (returnValue rewritten root,
                   publishEntries space rewritten st3)))))) := by
  simp only [recursiveClone]
  cases hd : discover space schedule root
      { references := [], referenceCount := 0, newReferenceCount := 0,
        updatedReferenceCount := 0, publishedCount := 0, calls := st0.calls } with
  | mk r st1 =>
    cases r with
    | error e => exact Or.inl ⟨e, st1, rfl, rfl⟩
    | ok task =>
      cases task with
      | timer id => exact Or.inr (Or.inl ⟨_, st1, rfl, by simp, rfl⟩)
      | fetch id => exact Or.inr (Or.inl ⟨_, st1, rfl, by simp, rfl⟩)
      | explore id cur rest => exact Or.inr (Or.inl ⟨_, st1, rfl, by simp, rfl⟩)
      | all ts => exact Or.inr (Or.inl ⟨_, st1, rfl, by simp, rfl⟩)
      | done =>
        refine Or.inr (Or.inr ⟨st1, rfl, ?_⟩)
        cases hc : createNewEntriesFromReferences space tag placeholder st1 with
        | mk r2 st2 =>
          cases r2 with
          | error e => exact Or.inl ⟨e, st2, rfl, by simp only [hc]⟩
          | ok newReferences =>
            refine Or.inr ⟨newReferences, st2, rfl, ?_⟩
            cases hu : updateReferenceTree space newReferences st2 with
            | mk r3 st3 =>
              cases r3 with
              | error e => exact Or.inl ⟨e, st3, rfl, by simp only [hc, hu]⟩
              | ok rewritten => exact Or.inr ⟨rewritten, st3, rfl, by simp only [hc, hu]⟩
theorem failure_publish (space : Space) (history : List Call) (c : Call)
    (h : Call.phase c = 3) : failure space history c = none := by
  cases c <;> simp [Call.phase] at h
  rfl

/-- A completed discovery has only made `getEntry` calls, and each of them succeeded. -/
theorem discover_done_clean (space : Space) (schedule : List Nat) (root : String)
    (calls : List Call) (st1 : State)
    (hd : discover space schedule root
        { references := [], referenceCount := 0, newReferenceCount := 0,
          updatedReferenceCount := 0, publishedCount := 0, calls := calls }
      = (.ok .done, st1)) :
    ∃ gs, st1.calls = calls ++ gs ∧ (∀ c ∈ gs, Call.phase c = 0) ∧
      ∀ history c, c ∈ gs → failure space history c = none := by
  unfold discover at hd
  simp only at hd
  have hgood := run_good_ok space root schedule _ _ (good_start space root
    { references := [], referenceCount := 0, newReferenceCount := 0,
      updatedReferenceCount := 0, publishedCount := 0, calls := calls } rfl) _ _ hd
  obtain ⟨gs, h1, h2⟩ := run_issued space calls schedule _ _ [] (by simp)
    (by intro id h; simp at h) _ _ hd
  obtain ⟨gs2, h3, h4⟩ := run_calls space schedule (findReferences ([] : Dict Entry) root)
    { references := [], referenceCount := 0, newReferenceCount := 0,
      updatedReferenceCount := 0, publishedCount := 0, calls := calls }
  rw [hd] at h3
  simp only at h3
  have hgs : gs2 = gs := List.append_cancel_left (h3.symm.trans h1)
  subst hgs
  refine ⟨gs2, h1, h4, ?_⟩
  intro history c hc
  have hp := h4 c hc
  cases c with
  | getEntry id =>
    rcases h2 id hc with hk | hk
    · obtain ⟨e, he⟩ := Dict.mem_keys_find _ _ hk
      have := hgood.stored id e he
      simp [failure, Space.getEntry, this]
    · simp [Task.awaited] at hk
  | createEntry _ _ => simp [Call.phase] at hp
  | updateEntry _ => simp [Call.phase] at hp
  | publishEntry _ => simp [Call.phase] at hp

/-- Where a failing call sits in a trace made of successful `getEntry` calls, the calls of the
create loop, the calls of the update loop and `publishEntry` calls. -/
theorem segments_failure (space : Space) (A B : String → Prop)
    (h0 gs cs us ps pre post : List Call) (c : Call) (msg : String)
    (hg : ∀ d ∈ gs, Call.phase d = 0)
    (hgf : ∀ history d, d ∈ gs → failure space history d = none)
    (hc : ∀ d ∈ cs, Call.phase d = 1)
    (hcf : ∀ pre c post msg, cs = pre ++ c :: post →
      failure space (h0 ++ gs ++ pre) c = some msg → A msg ∧ post = [])
    (hu : ∀ d ∈ us, Call.phase d = 2)
    (huf : ∀ pre c post msg, us = pre ++ c :: post →
      failure space (h0 ++ gs ++ cs ++ pre) c = some msg → B msg ∧ post = [])
    (hp : ∀ d ∈ ps, Call.phase d = 3)
    (hsplit : gs ++ cs ++ us ++ ps = pre ++ c :: post)
    (hfail : failure space (h0 ++ pre) c = some msg) :
    (Call.phase c = 1 ∧ A msg ∧ post = us ++ ps) ∨ (Call.phase c = 2 ∧ B msg ∧ post = ps) := by
  have hmem : c ∈ gs ++ cs ++ us ++ ps := by rw [hsplit]; simp
  simp only [List.mem_append] at hmem
  rcases hmem with ((hm | hm) | hm) | hm
  · rw [hgf _ c hm] at hfail
    cases hfail
  · left
    have hc1 := hc c hm
    have e1 : gs ++ (cs ++ (us ++ ps)) = pre ++ c :: post := by
      rw [← hsplit]; simp only [List.append_assoc]
    obtain ⟨pre2, hpre, e2⟩ := split_left (fun d => Call.phase d = 0) _ _ _ _ _ e1 hg
      (by simp [hc1])
    obtain ⟨post2, hpost, e3⟩ := split_right (fun d => Call.phase d ≠ 1) _ _ _ _ _ e2
      (by
        intro d hd
        rcases List.mem_append.mp hd with hd | hd
        · simp [hu d hd]
        · simp [hp d hd])
      (by simp [hc1])
    obtain ⟨ha, hnil⟩ := hcf pre2 c post2 msg e3 (by rw [List.append_assoc, ← hpre]; exact hfail)
    exact ⟨hc1, ha, by rw [hpost, hnil]; rfl⟩
  · right
    have hc2 := hu c hm
    have e1 : (gs ++ cs) ++ (us ++ ps) = pre ++ c :: post := by
      rw [← hsplit]; simp only [List.append_assoc]
    obtain ⟨pre2, hpre, e2⟩ := split_left (fun d => Call.phase d ≠ 2) _ _ _ _ _ e1
      (by
        intro d hd
        rcases List.mem_append.mp hd with hd | hd
        · simp [hg d hd]
        · simp [hc d hd])
      (by simp [hc2])
    obtain ⟨post2, hpost, e3⟩ := split_right (fun d => Call.phase d ≠ 2) _ _ _ _ _ e2
      (by intro d hd; simp [hp d hd])
      (by simp [hc2])
    obtain ⟨hb, hnil⟩ := huf pre2 c post2 msg e3
      (by rw [hpre] at hfail; simpa only [List.append_assoc] using hfail)
    exact ⟨hc2, hb, by rw [hpost, hnil]; rfl⟩
  · rw [failure_publish space _ c (hp c hm)] at hfail
    cases hfail

/-- C11: take any run of `recursiveClone` and any store call `c` of its trace that fails, with
the message `msg` (`pre` are the calls of the run before it, `post` the calls after it).  Then
`recursiveClone` is rejected with that failure, and returns no record; the one other possibility
is that `c` is a `getEntry` call and the run observed is shorter than `discoveryBound space`
resumptions, so that discovery is still suspended.  Every call made after `c` is a `getEntry`
call (of a call of `findReferences` that was started before the failure was delivered), and a
failed `createEntry` or `updateEntry` is the last store call of the run: no later phase starts,
and nothing is deleted or undone. -/
theorem failure_is_fatal (space : Space) (schedule : List Nat)
    (root tag placeholder : String) (st0 : State)
    (pre : List Call) (c : Call) (post : List Call) (msg : String)
    (hsplit : (recursiveClone space schedule root tag placeholder st0).2.calls
      = st0.calls ++ pre ++ c :: post)
    (hfail : failure space (st0.calls ++ pre) c = some msg) :
    ((recursiveClone space schedule root tag placeholder st0).1 = .failed (.store msg) ∨
      ((recursiveClone space schedule root tag placeholder st0).1 = .pending ∧
        Call.phase c = 0 ∧ schedule.length < discoveryBound space)) ∧
    (∀ d ∈ post, Call.phase d = 0) ∧
    (Call.phase c ≠ 0 → post = []) := by
  have hearly : ∀ (r : Except Err Task) (st1 : State),
      discover space schedule root
        { references := [], referenceCount := 0, newReferenceCount := 0,
          updatedReferenceCount := 0, publishedCount := 0, calls := st0.calls } = (r, st1) →
      st1.calls = st0.calls ++ pre ++ c :: post →
      (∃ id, c = Call.getEntry id) ∧ msg = "NotFound" ∧ ∀ d ∈ post, Call.phase d = 0 := by
    intro r st1 hd hs
    obtain ⟨gs, h3, h4⟩ := run_calls space schedule (findReferences ([] : Dict Entry) root)
      { references := [], referenceCount := 0, newReferenceCount := 0,
        updatedReferenceCount := 0, publishedCount := 0, calls := st0.calls }
    unfold discover at hd
    simp only at hd
    rw [hd] at h3
    simp only at h3
    rw [hs, List.append_assoc] at h3
    have hgs := List.append_cancel_left h3
    have hc0 : Call.phase c = 0 := h4 c (by rw [← hgs]; simp)
    refine ⟨?_, ?_, fun d hd2 => h4 d (by rw [← hgs]; simp [hd2])⟩
    · cases c with
      | getEntry id => exact ⟨id, rfl⟩
      | createEntry _ _ => simp [Call.phase] at hc0
      | updateEntry _ => simp [Call.phase] at hc0
      | publishEntry _ => simp [Call.phase] at hc0
    · cases c with
      | getEntry id =>
        simp only [failure] at hfail
        cases hg : space.getEntry id with
        | error m =>
          rw [hg] at hfail
          simp at hfail
          rw [← hfail]
          exact (getEntry_error space id m hg).1
        | ok e => rw [hg] at hfail; simp at hfail
      | createEntry _ _ => simp [Call.phase] at hc0
      | updateEntry _ => simp [Call.phase] at hc0
      | publishEntry _ => simp [Call.phase] at hc0
  rcases recursiveClone_cases space schedule root tag placeholder st0 with
    ⟨e, st1, hd, hrc⟩ | ⟨task, st1, hd, hnd, hrc⟩ | ⟨st1, hd, hrest⟩
  · rw [hrc] at hsplit ⊢
    obtain ⟨⟨id, rfl⟩, hmsg, hpost⟩ := hearly _ _ hd hsplit
    have he := run_error space schedule _ _ e st1 hd
    refine ⟨Or.inl (by rw [he, hmsg]), hpost, fun h => absurd rfl h⟩
  · rw [hrc] at hsplit ⊢
    obtain ⟨⟨id, rfl⟩, hmsg, hpost⟩ := hearly _ _ hd hsplit
    refine ⟨Or.inr ⟨rfl, rfl, ?_⟩, hpost, fun h => absurd rfl h⟩
    by_contra hlen
    have hcost : Task.cost (maxLinks space) space.entries.length
        (findReferences ([] : Dict Entry) root) ≤ schedule.length :=
      Nat.le_trans (start_cost space root []) (Nat.le_of_not_lt hlen)
    unfold discover at hd
    simp only at hd
    rcases run_settles space root schedule _ _ (good_start space root
      { references := [], referenceCount := 0, newReferenceCount := 0,
        updatedReferenceCount := 0, publishedCount := 0, calls := st0.calls } rfl) hcost with
      ⟨st2, h⟩ | ⟨e, st2, h⟩
    · rw [hd] at h
      simp at h
      exact hnd h.1
    · rw [hd] at h
      simp at h
  · obtain ⟨gs, hgs, hg0, hgf⟩ := discover_done_clean space schedule root st0.calls st1 hd
    obtain ⟨cs, hcs, hc1, hcf⟩ := createLoop_failstop space tag placeholder
      (forInKeys st1.references) st1 []
    rcases hrest with ⟨e, st2, hcr, hrc⟩ | ⟨newReferences, st2, hcr, hrest2⟩
    · unfold createNewEntriesFromReferences at hcr
      rw [hcr] at hcs hcf
      simp only at hcs hcf
      rw [hrc] at hsplit ⊢
      simp only at hsplit
      rw [hcs, hgs] at hsplit
      have hs : gs ++ cs ++ [] ++ [] = pre ++ c :: post := by
        simp only [List.append_assoc, List.append_nil] at hsplit ⊢
        exact List.append_cancel_left hsplit
      rcases segments_failure space (fun m => e = Err.store m) (fun _ => False)
          st0.calls gs cs [] [] pre post c msg hg0 hgf hc1
          (by
            intro p d q m h1 h2
            rw [← hgs] at h2
            obtain ⟨h3, h4⟩ := hcf p d q m h1 h2
            simp at h3
            exact ⟨h3, h4⟩)
          (by simp) (by intro p d q m h1; simp at h1) (by simp) hs hfail with
        ⟨h1, h2, h3⟩ | ⟨_, h2, _⟩
      · simp at h3
        subst h3
        exact ⟨Or.inl (by rw [h2]), by simp, fun _ => rfl⟩
      · exact h2.elim
    · unfold createNewEntriesFromReferences at hcr
      rw [hcr] at hcs hcf
      simp only at hcs hcf
      obtain ⟨us, hus, hu2, huf⟩ := updateLoop_failstop space (forInKeys newReferences)
        newReferences st2
      rcases hrest2 with ⟨e, st3, hur, hrc⟩ | ⟨rewritten, st3, hur, hrc⟩
      · unfold updateReferenceTree at hur
        rw [hur] at hus huf
        simp only at hus huf
        rw [hrc] at hsplit ⊢
        simp only at hsplit
        rw [hus, hcs, hgs] at hsplit
        have hs : gs ++ cs ++ us ++ [] = pre ++ c :: post := by
          simp only [List.append_assoc, List.append_nil] at hsplit ⊢
          exact List.append_cancel_left hsplit
        rcases segments_failure space (fun _ => False) (fun m => e = Err.store m)
            st0.calls gs cs us [] pre post c msg hg0 hgf hc1
            (by
              intro p d q m h1 h2
              rw [← hgs] at h2
              obtain ⟨h3, _⟩ := hcf p d q m h1 h2
              simp at h3)
            hu2
            (by
              intro p d q m h1 h2
              rw [← hgs, ← hcs] at h2
              obtain ⟨h3, h4⟩ := huf p d q m h1 h2
              simp at h3
              exact ⟨h3, h4⟩)
            (by simp) hs hfail with
          ⟨_, h2, _⟩ | ⟨h1, h2, h3⟩
        · exact h2.elim
        · subst h3
          exact ⟨Or.inl (by rw [h2]), by simp, fun _ => rfl⟩
      · exfalso
        unfold updateReferenceTree at hur
        rw [hur] at hus huf
        simp only at hus huf
        obtain ⟨ps, hps, hp3⟩ := publishEntries_calls space rewritten st3
        rw [hrc] at hsplit
        simp only at hsplit
        rw [hps, hus, hcs, hgs] at hsplit
        have hs : gs ++ cs ++ us ++ ps = pre ++ c :: post := by
          simp only [List.append_assoc] at hsplit ⊢
          exact List.append_cancel_left hsplit
        rcases segments_failure space (fun _ => False) (fun _ => False)
            st0.calls gs cs us ps pre post c msg hg0 hgf hc1
            (by
              intro p d q m h1 h2
              rw [← hgs] at h2
              obtain ⟨h3, _⟩ := hcf p d q m h1 h2
              simp at h3)
            hu2
            (by
              intro p d q m h1 h2
              rw [← hgs, ← hcs] at h2
              obtain ⟨h3, _⟩ := huf p d q m h1 h2
              simp at h3)
            hp3 hs hfail with
          ⟨_, h2, _⟩ | ⟨_, h2, _⟩
        · exact h2
        · exact h2
set_option maxRecDepth 100000 in
/-- C11 on two runs.  In the store `rejectsUpdate` the first `updateEntry` call is rejected
after two records were created: `recursiveClone` is rejected with that failure and the failed
call is the last one.  In the store `dangling` the fetch of the missing record `X` is
rejected. -/
theorem failure_is_fatal_witness :
    (((recursiveClone rejectsUpdate [0, 0, 0, 0] "R" "v2" "" emptyState).1
          = .failed (.store "Conflict") ∨
        ((recursiveClone rejectsUpdate [0, 0, 0, 0] "R" "v2" "" emptyState).1 = .pending ∧
          Call.phase (Call.updateEntry
            { id := "copy-2", contentType := "page", version := 1,
              fields := [("child", [("de-DE", entryLink "copy-3")])] }) = 0 ∧
          [0, 0, 0, 0].length < discoveryBound rejectsUpdate)) ∧
      (∀ d ∈ ([] : List Call), Call.phase d = 0) ∧
      (Call.phase (Call.updateEntry
          { id := "copy-2", contentType := "page", version := 1,
            fields := [("child", [("de-DE", entryLink "copy-3")])] }) ≠ 0 →
        ([] : List Call) = [])) ∧
    (((recursiveClone dangling [0, 0, 0, 0] "R" "v2" "" emptyState).1
          = .failed (.store "NotFound") ∨
        ((recursiveClone dangling [0, 0, 0, 0] "R" "v2" "" emptyState).1 = .pending ∧
          Call.phase (Call.getEntry "X") = 0 ∧
          [0, 0, 0, 0].length < discoveryBound dangling)) ∧
      (∀ d ∈ ([] : List Call), Call.phase d = 0) ∧
      (Call.phase (Call.getEntry "X") ≠ 0 → ([] : List Call) = [])) :=
  ⟨failure_is_fatal rejectsUpdate [0, 0, 0, 0] "R" "v2" "" emptyState
      [Call.getEntry "R", Call.getEntry "B",
       Call.createEntry "page" [("child", [("de-DE", entryLink "B")])],
       Call.createEntry "page" []]
      (Call.updateEntry
        { id := "copy-2", contentType := "page", version := 1,
          fields := [("child", [("de-DE", entryLink "copy-3")])] })
      [] "Conflict" (by decide!) (by decide!),
   failure_is_fatal dangling [0, 0, 0, 0] "R" "v2" "" emptyState
      [Call.getEntry "R"] (Call.getEntry "X") [] "NotFound" (by decide!) (by decide!)⟩


/-! ## The calls of the rewriting phase -/

/-- The calls the loop of `updateReferenceTree` makes when it completes: one `updateEntry` per
key, with the record that the Clone Map holds for the key at the end. -/
theorem updateLoop_args (space : Space) :
    ∀ (ids : List String) (cur : Dict Entry) (st : State) (res : Dict Entry) (st2 : State),
      ids.Nodup → updateLoop space ids cur st = (.ok res, st2) →
      st2.updatedReferenceCount = st.updatedReferenceCount + ids.length ∧
      ∃ args, st2.calls = st.calls ++ args.map Call.updateEntry ∧
        List.Forall₂ (fun k a => Dict.find res k = some a) ids args := by
  intro ids
  induction ids with
  | nil =>
    intro cur st res st2 _ h
    simp [updateLoop] at h
    obtain ⟨rfl, rfl⟩ := h
    exact ⟨rfl, [], by simp, List.Forall₂.nil⟩
  | cons entryId ids ih =>
    intro cur st res st2 hnd h
    have hnot : entryId ∉ ids := (List.nodup_cons.mp hnd).1
    have hnd2 : ids.Nodup := (List.nodup_cons.mp hnd).2
    unfold updateLoop at h
    cases hf : Dict.find cur entryId with
    | none => simp [hf] at h
    | some entry =>
      cases hu : updateFields cur entry.fields with
      | error e => simp [hf, hu] at h
      | ok fields =>
        cases hs : space.updateEntry st.calls { entry with fields := fields } with
        | error msg => simp [hf, hu, hs] at h
        | ok ret =>
          simp only [hf, hu, hs] at h
          obtain ⟨hcount, args, hcalls, hall⟩ := ih _ _ _ _ hnd2 h
          obtain ⟨e2, h1, _, _, h3, _⟩ := (updateLoop_spec space ids _ _ _ _ hnd2 h).2 entryId _
            (Dict.find_put_same _ _ _)
          have he2 := h3 hnot
          subst he2
          refine ⟨?_, { entry with fields := fields } :: args, ?_, List.Forall₂.cons h1 hall⟩
          · rw [hcount]
            simp only [List.length_cons]
            omega
          · rw [hcalls]
            simp

/-- C14, amended: when `updateReferenceTree(space, newReferences)` completes it has made exactly
one `updateEntry` call per record of the Clone Map, in the order of its loop; the record passed
for a key is the record the Clone Map holds for that key afterwards, it has the id of the record
it replaces, and every Entry link that sits in a language variant of one of its fields directly
or inside (nested) arrays has as target the id of the clone of its former target; the updated
counter, reset to 0 by `recursiveClone`, ends equal to the number of records of the Clone Map. -/
theorem update_once_per_record (space : Space) (newReferences : Dict Entry) (st : State)
    (result : Dict Entry) (st2 : State)
    (hkeys : (Dict.keys newReferences).Nodup)
    (hzero : st.updatedReferenceCount = 0)
    (h : updateReferenceTree space newReferences st = (.ok result, st2)) :
    st2.updatedReferenceCount = (Dict.keys newReferences).length ∧
    ∃ args, st2.calls = st.calls ++ args.map Call.updateEntry ∧
      args.length = (Dict.keys newReferences).length ∧
      List.Forall₂ (fun k a => ∃ e, Dict.find newReferences k = some e ∧
          Dict.find result k = some a ∧ a.id = e.id ∧
          (fieldLinks a.fields).map some
            = (fieldLinks e.fields).map (fun t => (Dict.find newReferences t).map Entry.id))
        (forInKeys newReferences) args := by
  have hnd := forInKeys_nodup _ hkeys
  obtain ⟨hcount, args, hcalls, hall⟩ := updateLoop_args space _ _ _ _ _ hnd h
  obtain ⟨_, hspec⟩ := updateLoop_spec space _ _ _ _ _ hnd h
  refine ⟨by rw [hcount, hzero, forInKeys_length]; simp, args, hcalls, ?_, ?_⟩
  · rw [← hall.length_eq, forInKeys_length]
  · refine forall2_imp_of_mem hall ?_
    intro k hk a ha
    obtain ⟨e, he⟩ := Dict.mem_keys_find _ _ ((mem_forInKeys _ _).mp hk)
    obtain ⟨e2, h1, ⟨f, h2⟩, _, _, h4⟩ := hspec k e he
    rw [ha] at h1
    cases h1
    exact ⟨e, he, ha, by rw [h2], h4 hk⟩

set_option maxRecDepth 100000 in
/-- C14, amended, in the diamond scenario: the rewriting completes with four `updateEntry`
calls, one per record of the Clone Map, and the counter ends at 4. -/
theorem update_once_per_record_witness :
    ((Dict.keys diamondClones).Nodup ∧ diamondCreated.updatedReferenceCount = 0 ∧
      updateReferenceTree diamond diamondClones diamondCreated
        = (.ok diamondRewritten, diamondUpdated)) ∧
    (diamondUpdated.updatedReferenceCount = (Dict.keys diamondClones).length ∧
    ∃ args, diamondUpdated.calls = diamondCreated.calls ++ args.map Call.updateEntry ∧
      args.length = (Dict.keys diamondClones).length ∧
      List.Forall₂ (fun k a => ∃ e, Dict.find diamondClones k = some e ∧
          Dict.find diamondRewritten k = some a ∧ a.id = e.id ∧
          (fieldLinks a.fields).map some
            = (fieldLinks e.fields).map (fun t => (Dict.find diamondClones t).map Entry.id))
        (forInKeys diamondClones) args) :=
  ⟨by decide!,
   update_once_per_record diamond diamondClones diamondCreated diamondRewritten
     diamondUpdated (by decide!) (by decide!) (by decide!)⟩

set_option maxRecDepth 100000 in
/-- C14, as stated, fails for a reference inside another object: in the Clone Map
`embeddedClones` the record passed to `updateEntry` for `B` has the link of its field `child`
rewritten to `copy-D`, but the link to `D` inside the object of its field `body` still has the
original `D` as target, although `D` is a key of the Clone Map. -/
theorem update_argument_keeps_nested_link :
    (updateReferenceTree diamond embeddedClones emptyState).2.calls
      = [Call.updateEntry
          (page "copy-B" [("body", [("de-DE", .obj [("target", entryLink "D")])]),
                          ("child", [("de-DE", entryLink "copy-D")])]),
         Call.updateEntry (page "copy-D" [])] ∧
    nestedFieldLinks [("body", [("de-DE", .obj [("target", entryLink "D")])]),
                      ("child", [("de-DE", entryLink "copy-D")])] = ["D", "copy-D"] ∧
    (Dict.find embeddedClones "D").map Entry.id = some "copy-D" ∧
    (updateReferenceTree diamond embeddedClones emptyState).2.updatedReferenceCount = 2 := by
  decide!


/-! ## What is written to the store -/

/-- Every record of the Clone Map that `createNewEntriesFromReferences` builds is the record a
`createEntry` call of the loop returned. -/
theorem createLoop_values (space : Space) (tag placeholder : String) :
    ∀ (ids : List String) (st : State) (acc res : Dict Entry) (st2 : State),
      createLoop space tag placeholder ids st acc = (.ok res, st2) →
      ∀ k v, Dict.find res k = some v →
        Dict.find acc k = some v ∨
        ∃ pre type fields post,
          st2.calls = st.calls ++ pre ++ Call.createEntry type fields :: post ∧
          space.createEntry (st.calls ++ pre) type fields = .ok v := by
  intro ids
  induction ids with
  | nil =>
    intro st acc res st2 h k v hk
    simp [createLoop] at h
    obtain ⟨rfl, rfl⟩ := h
    exact Or.inl hk
  | cons entryId ids ih =>
    intro st acc res st2 h k v hk
    unfold createLoop at h
    cases hf : Dict.find st.references entryId with
    | none => simp [hf] at h
    | some entry =>
      cases hr : renameFields tag placeholder entry.fields with
      | error e => simp [hf, hr] at h
      | ok fields =>
        cases hc : space.createEntry st.calls entry.contentType fields with
        | error m => simp [hf, hr, hc] at h
        | ok newEntry =>
          simp only [hf, hr, hc] at h
          rcases ih _ _ _ _ h k v hk with h1 | ⟨pre, type, fs, post, h1, h2⟩
          · by_cases hke : entryId = k
            · subst hke
              rw [Dict.find_put_same] at h1
              cases h1
              right
              obtain ⟨cs, hcs, _⟩ := createLoop_calls space tag placeholder ids
                { st with references := Dict.put st.references entryId { entry with fields := fields },
                          calls := st.calls ++ [Call.createEntry entry.contentType fields],
                          newReferenceCount := st.newReferenceCount + 1 }
                (Dict.put acc entryId v)
              rw [h] at hcs
              simp only at hcs
              exact ⟨[], entry.contentType, fields, cs, by rw [hcs]; simp, by simpa using hc⟩
            · rw [Dict.find_put_other _ _ _ _ hke] at h1
              exact Or.inl h1
          · right
            simp only at h1 h2
            exact ⟨Call.createEntry entry.contentType fields :: pre, type, fs, post,
              by rw [h1]; simp, by simpa using h2⟩

/-- The records the loop of `updateReferenceTree` passes to `updateEntry`, and the records it
leaves in the Clone Map, are records of the Clone Map with other fields. -/
theorem updateLoop_writes (space : Space) (P : Entry → Prop)
    (hP : ∀ (e : Entry) (f : Fields), P e → P { e with fields := f }) :
    ∀ (ids : List String) (cur : Dict Entry) (st : State),
      (∀ k v, Dict.find cur k = some v → P v) →
      ∃ args : List Entry, (updateLoop space ids cur st).2.calls = st.calls ++ args.map Call.updateEntry ∧
        (∀ a ∈ args, P a) ∧
        ∀ res, (updateLoop space ids cur st).1 = .ok res →
          ∀ k v, Dict.find res k = some v → P v := by
  intro ids
  induction ids with
  | nil =>
    intro cur st hcur
    refine ⟨[], by simp [updateLoop], by simp, ?_⟩
    intro res hres
    simp [updateLoop] at hres
    subst hres
    exact hcur
  | cons entryId ids ih =>
    intro cur st hcur
    unfold updateLoop
    cases hf : Dict.find cur entryId with
    | none => exact ⟨[], by simp, by simp, fun res hres => by simp at hres⟩
    | some entry =>
      cases hu : updateFields cur entry.fields with
      | error e => exact ⟨[], by simp [hu], by simp, fun res hres => by simp [hu] at hres⟩
      | ok fields =>
        have hnew : P { entry with fields := fields } := hP entry fields (hcur _ _ hf)
        cases hs : space.updateEntry st.calls { entry with fields := fields } with
        | error m =>
          refine ⟨[{ entry with fields := fields }], by simp [hu, hs], ?_,
            fun res hres => by simp [hu, hs] at hres⟩
          intro a ha
          simp at ha
          rw [ha]
          exact hnew
        | ok ret =>
          simp only [hu, hs]
          obtain ⟨args, h1, h2, h3⟩ := ih (Dict.put cur entryId { entry with fields := fields })
            { st with calls := st.calls ++ [Call.updateEntry { entry with fields := fields }],
                      updatedReferenceCount := st.updatedReferenceCount + 1 }
            (by
              intro k v hk
              by_cases hke : entryId = k
              · subst hke
                rw [Dict.find_put_same] at hk
                cases hk
                exact hnew
              · rw [Dict.find_put_other _ _ _ _ hke] at hk
                exact hcur k v hk)
          refine ⟨{ entry with fields := fields } :: args, by rw [h1]; simp, ?_, h3⟩
          intro a ha
          rcases List.mem_cons.mp ha with rfl | ha
          · exact hnew
          · exact h2 a ha

/-- C19: in every run of `recursiveClone` (whatever the schedule, and however the run ends),
the argument of every `updateEntry` call and of every `publishEntry` call of the run is, up to
its fields, the record an earlier `createEntry` call of the same run returned: it has the id,
the content type and the version of that new record.  So for a store that gives new records
ids it does not hold yet, no `updateEntry` or `publishEntry` call is made on the id of an
original. -/
theorem originals_never_written (space : Space) (schedule : List Nat)
    (root tag placeholder : String) (st0 : State) (cs : List Call) (e : Entry)
    (hfresh : ∀ history type fields c, space.createEntry history type fields = .ok c →
      c.id ∉ Dict.keys space.entries)
    (hcs : (recursiveClone space schedule root tag placeholder st0).2.calls = st0.calls ++ cs)
    (he : Call.updateEntry e ∈ cs ∨ Call.publishEntry e ∈ cs) :
    (∃ pre type fields post c,
      cs = pre ++ Call.createEntry type fields :: post ∧
      space.createEntry (st0.calls ++ pre) type fields = .ok c ∧
      (Call.updateEntry e ∈ post ∨ Call.publishEntry e ∈ post) ∧
      e = { c with fields := e.fields }) ∧
    e.id ∉ Dict.keys space.entries := by
  have hphase : 2 ≤ Call.phase (Call.updateEntry e) ∧ 2 ≤ Call.phase (Call.publishEntry e) := by
    simp [Call.phase]
  have key : ∃ pre type fields post c,
      cs = pre ++ Call.createEntry type fields :: post ∧
      space.createEntry (st0.calls ++ pre) type fields = .ok c ∧
      (Call.updateEntry e ∈ post ∨ Call.publishEntry e ∈ post) ∧
      e = { c with fields := e.fields } := by
    have hlow : ∀ front : List Call, (∀ d ∈ front, Call.phase d ≤ 1) →
        ¬ (Call.updateEntry e ∈ front ∨ Call.publishEntry e ∈ front) := by
      intro front hfront hmem
      rcases hmem with hmem | hmem
      · have := hfront _ hmem
        simp [Call.phase] at this
      · have := hfront _ hmem
        simp [Call.phase] at this
    have hrun : ∀ (r : Except Err Task) (st1 : State),
        discover space schedule root
          { references := [], referenceCount := 0, newReferenceCount := 0,
            updatedReferenceCount := 0, publishedCount := 0, calls := st0.calls } = (r, st1) →
        ∃ gs, st1.calls = st0.calls ++ gs ∧ ∀ d ∈ gs, Call.phase d ≤ 1 := by
      intro r st1 hd
      obtain ⟨gs, h3, h4⟩ := run_calls space schedule (findReferences ([] : Dict Entry) root)
        { references := [], referenceCount := 0, newReferenceCount := 0,
          updatedReferenceCount := 0, publishedCount := 0, calls := st0.calls }
      unfold discover at hd
      simp only at hd
      rw [hd] at h3
      exact ⟨gs, h3, fun d hd2 => by rw [h4 d hd2]; omega⟩
    rcases recursiveClone_cases space schedule root tag placeholder st0 with
      ⟨err, st1, hd, hrc⟩ | ⟨task, st1, hd, hnd, hrc⟩ | ⟨st1, hd, hrest⟩
    · obtain ⟨gs, hgs, hg1⟩ := hrun _ _ hd
      rw [hrc] at hcs
      simp only at hcs
      rw [hgs] at hcs
      have := List.append_cancel_left hcs
      subst this
      exact absurd he (hlow _ hg1)
    · obtain ⟨gs, hgs, hg1⟩ := hrun _ _ hd
      rw [hrc] at hcs
      simp only at hcs
      rw [hgs] at hcs
      have := List.append_cancel_left hcs
      subst this
      exact absurd he (hlow _ hg1)
    · obtain ⟨gs, hgs, hg1⟩ := hrun _ _ hd
      obtain ⟨crs, hcrs, hc1⟩ := createLoop_calls space tag placeholder
        (forInKeys st1.references) st1 []
      have hfront : ∀ d ∈ gs ++ crs, Call.phase d ≤ 1 := by
        intro d hd2
        rcases List.mem_append.mp hd2 with h | h
        · exact hg1 d h
        · rw [hc1 d h]
      rcases hrest with ⟨err, st2, hcr, hrc⟩ | ⟨newReferences, st2, hcr, hrest2⟩
      · unfold createNewEntriesFromReferences at hcr
        rw [hcr] at hcrs
        simp only at hcrs
        rw [hrc] at hcs
        simp only at hcs
        rw [hcrs, hgs, List.append_assoc] at hcs
        have := List.append_cancel_left hcs
        subst this
        exact absurd he (hlow _ hfront)
      · unfold createNewEntriesFromReferences at hcr
        have hvals := createLoop_values space tag placeholder _ _ _ _ _ hcr
        rw [hcr] at hcrs
        simp only at hcrs
        have hst2 : st2.calls = st0.calls ++ (gs ++ crs) := by
          rw [hcrs, hgs, List.append_assoc]
        have hPnew : ∀ k v, Dict.find newReferences k = some v →
            ∃ pre type fields post c,
              gs ++ crs = pre ++ Call.createEntry type fields :: post ∧
              space.createEntry (st0.calls ++ pre) type fields = .ok c ∧
              v = { c with fields := v.fields } := by
          intro k v hk
          rcases hvals k v hk with h | ⟨pre, type, fields, post, h1, h2⟩
          · simp [Dict.find] at h
          · refine ⟨gs ++ pre, type, fields, post, v, ?_, ?_, rfl⟩
            · rw [hcrs, List.append_assoc] at h1
              have := List.append_cancel_left h1
              rw [this]
              simp
            · rw [hgs] at h2
              simpa only [List.append_assoc] using h2
        obtain ⟨args, hargs, hPargs, hPres⟩ := updateLoop_writes space
          (fun v => ∃ pre type fields post c,
              gs ++ crs = pre ++ Call.createEntry type fields :: post ∧
              space.createEntry (st0.calls ++ pre) type fields = .ok c ∧
              v = { c with fields := v.fields })
          (by
            intro v f ⟨pre, type, fields, post, c, h1, h2, h3⟩
            refine ⟨pre, type, fields, post, c, h1, h2, ?_⟩
            rw [h3])
          (forInKeys newReferences) newReferences st2 hPnew
        rcases hrest2 with ⟨err, st3, hur, hrc⟩ | ⟨rewritten, st3, hur, hrc⟩
        · unfold updateReferenceTree at hur
          rw [hur] at hargs
          simp only at hargs
          rw [hrc] at hcs
          simp only at hcs
          rw [hargs, hst2, List.append_assoc] at hcs
          have := List.append_cancel_left hcs
          subst this
          have hmem : e ∈ args := by
            rcases he with he | he
            · rcases List.mem_append.mp he with h | h
              · exact absurd (Or.inl h) (hlow _ hfront)
              · simpa using h
            · rcases List.mem_append.mp he with h | h
              · exact absurd (Or.inr h) (hlow _ hfront)
              · simp at h
          obtain ⟨pre, type, fields, post, c, h1, h2, h3⟩ := hPargs e hmem
          refine ⟨pre, type, fields, post ++ args.map Call.updateEntry, c, ?_, h2, ?_, h3⟩
          · rw [h1]; simp
          · left
            exact List.mem_append.mpr (Or.inr (List.mem_map.mpr ⟨e, hmem, rfl⟩))
        · unfold updateReferenceTree at hur
          rw [hur] at hargs hPres
          simp only at hargs hPres
          rw [hrc] at hcs
          simp only [publishEntries, publishLoop_spec] at hcs
          rw [hargs, hst2] at hcs
          simp only [List.append_assoc] at hcs
          have := List.append_cancel_left hcs
          subst this
          have hP : ∃ pre type fields post c,
              gs ++ crs = pre ++ Call.createEntry type fields :: post ∧
              space.createEntry (st0.calls ++ pre) type fields = .ok c ∧
              e = { c with fields := e.fields } := by
            rcases he with he | he
            · simp only [List.mem_append] at he
              rcases he with h | h | h | h
              · exact absurd (Or.inl (List.mem_append.mpr (Or.inl h))) (hlow _ hfront)
              · exact absurd (Or.inl (List.mem_append.mpr (Or.inr h))) (hlow _ hfront)
              · exact hPargs e (by simpa using h)
              · simp at h
            · simp only [List.mem_append] at he
              rcases he with h | h | h | h
              · exact absurd (Or.inr (List.mem_append.mpr (Or.inl h))) (hlow _ hfront)
              · exact absurd (Or.inr (List.mem_append.mpr (Or.inr h))) (hlow _ hfront)
              · simp at h
              · obtain ⟨p, hp, hpe⟩ := List.mem_map.mp h
                simp at hpe
                subst hpe
                exact hPres rewritten rfl p.1 p.2 (forInPairs_find _ p hp)
          obtain ⟨pre, type, fields, post, c, h1, h2, h3⟩ := hP
          refine ⟨pre, type, fields,
            post ++ (args.map Call.updateEntry
              ++ (forInPairs rewritten).map (fun p => Call.publishEntry p.2)), c, ?_, h2, ?_, h3⟩
          · rw [← List.append_assoc gs crs, h1]; simp
          · rcases he with he | he
            · left
              simp only [List.mem_append] at he ⊢
              rcases he with h | h | h | h
              · exact absurd (Or.inl (List.mem_append.mpr (Or.inl h))) (hlow _ hfront)
              · exact absurd (Or.inl (List.mem_append.mpr (Or.inr h))) (hlow _ hfront)
              · exact Or.inr (Or.inl h)
              · exact Or.inr (Or.inr h)
            · right
              simp only [List.mem_append] at he ⊢
              rcases he with h | h | h | h
              · exact absurd (Or.inr (List.mem_append.mpr (Or.inl h))) (hlow _ hfront)
              · exact absurd (Or.inr (List.mem_append.mpr (Or.inr h))) (hlow _ hfront)
              · exact Or.inr (Or.inl h)
              · exact Or.inr (Or.inr h)
  refine ⟨key, ?_⟩
  obtain ⟨pre, type, fields, post, c, _, h2, _, h3⟩ := key
  have hid : e.id = c.id := by rw [h3]
  rw [hid]
  exact hfresh _ _ _ c h2

theorem createCopy_id_length (calls : List Call) (type : String) (fields : Fields) (c : Entry)
    (h : createCopy calls type fields = .ok c) : 5 ≤ c.id.length := by
  simp only [createCopy, Except.ok.injEq] at h
  subst h
  simp only [String.length_append]
  have : "copy-".length = 5 := by decide
  omega

theorem diamond_fresh (history : List Call) (type : String) (fields : Fields) (c : Entry)
    (h : diamond.createEntry history type fields = .ok c) :
    c.id ∉ Dict.keys diamond.entries := by
  intro hmem
  have h5 := createCopy_id_length _ _ _ _ h
  have h1 : ∀ k ∈ Dict.keys diamond.entries, k.length = 1 := by decide!
  have := h1 _ hmem
  omega

set_option maxRecDepth 100000 in
/-- C19 in the end-to-end scenario: the record passed to `updateEntry` and to `publishEntry`
for `B` is the new record `copy-5`, and `copy-5` is not an id of the store. -/
theorem originals_never_written_witness :
    (∃ pre type fields post c,
      diamondPublished.calls = pre ++ Call.createEntry type fields :: post ∧
      diamond.createEntry (emptyState.calls ++ pre) type fields = .ok c ∧
      (Call.updateEntry (page "copy-5" [("child", [("de-DE", .arr [entryLink "copy-6"])])])
          ∈ post ∨
        Call.publishEntry (page "copy-5" [("child", [("de-DE", .arr [entryLink "copy-6"])])])
          ∈ post) ∧
      page "copy-5" [("child", [("de-DE", .arr [entryLink "copy-6"])])]
        = { c with fields :=
              (page "copy-5" [("child", [("de-DE", .arr [entryLink "copy-6"])])]).fields }) ∧
    (page "copy-5" [("child", [("de-DE", .arr [entryLink "copy-6"])])]).id
      ∉ Dict.keys diamond.entries :=
  originals_never_written diamond (List.replicate 8 0) "R" "v2" "PLACEHOLDER" emptyState
    diamondPublished.calls (page "copy-5" [("child", [("de-DE", .arr [entryLink "copy-6"])])])
    diamond_fresh (by rw [diamond_run]; rfl) (Or.inl (by decide!))


/-! ## What `updateEntry` returns -/

theorem forInPairs_of_forall2 {α : Type} (d : Dict α) :
    ∀ (ks : List String) (args : List α),
      List.Forall₂ (fun k a => Dict.find d k = some a) ks args →
      (ks.filterMap (fun k => (Dict.find d k).map (fun v => (k, v)))).map Prod.snd = args := by
  intro ks args h
  induction h with
  | nil => rfl
  | cons hhead _ ih => simp [List.filterMap_cons, hhead, ih]

theorem resume_other_update (space : Space)
    (upd2 : List Call → Entry → Except String Entry) (k : Nat) (task : Task) (st : State) :
    resume { space with updateEntry := upd2 } k task st = resume space k task st := rfl

theorem run_other_update (space : Space) (upd2 : List Call → Entry → Except String Entry) :
    ∀ (schedule : List Nat) (task : Task) (st : State),
      run { space with updateEntry := upd2 } schedule task st = run space schedule task st := by
  intro schedule
  induction schedule with
  | nil => intro task st; simp [run]
  | cons k ks ih =>
    intro task st
    cases task with
    | done => simp [run]
    | timer id => simp only [run, resume_other_update, ih]
    | fetch id => simp only [run, resume_other_update, ih]
    | explore id cur rest => simp only [run, resume_other_update, ih]
    | all ts => simp only [run, resume_other_update, ih]

theorem createLoop_other_update (space : Space)
    (upd2 : List Call → Entry → Except String Entry) (tag placeholder : String) :
    ∀ (ids : List String) (st : State) (acc : Dict Entry),
      createLoop { space with updateEntry := upd2 } tag placeholder ids st acc
        = createLoop space tag placeholder ids st acc := by
  intro ids
  induction ids with
  | nil => intro st acc; simp [createLoop]
  | cons entryId ids ih =>
    intro st acc
    simp only [createLoop, ih]

/-- A completed run of the loop of `updateReferenceTree` is the same for every other
`updateEntry` that succeeds: what the store returns is not used. -/
theorem updateLoop_other_update (space : Space)
    (upd2 : List Call → Entry → Except String Entry)
    (hupd : ∀ calls e, ∃ r, upd2 calls e = .ok r) :
    ∀ (ids : List String) (cur : Dict Entry) (st : State) (res : Dict Entry) (st2 : State),
      updateLoop space ids cur st = (.ok res, st2) →
      updateLoop { space with updateEntry := upd2 } ids cur st = (.ok res, st2) := by
  intro ids
  induction ids with
  | nil => intro cur st res st2 h; simpa [updateLoop] using h
  | cons entryId ids ih =>
    intro cur st res st2 h
    unfold updateLoop at h ⊢
    cases hf : Dict.find cur entryId with
    | none => simp [hf] at h
    | some entry =>
      cases hu : updateFields cur entry.fields with
      | error e => simp [hf, hu] at h
      | ok fields =>
        cases hs : space.updateEntry st.calls { entry with fields := fields } with
        | error msg => simp [hf, hu, hs] at h
        | ok ret =>
          simp only [hf, hu, hs] at h
          obtain ⟨r, hr⟩ := hupd st.calls { entry with fields := fields }
          simp only [hu, hr]
          exact ih _ _ _ _ h

theorem publishEntries_other_update (space : Space)
    (upd2 : List Call → Entry → Except String Entry) (d : Dict Entry) (st : State) :
    publishEntries { space with updateEntry := upd2 } d st = publishEntries space d st := by
  simp only [publishEntries, publishLoop_spec]

theorem returnValue_returned (d : Dict Entry) (k : String) (r : Option Entry)
    (h : returnValue d k = .returned r) : r = Dict.find d k := by
  unfold returnValue at h
  cases hf : Dict.find d k with
  | some e =>
    rw [hf] at h
    simp only [Outcome.returned.injEq] at h
    exact h.symm
  | none =>
    rw [hf] at h
    by_cases hi : inherited k = true
    · simp [hi] at h
    · simp only [hi] at h
      simp only [Bool.false_eq_true, if_false, Outcome.returned.injEq] at h
      exact h.symm

/-- C20: take a run of `recursiveClone` that returns.  Its store calls are those of discovery
and creation (`front`), then one `updateEntry` and later one `publishEntry` per record of the
Clone Map, both with the same argument: the record of the Clone Map after the rewriting, which
is the record `createEntry` returned with its fields replaced (it keeps the id, content type
and version that `createEntry` gave it), and in which every Entry link that the rewriter
reaches points at the clone of its former target.  The record returned is the one of these
records stored for the root.  What `updateEntry` returned has no part in it: the run returns
the same record and makes the same calls for every other `updateEntry` that succeeds. -/
theorem update_result_discarded (space : Space) (schedule : List Nat)
    (root tag placeholder : String) (st0 : State) (r : Option Entry) (st : State)
    (h : recursiveClone space schedule root tag placeholder st0 = (.returned r, st)) :
    (∃ (newReferences rewritten : Dict Entry) (front : List Call),
      st.calls = st0.calls ++ front
        ++ (forInPairs rewritten).map (fun p => Call.updateEntry p.2)
        ++ (forInPairs rewritten).map (fun p => Call.publishEntry p.2) ∧
      (∀ d ∈ front, Call.phase d ≤ 1) ∧
      r = Dict.find rewritten root ∧
      Dict.keys rewritten = Dict.keys newReferences ∧
      ∀ k a, Dict.find rewritten k = some a →
        ∃ c, Dict.find newReferences k = some c ∧
          (∃ pre type fields post,
            front = pre ++ Call.createEntry type fields :: post ∧
            space.createEntry (st0.calls ++ pre) type fields = .ok c) ∧
          a = { c with fields := a.fields } ∧
          (fieldLinks a.fields).map some
            = (fieldLinks c.fields).map (fun t => (Dict.find newReferences t).map Entry.id)) ∧
    ∀ upd2 : List Call → Entry → Except String Entry,
      (∀ calls e, ∃ r2, upd2 calls e = .ok r2) →
      recursiveClone { space with updateEntry := upd2 } schedule root tag placeholder st0
        = (.returned r, st) := by
  rcases recursiveClone_cases space schedule root tag placeholder st0 with
    ⟨err, st1, hd, hrc⟩ | ⟨task, st1, hd, hnd, hrc⟩ | ⟨st1, hd, hrest⟩
  · rw [hrc] at h; simp at h
  · rw [hrc] at h; simp at h
  · rcases hrest with ⟨err, st2, hcr, hrc⟩ | ⟨newReferences, st2, hcr, hrest2⟩
    · rw [hrc] at h; simp at h
    · rcases hrest2 with ⟨err, st3, hur, hrc⟩ | ⟨rewritten, st3, hur, hrc⟩
      · rw [hrc] at h; simp at h
      · rw [hrc] at h
        simp only [Prod.mk.injEq, Outcome.returned.injEq] at h
        obtain ⟨hr, hst⟩ := h
        constructor
        · -- discovery
          obtain ⟨gs, hgs, hg0⟩ := run_calls space schedule
            (findReferences ([] : Dict Entry) root)
            { references := [], referenceCount := 0, newReferenceCount := 0,
              updatedReferenceCount := 0, publishedCount := 0, calls := st0.calls }
          have hnd1 := run_keys_nodup space schedule (findReferences ([] : Dict Entry) root)
            { references := [], referenceCount := 0, newReferenceCount := 0,
              updatedReferenceCount := 0, publishedCount := 0, calls := st0.calls }
            (by simp [Dict.keys])
          unfold discover at hd
          simp only at hd
          rw [hd] at hgs hnd1
          simp only at hgs hnd1
          have hndk := forInKeys_nodup _ hnd1
          -- creation
          unfold createNewEntriesFromReferences at hcr
          obtain ⟨crs, hcrs, hc1⟩ := createLoop_calls space tag placeholder
            (forInKeys st1.references) st1 []
          rw [hcr] at hcrs
          simp only at hcrs
          obtain ⟨hk1, _⟩ :=
            createLoop_spec space tag placeholder _ _ _ _ _ hndk (by simp [Dict.keys]) hcr
          have hkeys : Dict.keys newReferences = forInKeys st1.references := by
            rw [hk1]; simp [Dict.keys]
          have hndn : (Dict.keys newReferences).Nodup := by rw [hkeys]; exact hndk
          have hvals := createLoop_values space tag placeholder _ _ _ _ _ hcr
          -- rewriting
          unfold updateReferenceTree at hur
          obtain ⟨hkr, hspec⟩ := updateLoop_spec space _ _ _ _ _ (forInKeys_nodup _ hndn) hur
          obtain ⟨_, args, hargs, hall⟩ :=
            updateLoop_args space _ _ _ _ _ (forInKeys_nodup _ hndn) hur
          have hfk : forInKeys rewritten = forInKeys newReferences := by
            unfold forInKeys; rw [hkr]
          have hpairs : (forInPairs rewritten).map Prod.snd = args := by
            unfold forInPairs
            rw [hfk]
            exact forInPairs_of_forall2 rewritten _ _ hall
          refine ⟨newReferences, rewritten, gs ++ crs, ?_, ?_,
            returnValue_returned _ _ _ hr, hkr, ?_⟩
          · rw [← hst]
            simp only [publishEntries, publishLoop_spec]
            rw [hargs, hcrs, hgs, ← hpairs]
            simp only [List.map_map, List.append_assoc]
            rfl
          · intro d hd2
            rcases List.mem_append.mp hd2 with h1 | h1
            · rw [hg0 d h1]; omega
            · rw [hc1 d h1]
          · intro k a hka
            have hkm : k ∈ Dict.keys newReferences := by
              rw [← hkr]; exact Dict.find_some_mem_keys _ _ _ hka
            obtain ⟨c, hc⟩ := Dict.mem_keys_find _ _ hkm
            obtain ⟨e2, h1, ⟨f, h2⟩, _, _, h4⟩ := hspec k c hc
            rw [hka] at h1
            cases h1
            refine ⟨c, hc, ?_, by rw [h2], h4 ((mem_forInKeys _ _).mpr hkm)⟩
            rcases hvals k c hc with h5 | ⟨pre, type, fields, post, h5, h6⟩
            · simp [Dict.find] at h5
            · refine ⟨gs ++ pre, type, fields, post, ?_, ?_⟩
              · rw [hcrs, List.append_assoc] at h5
                rw [List.append_cancel_left h5]
                simp
              · rw [hgs] at h6
                simpa only [List.append_assoc] using h6
        · intro upd2 hupd
          rw [recursiveClone_returned { space with updateEntry := upd2 } schedule root tag
            placeholder st0 st1 newReferences st2 rewritten st3
            (by
              unfold discover at hd ⊢
              simp only at hd ⊢
              rw [run_other_update]
              exact hd)
            (by
              unfold createNewEntriesFromReferences at hcr ⊢
              rw [createLoop_other_update]
              exact hcr)
            (by
              unfold updateReferenceTree at hur ⊢
              exact updateLoop_other_update space upd2 hupd _ _ _ _ _ hur),
            publishEntries_other_update, hr, hst]

set_option maxRecDepth 100000 in
/-- C20 in the end-to-end scenario, whose store returns from `updateEntry` the record with the
next version: the store answered the update of the root's clone with version 2, and the run
returns (and publishes) the record with version 1. -/
theorem update_result_discarded_witness :
    (diamond.updateEntry diamondCreated.calls
        (page "copy-4" [("internal", [("de-DE", .str "Root v2")]),
                        ("left", [("de-DE", entryLink "copy-5")]),
                        ("right", [("de-DE", entryLink "copy-7")])])
      = .ok { id := "copy-4", contentType := "page", version := 2,
              fields := [("internal", [("de-DE", .str "Root v2")]),
                         ("left", [("de-DE", entryLink "copy-5")]),
                         ("right", [("de-DE", entryLink "copy-7")])] } ∧
      (page "copy-4" [("internal", [("de-DE", .str "Root v2")]),
                      ("left", [("de-DE", entryLink "copy-5")]),
                      ("right", [("de-DE", entryLink "copy-7")])]).version = 1) ∧
    ((∃ (newReferences rewritten : Dict Entry) (front : List Call),
      diamondPublished.calls = emptyState.calls ++ front
        ++ (forInPairs rewritten).map (fun p => Call.updateEntry p.2)
        ++ (forInPairs rewritten).map (fun p => Call.publishEntry p.2) ∧
      (∀ d ∈ front, Call.phase d ≤ 1) ∧
      some (page "copy-4" [("internal", [("de-DE", .str "Root v2")]),
                           ("left", [("de-DE", entryLink "copy-5")]),
                           ("right", [("de-DE", entryLink "copy-7")])])
        = Dict.find rewritten "R" ∧
      Dict.keys rewritten = Dict.keys newReferences ∧
      ∀ k a, Dict.find rewritten k = some a →
        ∃ c, Dict.find newReferences k = some c ∧
          (∃ pre type fields post,
            front = pre ++ Call.createEntry type fields :: post ∧
            diamond.createEntry (emptyState.calls ++ pre) type fields = .ok c) ∧
          a = { c with fields := a.fields } ∧
          (fieldLinks a.fields).map some
            = (fieldLinks c.fields).map (fun t => (Dict.find newReferences t).map Entry.id)) ∧
    ∀ upd2 : List Call → Entry → Except String Entry,
      (∀ calls e, ∃ r2, upd2 calls e = .ok r2) →
      recursiveClone { diamond with updateEntry := upd2 } (List.replicate 8 0) "R" "v2"
          "PLACEHOLDER" emptyState
        = (.returned (some (page "copy-4" [("internal", [("de-DE", .str "Root v2")]),
                                           ("left", [("de-DE", entryLink "copy-5")]),
                                           ("right", [("de-DE", entryLink "copy-7")])])),
           diamondPublished)) :=
  ⟨by decide!,
   update_result_discarded diamond (List.replicate 8 0) "R" "v2" "PLACEHOLDER" emptyState
     _ _ diamond_run⟩

end DeepCopy
